import Mathlib

/-!
Shallow embedding of the `SpatialHash` visibility-culling index
(src/spatialHash.ts) and verification of its specification claims.

Conventions of the embedding:
* JS numbers are modelled as rationals (`ℚ`); all arithmetic in the source
  is exact on the inputs we consider, so no rounding model is needed.
* The string cell key `"${x},${y}"` is modelled as the pair `(x, y) : ℤ × ℤ`;
  the JS string is in bijection with the pair.
* The JS hash object `{ [key]: DisplayObject[] }` is modelled as an
  insertion-ordered association list `List (Key × List Id)`; `for…in`
  enumeration order over non-index string keys is insertion order.
* Display objects and containers are mutable heap entities; the embedding
  threads explicit stores `objs : Id → Obj` and `conts : CId → Container`
  through every operation.
* `undefined` fields (`object.AABB`, `object.spatial`, the cached cell
  range) are modelled with `Option`.
-/

namespace PixiCull

abbrev Id := Nat
abbrev CId := Nat
abbrev Key := Int × Int

/-- `AABB` interface from src/types.ts: `{x, y, width, height}`. -/
structure AABB where
  x : ℚ
  y : ℚ
  width : ℚ
  height : ℚ
deriving DecidableEq, Repr

/-- `SpatialHashBounds`: the cell range `{xStart, yStart, xEnd, yEnd}`. -/
structure SpatialHashBounds where
  xStart : ℤ
  yStart : ℤ
  xEnd : ℤ
  yEnd : ℤ
deriving DecidableEq, Repr

/-- `object.spatial`: the list of occupied cell keys plus the cached cell
range.  In the source the four range fields are always written together
(`updateObject`), so they are modelled as one optional record; right after
`object.spatial = { hashes: [] }` they are all `undefined` (`none`). -/
@[ext]
structure Spatial where
  hashes : List Key
  bounds : Option SpatialHashBounds
deriving DecidableEq, Repr

/-- `DisplayObjectWithCulling`: position, pivot, scale, the intrinsic
`getLocalBounds()` box, and the fields maintained by the index
(`AABB`, `spatial`, `dirty`, `staticObject`, `visible`). -/
structure Obj where
  x : ℚ
  y : ℚ
  pivotX : ℚ
  pivotY : ℚ
  scaleX : ℚ
  scaleY : ℚ
  boxX : ℚ
  boxY : ℚ
  boxWidth : ℚ
  boxHeight : ℚ
  aabb : Option AABB
  spatial : Option Spatial
  dirty : Bool
  staticObject : Bool
  visible : Bool
deriving DecidableEq, Repr

/-- The two closures `added`/`removed` that `addContainer` subscribes;
they capture only the hash (`this`), so each is determined by its tag. -/
inductive Handler where
  | hAdded
  | hRemoved
deriving DecidableEq, Repr

/-- Event names used by `addContainer`/`removeContainer`.  `removedFrom`
appears (only) in `removeContainer`'s `off` call. -/
inductive Ev where
  | childAdded
  | childRemoved
  | removedFrom
deriving DecidableEq, Repr

/-- `ContainerCullObject` (`container.cull`): the static flag and the two
stored handler references. -/
structure CullData where
  staticFlag : Bool
  added : Option Handler
  removed : Option Handler
deriving DecidableEq, Repr

/-- A pixi `Container` as far as the index observes it: its child list,
the `cull` slot the index attaches, and its event-listener registry. -/
structure Container where
  children : List Id
  cull : Option CullData
  listeners : List (Ev × Handler)
deriving DecidableEq, Repr

/-- The whole mutable world: the `SpatialHash` instance fields plus the
stores for display objects and containers it mutates. -/
@[ext]
structure State where
  xSize : ℚ
  ySize : ℚ
  simpleTest : Bool
  dirtyTest : Bool
  hash : List (Key × List Id)
  elements : List Id
  containers : List CId
  objs : Id → Obj
  conts : CId → Container
  lastBuckets : Nat

/-- Write one display object back to the store. -/
def setObj (s : State) (i : Id) (o : Obj) : State :=
  { s with objs := fun j => if j = i then o else s.objs j }

/-- Write one container back to the store. -/
def setCont (s : State) (c : CId) (ct : Container) : State :=
  { s with conts := fun d => if d = c then ct else s.conts d }

/-- JS `list.splice(list.indexOf(x), 1)`: removes the first occurrence of
`x` when present; when `indexOf` returns `-1`, `splice(-1, 1)` removes the
*last* element (and nothing when the list is empty). -/
def jsSplice {α : Type} [DecidableEq α] (l : List α) (x : α) : List α :=
  if x ∈ l then l.erase x else l.dropLast

/-- Lookup of `this.hash[key]`; `none` is JS `undefined`. -/
def bucket (h : List (Key × List Id)) (k : Key) : Option (List Id) :=
  (h.find? (fun e => decide (e.1 = k))).map Prod.snd

/-- Overwrite the list stored under `k` (the key is known to be present). -/
def setBucket (h : List (Key × List Id)) (k : Key) (l : List Id) :
    List (Key × List Id) :=
  h.map (fun e => if e.1 = k then (k, l) else e)

/-- The list stored under `k`, or `[]` when the bucket does not exist. -/
def bucketOf (s : State) (k : Key) : List Id :=
  (bucket s.hash k).getD []

/-- The hash update of `SpatialHash.insert(object, key)`: create the
bucket with `[object]`, or push onto the existing one. -/
def insertHash (h : List (Key × List Id)) (i : Id) (k : Key) : List (Key × List Id) :=
  match bucket h k with
  | none => h ++ [(k, [i])]
  | some l => setBucket h k (l ++ [i])

/-- `SpatialHash.insert(object, key)`. -/
def insert (s : State) (i : Id) (k : Key) : State :=
  { s with hash := insertHash s.hash i k }

/-- One iteration of the `removeFromHash` loop body on the hash: splice
the object out of the bucket under `k`.  The source would raise a
TypeError if the recorded key had no bucket; that branch is unreachable
because keys are recorded only right after `insert` creates the bucket
and buckets are never deleted, and it is modelled as a no-op. -/
def popStep (i : Id) (k : Key) (h : List (Key × List Id)) : List (Key × List Id) :=
  match bucket h k with
  | none => h
  | some l => setBucket h k (jsSplice l i)

/-- The popping loop of `removeFromHash`: for each key (popped from the
end of `spatial.hashes`) splice the object out of that bucket. -/
def popKeys (i : Id) : List Key → List (Key × List Id) → List (Key × List Id)
  | [], h => h
  | k :: ks, h => popKeys i ks (popStep i k h)

/-- `SpatialHash.removeFromHash(object)`: pops every recorded key, splicing
the object out of that bucket; leaves the cached cell range in place and
the recorded key list empty.  No-op when `object.spatial` is undefined. -/
def removeFromHash (s : State) (i : Id) : State :=
  match (s.objs i).spatial with
  | none => s
  | some sp =>
    let s1 := { s with hash := popKeys i sp.hashes.reverse s.hash }
    setObj s1 i { s1.objs i with spatial := some { sp with hashes := [] } }

/-- `SpatialHash.getBounds(AABB)`: the covered cell range. -/
def getBounds (s : State) (a : AABB) : SpatialHashBounds :=
  { xStart := ⌊a.x / s.xSize⌋
    yStart := ⌊a.y / s.ySize⌋
    xEnd := ⌊(a.x + a.width) / s.xSize⌋
    yEnd := ⌊(a.y + a.height) / s.ySize⌋ }

/-- `[a, a+1, …, b]` (empty when `b < a`), the values taken by a JS
`for (let v = a; v <= b; v++)` loop. -/
def intRange (a b : ℤ) : List ℤ :=
  (List.range (b + 1 - a).toNat).map (fun n : ℕ => a + (n : ℤ))

/-- The keys produced by the nested `for (y…) for (x…)` loops of
`updateObject`/`query`, in traversal order. -/
def cellKeys (b : SpatialHashBounds) : List Key :=
  (intRange b.yStart b.yEnd).flatMap
    (fun y => (intRange b.xStart b.xEnd).map (fun x => (x, y)))

/-- The world AABB computed at the top of `updateObject`:
`position + (box origin − pivot) * scale`, sized `box size * scale`. -/
def computeAABB (o : Obj) : AABB :=
  { x := o.x + (o.boxX - o.pivotX) * o.scaleX
    y := o.y + (o.boxY - o.pivotY) * o.scaleY
    width := o.boxWidth * o.scaleX
    height := o.boxHeight * o.scaleY }

/-- One iteration of the insertion loop of `updateObject`: `insert` into
the hash and push the key onto `spatial.hashes`. -/
def insertStep (i : Id) (st : State) (k : Key) : State :=
  let st1 := insert st i k
  let o := st1.objs i
  match o.spatial with
  | none => st1
  | some sp => setObj st1 i { o with spatial := some { sp with hashes := sp.hashes ++ [k] } }

/-- The insertion loop of `updateObject` over the keys of the new range. -/
def insertAll (s : State) (i : Id) (ks : List Key) : State :=
  ks.foldl (insertStep i) s

/-- `SpatialHash.updateObject(object)`: recompute and store the AABB,
create `spatial` if missing, and when the covered cell range differs from
the cached one, purge current memberships (when any), insert into every
cell of the new range and cache it. -/
def updateObject (s : State) (i : Id) : State :=
  let o := s.objs i
  let a := computeAABB o
  let o1 := { o with aabb := some a }
  let sp := o1.spatial.getD { hashes := [], bounds := none }
  let o2 := { o1 with spatial := some sp }
  let s1 := setObj s i o2
  let nb := getBounds s a
  if sp.bounds = some nb then s1
  else
    let s2 := if sp.hashes = [] then s1 else removeFromHash s1 i
    let s3 := insertAll s2 i (cellKeys nb)
    match (s3.objs i).spatial with
    | none => s3
    | some sp3 => setObj s3 i { s3.objs i with spatial := some { sp3 with bounds := some nb } }

/-- `SpatialHash.add(object, staticObject)`: fresh spatial state, mark
dirty when dirty-tracking is on, mark static when requested, index
immediately, append to the element list. -/
def add (s : State) (i : Id) (staticObject : Bool) : State :=
  let o := s.objs i
  let o1 := { o with
    spatial := some { hashes := [], bounds := none }
    dirty := if s.dirtyTest then true else o.dirty
    staticObject := if staticObject then true else o.staticObject }
  let s1 := updateObject (setObj s i o1) i
  { s1 with elements := s1.elements ++ [i] }

/-- `SpatialHash.remove(object)`:
`elements.splice(elements.indexOf(object), 1)` then `removeFromHash`. -/
def remove (s : State) (i : Id) : State :=
  removeFromHash { s with elements := jsSplice s.elements i } i

/-- The body of the `added` closure of `addContainer` (also run for each
current child at registration): fresh spatial state then `updateObject`. -/
def registerChild (s : State) (i : Id) : State :=
  updateObject (setObj s i { s.objs i with spatial := some { hashes := [], bounds := none } }) i

/-- `SpatialHash.addContainer(container, staticObject)`: index every
current child, attach `container.cull`, push onto the container list, and
subscribe the `added`/`removed` closures to `childAdded`/`childRemoved`. -/
def addContainer (s : State) (c : CId) (staticObject : Bool) : State :=
  let s1 := (s.conts c).children.foldl registerChild s
  let ct := s1.conts c
  let s2 := setCont s1 c
    { ct with
      cull := some { staticFlag := staticObject, added := some .hAdded, removed := some .hRemoved }
      listeners := ct.listeners ++ [(.childAdded, .hAdded), (.childRemoved, .hRemoved)] }
  { s2 with containers := s2.containers ++ [c] }

/-- `EventEmitter.off(event, fn)` as implemented by pixi's emitter: with a
function given, remove the matching listeners of that event; with
`undefined`, remove every listener of that event. -/
def offListeners (l : List (Ev × Handler)) (e : Ev) (h : Option Handler) :
    List (Ev × Handler) :=
  match h with
  | none => l.filter (fun p => decide (p.1 ≠ e))
  | some hh => l.filter (fun p => !(decide (p.1 = e) && decide (p.2 = hh)))

/-- `SpatialHash.removeContainer(container)`: splice the container out of
the tracked list, purge every current child from the hash, then
`off('childAdded', cull?.added)` and `off('removedFrom', cull?.removed)`
(the source passes the event name `removedFrom` here), and delete
`container.cull`. -/
def removeContainer (s : State) (c : CId) : State :=
  let s1 := { s with containers := jsSplice s.containers c }
  let s2 := (s1.conts c).children.foldl (fun st i => removeFromHash st i) s1
  let ct := s2.conts c
  let l1 := offListeners ct.listeners .childAdded (ct.cull.bind (·.added))
  let l2 := offListeners l1 .removedFrom (ct.cull.bind (·.removed))
  setCont s2 c { ct with listeners := l2, cull := none }

/-- One step of the dirty-test loops of `updateObjects`: re-index and
clear the flag when the object is dirty. -/
def dirtyStep (st : State) (i : Id) : State :=
  if (st.objs i).dirty then
    let st1 := updateObject st i
    setObj st1 i { st1.objs i with dirty := false }
  else st

/-- `container.cull?.static`, with JS `undefined` being falsy. -/
def contStatic (ct : Container) : Bool :=
  match ct.cull with
  | none => false
  | some cd => cd.staticFlag

/-- One step of the full-scan element loop of `updateObjects`: re-index
unless the object is static. -/
def fullStep (st : State) (i : Id) : State :=
  if (st.objs i).staticObject then st else updateObject st i

/-- One container of the dirty-test loop of `updateObjects`: skip static
containers, re-index (and clear) the dirty children of the rest. -/
def dirtyContStep (st : State) (c : CId) : State :=
  if contStatic (st.conts c) then st
  else (st.conts c).children.foldl dirtyStep st

/-- One container of the full-scan loop of `updateObjects`: skip static
containers, re-index every child of the rest. -/
def fullContStep (st : State) (c : CId) : State :=
  if contStatic (st.conts c) then st
  else (st.conts c).children.foldl updateObject st

/-- `SpatialHash.updateObjects()`: in dirty-test mode, visit every element
and every child of every non-static container, re-indexing (and clearing)
the dirty ones; in full-scan mode, re-index every non-static element and
every child of every non-static container unconditionally. -/
def updateObjects (s : State) : State :=
  if s.dirtyTest then
    let s1 := s.elements.foldl dirtyStep s
    s1.containers.foldl dirtyContStep s1
  else
    let s1 := s.elements.foldl fullStep s
    s1.containers.foldl fullContStep s1

/-- Set one object's `visible` flag. -/
def setVis (b : Bool) (st : State) (i : Id) : State :=
  setObj st i { st.objs i with visible := b }

/-- One container of the `invisible` loop. -/
def visContStep (st : State) (c : CId) : State :=
  (st.conts c).children.foldl (setVis false) st

/-- `SpatialHash.invisible()`: set every element and every container child
to `visible = false`. -/
def invisible (s : State) : State :=
  let s1 := s.elements.foldl (setVis false) s
  s1.containers.foldl visContStep s1

/-- The strict/half-open rectangle intersection test used by
`query`/`queryCallbackAll` under `simpleTest`:
`box.x + box.width > q.x && box.x < q.x + q.width`, symmetric on y. -/
def aabbTest (box q : AABB) : Bool :=
  decide (box.x + box.width > q.x) && decide (box.x < q.x + q.width) &&
  decide (box.y + box.height > q.y) && decide (box.y < q.y + q.height)

/-- `object.AABB` as read by the query loops.  It is `undefined` only for
an object that was never indexed, which can never sit in a bucket; the
default value stands in for the TypeError the source would raise there. -/
def cachedAABB (o : Obj) : AABB :=
  o.aabb.getD { x := 0, y := 0, width := 0, height := 0 }

/-- The traversal of `SpatialHash.query`: accumulates the visited-bucket
count and the result list over the cells covering the query rectangle.
A bucket contributes when present (`if (entry)`), its members filtered by
`aabbTest` under `simpleTest` and taken wholesale otherwise. -/
def queryLoop (s : State) (q : AABB) (simpleTest : Bool) : Nat × List Id :=
  (cellKeys (getBounds s q)).foldl
    (fun acc k =>
      match bucket s.hash k with
      | none => acc
      | some entry =>
        if simpleTest then
          (acc.1 + 1, acc.2 ++ entry.filter (fun i => aabbTest (cachedAABB (s.objs i)) q))
        else
          (acc.1 + 1, acc.2 ++ entry))
    (0, [])

/-- `SpatialHash.query(AABB, simpleTest)`: returns the matches and records
the visited-bucket count in `lastBuckets`. -/
def query (s : State) (q : AABB) (simpleTest : Bool) : State × List Id :=
  let r := queryLoop s q simpleTest
  ({ s with lastBuckets := r.1 }, r.2)

/-- `SpatialHash.cull(AABB, skipUpdate)` on the no-callback path:
optionally refresh, mark everything invisible, query with the instance's
`simpleTest`, and mark every returned object visible. -/
def cull (s : State) (q : AABB) (skipUpdate : Bool) : State :=
  let s1 := if skipUpdate then s else updateObjects s
  let s2 := invisible s1
  let r := query s2 q s2.simpleTest
  r.2.foldl (setVis true) r.1

/-- `SpatialHash.queryCallback(AABB, callback, simpleTest)`: iterate the
buckets of the covered cells, stop with `true` as soon as the callback
returns `true`.  In the source the `simpleTest` branch declares
`const AABB = object.AABB`, shadowing the query-rectangle parameter, so
its four comparisons test the member's box against itself — i.e. they
reduce to `width > 0 && height > 0` — instead of against the rectangle. -/
def queryCallback (s : State) (q : AABB) (cb : Id → Bool) (simpleTest : Bool) : Bool :=
  (cellKeys (getBounds s q)).any
    (fun k =>
      match bucket s.hash k with
      | none => false
      | some entry =>
        entry.any (fun i =>
          if simpleTest then
            let box := cachedAABB (s.objs i)
            (decide (box.x + box.width > box.x) && decide (box.x < box.x + box.width) &&
             decide (box.y + box.height > box.y) && decide (box.y < box.y + box.height)) &&
            cb i
          else cb i))

/-- `SpatialHash.getBuckets(minimum = 1)`: the bucket lists holding at
least `minimum` members, in hash-enumeration (insertion) order. -/
def getBuckets (s : State) (minimum : Nat) : List (List Id) :=
  (s.hash.map Prod.snd).filter (fun l => decide (minimum ≤ l.length))

/-- `SpatialHash.getNumberOfBuckets()`: `Object.keys(this.hash).length`. -/
def getNumberOfBuckets (s : State) : Nat :=
  s.hash.length

/-- `SpatialHashOptions`: every field optional. -/
structure SpatialHashOptions where
  size : Option ℚ
  xSize : Option ℚ
  ySize : Option ℚ
  simpleTest : Option Bool
  dirtyTest : Option Bool
deriving DecidableEq, Repr

/-- `SpatialHashDefaultOptions` from the source. -/
def SpatialHashDefaultOptions : SpatialHashOptions :=
  { size := none, xSize := some 1000, ySize := some 1000
    simpleTest := some true, dirtyTest := some true }

/-- The object spread `{ ...defaults, ...options }`: a field given by
`options` overrides the default. -/
def mergeOptions (d o : SpatialHashOptions) : SpatialHashOptions :=
  { size := match o.size with | some v => some v | none => d.size
    xSize := match o.xSize with | some v => some v | none => d.xSize
    ySize := match o.ySize with | some v => some v | none => d.ySize
    simpleTest := match o.simpleTest with | some v => some v | none => d.simpleTest
    dirtyTest := match o.dirtyTest with | some v => some v | none => d.dirtyTest }

/-- The `SpatialHash` constructor: merge the defaults, use `size` for both
dimensions when it is present and truthy (nonzero), otherwise take
`xSize`/`ySize` (always present after the merge); there is no validation
and no failure path.  `objs`/`conts` are the ambient heap of display
objects and containers, owned by the caller. -/
def mkSpatialHash (o? : Option SpatialHashOptions) (objs : Id → Obj)
    (conts : CId → Container) : State :=
  let o := mergeOptions SpatialHashDefaultOptions
    (o?.getD { size := none, xSize := none, ySize := none, simpleTest := none, dirtyTest := none })
  let sizes : ℚ × ℚ := match o.size with
    | some v => if v ≠ 0 then (v, v) else (o.xSize.getD 1000, o.ySize.getD 1000)
    | none => (o.xSize.getD 1000, o.ySize.getD 1000)
  { xSize := sizes.1
    ySize := sizes.2
    simpleTest := o.simpleTest.getD true
    dirtyTest := o.dirtyTest.getD true
    hash := []
    elements := []
    containers := []
    objs := objs
    conts := conts
    lastBuckets := 0 }

/-- Effect of one subscribed closure when its event fires (the closures of
`addContainer`): `added` resets the child's spatial state and indexes it,
`removed` purges the child from the hash. -/
def runHandler (s : State) (h : Handler) (i : Id) : State :=
  match h with
  | .hAdded => registerChild s i
  | .hRemoved => removeFromHash s i

/-- Modelled from the spec (§6 container contract): the container delivers
a child-added/child-removed notification to each listener subscribed for
that event, in subscription order. -/
def emit (s : State) (c : CId) (e : Ev) (i : Id) : State :=
  ((s.conts c).listeners.filter (fun p => decide (p.1 = e))).foldl
    (fun st p => runHandler st p.2 i) s

/-- Modelled from the spec (§6 container contract): removing a child from
a container removes it from the child list and fires the child-removed
notification with that child. -/
def removeChild (s : State) (c : CId) (i : Id) : State :=
  let ct := s.conts c
  emit (setCont s c { ct with children := ct.children.erase i }) c .childRemoved i

/-! ### Derived notions used in the claim statements -/

/-- The keys of the hash map, in insertion order (`Object.keys(this.hash)`). -/
def hashKeys (s : State) : List Key :=
  s.hash.map Prod.fst

/-- All objects the index tracks: the individually added elements plus the
children of every registered container. -/
def trackedIds (s : State) : List Id :=
  s.elements ++ s.containers.flatMap (fun c => (s.conts c).children)

/-- The recorded key list of an object, `[]` when it has no spatial state. -/
def objHashes (o : Obj) : List Key :=
  (o.spatial.map Spatial.hashes).getD []

/-! ### Store lemmas -/

theorem setObj_objs_self (s : State) (i : Id) (o : Obj) :
    (setObj s i o).objs i = o := by
  simp [setObj]

theorem setObj_objs_ne (s : State) (i j : Id) (o : Obj) (h : j ≠ i) :
    (setObj s i o).objs j = s.objs j := by
  simp [setObj, h]

theorem setObj_same (s : State) (i : Id) : setObj s i (s.objs i) = s := by
  ext1 <;> simp [setObj]
  funext j
  by_cases h : j = i <;> simp [h]

@[simp]
theorem setObj_hash (s : State) (i : Id) (o : Obj) : (setObj s i o).hash = s.hash := rfl

@[simp]
theorem setObj_elements (s : State) (i : Id) (o : Obj) :
    (setObj s i o).elements = s.elements := rfl

@[simp]
theorem setObj_containers (s : State) (i : Id) (o : Obj) :
    (setObj s i o).containers = s.containers := rfl

@[simp]
theorem setObj_conts (s : State) (i : Id) (o : Obj) : (setObj s i o).conts = s.conts := rfl

@[simp]
theorem setObj_xSize (s : State) (i : Id) (o : Obj) : (setObj s i o).xSize = s.xSize := rfl

@[simp]
theorem setObj_ySize (s : State) (i : Id) (o : Obj) : (setObj s i o).ySize = s.ySize := rfl

@[simp]
theorem setObj_dirtyTest (s : State) (i : Id) (o : Obj) :
    (setObj s i o).dirtyTest = s.dirtyTest := rfl

@[simp]
theorem setObj_simpleTest (s : State) (i : Id) (o : Obj) :
    (setObj s i o).simpleTest = s.simpleTest := rfl

/-! ### Occurrence counting

A dedicated occurrence counter (defined through `countP`, which carries no
`BEq` instance) keeps all multiplicity reasoning on one instance path. -/

/-- The number of occurrences of `a` in `l`. -/
def cnt {α : Type} [DecidableEq α] (a : α) (l : List α) : Nat :=
  l.countP (fun b => decide (b = a))

theorem cnt_nil {α : Type} [DecidableEq α] (a : α) : cnt a ([] : List α) = 0 := rfl

theorem cnt_cons {α : Type} [DecidableEq α] (a b : α) (l : List α) :
    cnt a (b :: l) = (if b = a then 1 else 0) + cnt a l := by
  by_cases h : b = a
  · simp [cnt, List.countP_cons, h]
    omega
  · simp [cnt, List.countP_cons, h]

theorem cnt_append {α : Type} [DecidableEq α] (a : α) (l1 l2 : List α) :
    cnt a (l1 ++ l2) = cnt a l1 + cnt a l2 := by
  simp [cnt, List.countP_append]

theorem cnt_eq_zero {α : Type} [DecidableEq α] {a : α} {l : List α} :
    cnt a l = 0 ↔ a ∉ l := by
  simp only [cnt, List.countP_eq_zero, decide_eq_true_eq]
  constructor
  · intro h hm
    exact h a hm rfl
  · intro h x hx heq
    exact h (heq ▸ hx)

theorem cnt_pos {α : Type} [DecidableEq α] {a : α} {l : List α} :
    0 < cnt a l ↔ a ∈ l := by
  simp only [cnt, List.countP_pos_iff, decide_eq_true_eq]
  constructor
  · rintro ⟨x, hx, rfl⟩
    exact hx
  · intro h
    exact ⟨a, h, rfl⟩

theorem cnt_singleton {α : Type} [DecidableEq α] (a b : α) :
    cnt a [b] = if b = a then 1 else 0 := by
  rw [show [b] = b :: [] from rfl, cnt_cons, cnt_nil, Nat.add_zero]

theorem cnt_erase_self {α : Type} [DecidableEq α] (a : α) (l : List α) :
    cnt a (l.erase a) = cnt a l - 1 := by
  induction l with
  | nil => rfl
  | cons b l ih =>
    by_cases h : b = a
    · subst h
      rw [List.erase_cons_head, cnt_cons, if_pos rfl]
      omega
    · rw [List.erase_cons_tail (by simpa using h), cnt_cons, cnt_cons, if_neg h, ih]
      omega

theorem cnt_erase_of_ne {α : Type} [DecidableEq α] {a b : α} (hab : a ≠ b) (l : List α) :
    cnt a (l.erase b) = cnt a l := by
  induction l with
  | nil => rfl
  | cons c l ih =>
    by_cases h : c = b
    · subst h
      rw [List.erase_cons_head, cnt_cons, if_neg (fun hh => hab hh.symm)]
      omega
    · rw [List.erase_cons_tail (by simpa using h), cnt_cons, cnt_cons, ih]

theorem cnt_eq_one_of_nodup {α : Type} [DecidableEq α] {l : List α} {a : α}
    (h : l.Nodup) (ha : a ∈ l) : cnt a l = 1 := by
  induction l with
  | nil => exact absurd ha (List.not_mem_nil a)
  | cons b l ih =>
    rw [List.nodup_cons] at h
    rcases List.mem_cons.mp ha with rfl | hm
    · rw [cnt_cons, if_pos rfl, cnt_eq_zero.mpr h.1]
    · have hba : b ≠ a := fun hh => h.1 (hh ▸ hm)
      rw [cnt_cons, if_neg hba, ih h.2 hm]

/-! ### Cell-range lemmas -/

theorem mem_intRange {a b z : ℤ} : z ∈ intRange a b ↔ a ≤ z ∧ z ≤ b := by
  simp only [intRange, List.mem_map, List.mem_range]
  constructor
  · rintro ⟨n, hn, rfl⟩
    constructor
    · omega
    · omega
  · rintro ⟨h1, h2⟩
    exact ⟨(z - a).toNat, by omega, by omega⟩

theorem intRange_nodup (a b : ℤ) : (intRange a b).Nodup := by
  rw [intRange]
  refine List.Nodup.map ?_ (List.nodup_range _)
  intro m n h
  have h2 : a + (m : ℤ) = a + (n : ℤ) := h
  omega

theorem mem_cellKeys {b : SpatialHashBounds} {k : Key} :
    k ∈ cellKeys b ↔ (b.xStart ≤ k.1 ∧ k.1 ≤ b.xEnd) ∧ (b.yStart ≤ k.2 ∧ k.2 ≤ b.yEnd) := by
  obtain ⟨x, y⟩ := k
  simp only [cellKeys, List.mem_flatMap, List.mem_map, Prod.mk.injEq]
  constructor
  · rintro ⟨y', hy', x', hx', rfl, rfl⟩
    exact ⟨mem_intRange.mp hx', mem_intRange.mp hy'⟩
  · rintro ⟨hx, hy⟩
    exact ⟨y, mem_intRange.mpr hy, x, mem_intRange.mpr hx, rfl, rfl⟩

theorem cellKeys_nodup (b : SpatialHashBounds) : (cellKeys b).Nodup := by
  rw [cellKeys, List.nodup_flatMap]
  refine ⟨fun y _ => ?_, ?_⟩
  · refine List.Nodup.map ?_ (intRange_nodup _ _)
    intro m n h
    simpa using congrArg Prod.fst h
  · refine List.Pairwise.imp ?_ (intRange_nodup b.yStart b.yEnd)
    intro y y' hne k hk hk'
    simp only [List.mem_map] at hk hk'
    obtain ⟨x, _, rfl⟩ := hk
    obtain ⟨x', _, h2⟩ := hk'
    exact hne (by simpa using congrArg Prod.snd h2.symm)

theorem cnt_cellKeys (b : SpatialHashBounds) (k : Key) :
    cnt k (cellKeys b) = if k ∈ cellKeys b then 1 else 0 := by
  by_cases h : k ∈ cellKeys b
  · rw [if_pos h, cnt_eq_one_of_nodup (cellKeys_nodup b) h]
  · rw [if_neg h, cnt_eq_zero.mpr h]

/-! ### Hash-map lemmas -/

/-- The hash never stores two entries for the same key (`insert` creates a
key only when it is absent). -/
def KeysNodup (h : List (Key × List Id)) : Prop :=
  (h.map Prod.fst).Nodup

theorem bucket_nil (k : Key) : bucket [] k = none := rfl

theorem bucket_cons (e : Key × List Id) (t : List (Key × List Id)) (k : Key) :
    bucket (e :: t) k = if e.1 = k then some e.2 else bucket t k := by
  by_cases he : e.1 = k
  · rw [bucket, List.find?_cons_of_pos _ (by simpa using he), if_pos he]
    rfl
  · rw [bucket, List.find?_cons_of_neg _ (by simpa using he), if_neg he]
    rfl

theorem bucket_append (h1 h2 : List (Key × List Id)) (k : Key) :
    bucket (h1 ++ h2) k = (bucket h1 k).or (bucket h2 k) := by
  induction h1 with
  | nil => simp [bucket_nil]
  | cons e t ih =>
    rw [List.cons_append, bucket_cons, bucket_cons]
    by_cases he : e.1 = k
    · simp [he]
    · simp [he, ih]

theorem bucket_eq_none_iff {h : List (Key × List Id)} {k : Key} :
    bucket h k = none ↔ k ∉ h.map Prod.fst := by
  induction h with
  | nil => simp [bucket_nil]
  | cons e t ih =>
    rw [bucket_cons]
    by_cases he : e.1 = k
    · simp [he]
    · simp only [if_neg he, ih, List.map_cons, List.mem_cons]
      constructor
      · intro hh
        rintro (hk | hk)
        · exact he hk.symm
        · exact hh hk
      · intro hh hk
        exact hh (Or.inr hk)

theorem mem_keys_of_bucket_some {h : List (Key × List Id)} {k : Key} {l : List Id}
    (hb : bucket h k = some l) : k ∈ h.map Prod.fst := by
  by_contra hmem
  rw [bucket_eq_none_iff.mpr hmem] at hb
  exact Option.noConfusion hb

theorem setBucket_cons (e : Key × List Id) (t : List (Key × List Id)) (k : Key)
    (l : List Id) :
    setBucket (e :: t) k l = (if e.1 = k then (k, l) else e) :: setBucket t k l := rfl

theorem setBucket_map_fst (h : List (Key × List Id)) (k : Key) (l : List Id) :
    (setBucket h k l).map Prod.fst = h.map Prod.fst := by
  induction h with
  | nil => rfl
  | cons e t ih =>
    rw [setBucket_cons, List.map_cons, List.map_cons, ih]
    by_cases he : e.1 = k
    · rw [if_pos he]
      simp [he]
    · rw [if_neg he]

theorem bucket_setBucket_self {h : List (Key × List Id)} {k : Key} (l : List Id)
    (hmem : k ∈ h.map Prod.fst) : bucket (setBucket h k l) k = some l := by
  induction h with
  | nil => simp at hmem
  | cons e t ih =>
    rw [setBucket_cons, bucket_cons]
    by_cases he : e.1 = k
    · rw [if_pos he]
      simp
    · rw [if_neg he, if_neg he]
      simp only [List.map_cons, List.mem_cons] at hmem
      rcases hmem with hh | hh
      · exact absurd hh.symm he
      · exact ih hh

theorem bucket_setBucket_ne {h : List (Key × List Id)} {k k' : Key} (l : List Id)
    (hne : k' ≠ k) : bucket (setBucket h k l) k' = bucket h k' := by
  induction h with
  | nil => rfl
  | cons e t ih =>
    rw [setBucket_cons, bucket_cons, bucket_cons]
    by_cases he : e.1 = k
    · rw [if_pos he, if_neg (fun hh : (k, l).1 = k' => hne hh.symm),
        if_neg (fun hh : e.1 = k' => hne (by rw [← hh, he]))]
      exact ih
    · rw [if_neg he]
      by_cases he' : e.1 = k'
      · rw [if_pos he', if_pos he']
      · rw [if_neg he', if_neg he', ih]

theorem insertHash_map_fst (h : List (Key × List Id)) (i : Id) (k : Key) :
    (insertHash h i k).map Prod.fst =
      h.map Prod.fst ++ (if bucket h k = none then [k] else []) := by
  rw [insertHash]
  rcases hb : bucket h k with _ | l
  · simp
  · simp [setBucket_map_fst]

theorem insert_keysNodup {s : State} {i : Id} {k : Key} (hknd : KeysNodup s.hash) :
    KeysNodup (insert s i k).hash := by
  rw [KeysNodup, insert, insertHash_map_fst]
  rcases hb : bucket s.hash k with _ | l
  · rw [if_pos rfl, List.nodup_append]
    refine ⟨hknd, List.nodup_singleton k, ?_⟩
    intro a ha
    rw [List.mem_singleton]
    exact fun heq => (bucket_eq_none_iff.mp hb) (heq ▸ ha)
  · simpa using hknd

theorem bucketOf_insert_self (s : State) (i : Id) (k : Key) :
    bucketOf (insert s i k) k = bucketOf s k ++ [i] := by
  rw [bucketOf, bucketOf, insert, insertHash]
  rcases hb : bucket s.hash k with _ | l
  · rw [bucket_append, hb]
    simp [bucket_cons]
  · rw [bucket_setBucket_self _ (mem_keys_of_bucket_some hb)]
    simp

theorem bucketOf_insert_ne (s : State) (i : Id) {k k' : Key} (hne : k' ≠ k) :
    bucketOf (insert s i k) k' = bucketOf s k' := by
  rw [bucketOf, bucketOf, insert, insertHash]
  rcases hb : bucket s.hash k with _ | l
  · rw [bucket_append, bucket_cons, if_neg (fun hh : k = k' => hne hh.symm), bucket_nil]
    simp
  · rw [bucket_setBucket_ne _ hne]

theorem hashKeys_insert (s : State) (i : Id) (k : Key) :
    hashKeys (insert s i k) =
      hashKeys s ++ (if bucket s.hash k = none then [k] else []) :=
  insertHash_map_fst s.hash i k

/-! ### `popKeys` / `removeFromHash` -/

theorem popStep_none {i : Id} {k : Key} {h : List (Key × List Id)}
    (hb : bucket h k = none) : popStep i k h = h := by
  rw [popStep, hb]

theorem popStep_some {i : Id} {k : Key} {h : List (Key × List Id)} {l : List Id}
    (hb : bucket h k = some l) : popStep i k h = setBucket h k (jsSplice l i) := by
  rw [popStep, hb]

theorem popStep_map_fst (i : Id) (k : Key) (h : List (Key × List Id)) :
    (popStep i k h).map Prod.fst = h.map Prod.fst := by
  rcases hb : bucket h k with _ | l
  · rw [popStep_none hb]
  · rw [popStep_some hb, setBucket_map_fst]

theorem popKeys_map_fst (i : Id) (ks : List Key) (h : List (Key × List Id)) :
    (popKeys i ks h).map Prod.fst = h.map Prod.fst := by
  induction ks generalizing h with
  | nil => rfl
  | cons k t ih =>
    rw [popKeys, ih, popStep_map_fst]

theorem popKeys_cnt (i : Id) (ks : List Key) (h : List (Key × List Id))
    (hknd : KeysNodup h) (hnd : ks.Nodup)
    (hone : ∀ k ∈ ks, cnt i ((bucket h k).getD []) = 1) :
    ∀ j k, cnt j ((bucket (popKeys i ks h) k).getD []) =
      if j = i ∧ k ∈ ks then 0 else cnt j ((bucket h k).getD []) := by
  induction ks generalizing h with
  | nil =>
    intro j k
    rw [popKeys, if_neg (by simp)]
  | cons k0 t ih =>
    intro j k
    have h1 : cnt i ((bucket h k0).getD []) = 1 := hone k0 (List.mem_cons_self _ _)
    rw [popKeys]
    rcases hb : bucket h k0 with _ | l
    · rw [hb] at h1
      exact absurd h1 (by rw [Option.getD_none, cnt_nil]; omega)
    · rw [hb] at h1
      rw [Option.getD_some] at h1
      have hmem : i ∈ l := cnt_pos.mp (by omega)
      have hsplice : jsSplice l i = l.erase i := if_pos hmem
      rw [popStep_some hb, hsplice]
      rw [List.nodup_cons] at hnd
      have hknd' : KeysNodup (setBucket h k0 (l.erase i)) := by
        rw [KeysNodup, setBucket_map_fst]
        exact hknd
      have hone' : ∀ k' ∈ t, cnt i ((bucket (setBucket h k0 (l.erase i)) k').getD []) = 1 := by
        intro k' hk'
        rw [bucket_setBucket_ne _ (fun heq : k' = k0 => hnd.1 (heq ▸ hk'))]
        exact hone k' (List.mem_cons_of_mem _ hk')
      rw [ih (setBucket h k0 (l.erase i)) hknd' hnd.2 hone']
      by_cases hji : j = i
      · subst hji
        by_cases hkt : k ∈ t
        · rw [if_pos ⟨rfl, hkt⟩, if_pos ⟨rfl, List.mem_cons_of_mem _ hkt⟩]
        · rw [if_neg (fun hh => hkt hh.2)]
          by_cases hkk : k = k0
          · subst hkk
            rw [if_pos ⟨rfl, List.mem_cons_self _ _⟩,
              bucket_setBucket_self _ (mem_keys_of_bucket_some hb), Option.getD_some,
              cnt_erase_self, h1]
          · rw [if_neg (by
              rw [List.mem_cons]
              exact fun hh => (hh.2.elim hkk hkt)),
              bucket_setBucket_ne _ hkk]
      · rw [if_neg (fun hh => hji hh.1), if_neg (fun hh => hji hh.1)]
        by_cases hkk : k = k0
        · subst hkk
          rw [bucket_setBucket_self _ (mem_keys_of_bucket_some hb), Option.getD_some, hb,
            Option.getD_some, cnt_erase_of_ne hji]
        · rw [bucket_setBucket_ne _ hkk]

theorem removeFromHash_spec (s : State) (i : Id) (sp : Spatial)
    (hknd : KeysNodup s.hash)
    (hsp : (s.objs i).spatial = some sp) (hnd : sp.hashes.Nodup)
    (hone : ∀ k ∈ sp.hashes, cnt i (bucketOf s k) = 1) :
    (removeFromHash s i).objs i = { s.objs i with spatial := some { sp with hashes := [] } } ∧
    (∀ j, j ≠ i → (removeFromHash s i).objs j = s.objs j) ∧
    (∀ k, cnt i (bucketOf (removeFromHash s i) k) =
        if k ∈ sp.hashes then 0 else cnt i (bucketOf s k)) ∧
    (∀ j, j ≠ i → ∀ k, cnt j (bucketOf (removeFromHash s i) k) = cnt j (bucketOf s k)) ∧
    hashKeys (removeFromHash s i) = hashKeys s ∧
    KeysNodup (removeFromHash s i).hash ∧
    (removeFromHash s i).elements = s.elements ∧
    (removeFromHash s i).containers = s.containers ∧
    (removeFromHash s i).conts = s.conts ∧
    (removeFromHash s i).xSize = s.xSize ∧ (removeFromHash s i).ySize = s.ySize ∧
    (removeFromHash s i).simpleTest = s.simpleTest ∧
    (removeFromHash s i).dirtyTest = s.dirtyTest ∧
    (removeFromHash s i).lastBuckets = s.lastBuckets := by
  have hcnt := popKeys_cnt i sp.hashes.reverse s.hash hknd (List.nodup_reverse.mpr hnd)
    (by
      intro k hk
      exact hone k (List.mem_reverse.mp hk))
  rw [removeFromHash, hsp]
  refine ⟨?_, ?_, ?_, ?_, ?_, ?_, rfl, rfl, rfl, rfl, rfl, rfl, rfl, rfl⟩
  · rw [setObj_objs_self]
  · intro j hj
    rw [setObj_objs_ne _ _ _ _ hj]
  · intro k
    show cnt i ((bucket (popKeys i sp.hashes.reverse s.hash) k).getD []) =
      if k ∈ sp.hashes then 0 else cnt i (bucketOf s k)
    by_cases hk : k ∈ sp.hashes
    · rw [if_pos hk, hcnt i k, if_pos ⟨rfl, List.mem_reverse.mpr hk⟩]
    · rw [if_neg hk, hcnt i k, if_neg (fun hh => hk (List.mem_reverse.mp hh.2))]
      rfl
  · intro j hj k
    show cnt j ((bucket (popKeys i sp.hashes.reverse s.hash) k).getD []) =
      cnt j (bucketOf s k)
    rw [hcnt j k, if_neg (fun hh => hj hh.1)]
    rfl
  · show (popKeys i sp.hashes.reverse s.hash).map Prod.fst = s.hash.map Prod.fst
    exact popKeys_map_fst _ _ _
  · show KeysNodup (popKeys i sp.hashes.reverse s.hash)
    rw [KeysNodup, popKeys_map_fst]
    exact hknd

/-! ### `insertAll` -/

theorem insertAll_nil (s : State) (i : Id) : insertAll s i [] = s := rfl

theorem insertStep_eq {s : State} {i : Id} {k : Key} {sp : Spatial}
    (hsp : (s.objs i).spatial = some sp) :
    insertStep i s k =
      setObj (insert s i k) i
        { s.objs i with spatial := some { sp with hashes := sp.hashes ++ [k] } } := by
  show (match (s.objs i).spatial with
    | none => insert s i k
    | some sp2 => setObj (insert s i k) i
        { s.objs i with spatial := some { sp2 with hashes := sp2.hashes ++ [k] } }) = _
  rw [hsp]

theorem insertAll_cons (s : State) (i : Id) (k : Key) (ks : List Key) {sp : Spatial}
    (hsp : (s.objs i).spatial = some sp) :
    insertAll s i (k :: ks) =
      insertAll
        (setObj (insert s i k) i
          { (s.objs i) with spatial := some { sp with hashes := sp.hashes ++ [k] } })
        i ks := by
  rw [insertAll, List.foldl_cons, insertStep_eq hsp]
  rfl

theorem insertAll_spec (ks : List Key) (s : State) (i : Id) (sp : Spatial)
    (hknd : KeysNodup s.hash) (hsp : (s.objs i).spatial = some sp) :
    (insertAll s i ks).objs i =
      { s.objs i with spatial := some { sp with hashes := sp.hashes ++ ks } } ∧
    (∀ j, j ≠ i → (insertAll s i ks).objs j = s.objs j) ∧
    (∀ j k, cnt j (bucketOf (insertAll s i ks) k) =
        cnt j (bucketOf s k) + if j = i then cnt k ks else 0) ∧
    KeysNodup (insertAll s i ks).hash ∧
    (∀ k, k ∈ hashKeys s → k ∈ hashKeys (insertAll s i ks)) ∧
    (insertAll s i ks).elements = s.elements ∧
    (insertAll s i ks).containers = s.containers ∧
    (insertAll s i ks).conts = s.conts ∧
    (insertAll s i ks).xSize = s.xSize ∧ (insertAll s i ks).ySize = s.ySize ∧
    (insertAll s i ks).simpleTest = s.simpleTest ∧
    (insertAll s i ks).dirtyTest = s.dirtyTest ∧
    (insertAll s i ks).lastBuckets = s.lastBuckets := by
  induction ks generalizing s sp with
  | nil =>
    rw [insertAll_nil]
    refine ⟨?_, fun j _ => rfl, fun j k => by rw [cnt_nil]; split <;> omega,
      hknd, fun k hk => hk, rfl, rfl, rfl, rfl, rfl, rfl, rfl, rfl⟩
    obtain ⟨hs, bd⟩ := sp
    rw [List.append_nil, ← hsp]
  | cons k0 t ih =>
    rw [insertAll_cons s i k0 t hsp]
    have hsp1 : ((setObj (insert s i k0) i
        { (s.objs i) with
          spatial := some { sp with hashes := sp.hashes ++ [k0] } }).objs i).spatial =
        some { sp with hashes := sp.hashes ++ [k0] } := by
      rw [setObj_objs_self]
    have hknd1 : KeysNodup (setObj (insert s i k0) i
        { (s.objs i) with spatial := some { sp with hashes := sp.hashes ++ [k0] } }).hash := by
      rw [setObj_hash]
      exact insert_keysNodup hknd
    obtain ⟨c1, c2, c3, c4, c5, c6, c7, c8, c9, c10, c11, c12, c13⟩ :=
      ih _ { sp with hashes := sp.hashes ++ [k0] } hknd1 hsp1
    refine ⟨?_, ?_, ?_, c4, ?_, ?_, ?_, ?_, ?_, ?_, ?_, ?_, ?_⟩
    · rw [c1, setObj_objs_self, List.append_assoc]
      rfl
    · intro j hj
      rw [c2 j hj, setObj_objs_ne _ _ _ _ hj]
      rfl
    · intro j k
      rw [c3 j k]
      have hbk : bucketOf (setObj (insert s i k0) i
          { (s.objs i) with
            spatial := some { sp with hashes := sp.hashes ++ [k0] } }) k =
          bucketOf (insert s i k0) k := rfl
      rw [hbk, cnt_cons]
      by_cases hkk : k = k0
      · subst hkk
        rw [bucketOf_insert_self, cnt_append, cnt_singleton]
        by_cases hji : j = i
        · subst hji
          simp
          omega
        · have hij : ¬(i = j) := fun hh => hji hh.symm
          simp [hji, hij]
      · rw [bucketOf_insert_ne s i hkk]
        have hk0 : ¬(k0 = k) := fun hh => hkk hh.symm
        by_cases hji : j = i
        · simp [hji, hk0]
        · simp [hji, hk0]
    · intro k hk
      refine c5 k ?_
      show k ∈ hashKeys (insert s i k0)
      rw [hashKeys_insert]
      exact List.mem_append_left _ hk
    · rw [c6]
      rfl
    · rw [c7]
      rfl
    · rw [c8]
      rfl
    · rw [c9]
      rfl
    · rw [c10]
      rfl
    · rw [c11]
      rfl
    · rw [c12]
      rfl
    · rw [c13]
      rfl

/-! ### `updateObject` -/

/-- The AABB `updateObject` recomputes for object `i` in state `s`. -/
def newAABB (s : State) (i : Id) : AABB :=
  computeAABB (s.objs i)

/-- The cell range `updateObject` computes for object `i` in state `s`. -/
def newBounds (s : State) (i : Id) : SpatialHashBounds :=
  getBounds s (newAABB s i)

theorem updateObject_skip {s : State} {i : Id} {sp : Spatial}
    (hsp : (s.objs i).spatial = some sp) (hb : sp.bounds = some (newBounds s i)) :
    updateObject s i =
      setObj s i { s.objs i with aabb := some (newAABB s i), spatial := some sp } := by
  rw [newBounds, newAABB] at hb
  rw [newAABB]
  simp only [updateObject]
  rw [show ({ s.objs i with aabb := some (computeAABB (s.objs i)) } : Obj).spatial =
    some sp from hsp]
  rw [Option.getD_some, if_pos hb]

theorem updateObject_else {s : State} {i : Id} {sp : Spatial}
    (hsp : (s.objs i).spatial = some sp) (hb : sp.bounds ≠ some (newBounds s i)) :
    updateObject s i =
      (let s1 := setObj s i
        { s.objs i with aabb := some (newAABB s i), spatial := some sp }
      let s2 := if sp.hashes = [] then s1 else removeFromHash s1 i
      let s3 := insertAll s2 i (cellKeys (newBounds s i))
      match (s3.objs i).spatial with
      | none => s3
      | some sp3 =>
        setObj s3 i
          { s3.objs i with spatial := some { sp3 with bounds := some (newBounds s i) } }) := by
  rw [newBounds, newAABB] at hb
  rw [newBounds, newAABB]
  simp only [updateObject]
  rw [show ({ s.objs i with aabb := some (computeAABB (s.objs i)) } : Obj).spatial =
    some sp from hsp]
  rw [Option.getD_some, if_neg hb]

/-- The state after the write-back prologue of `updateObject` (AABB stored,
spatial present), for an object whose spatial state is `sp`. -/
def uoPre (s : State) (i : Id) (sp : Spatial) : State :=
  setObj s i { s.objs i with aabb := some (newAABB s i), spatial := some sp }

/-- The state after the conditional purge of `updateObject`'s else branch. -/
def uoPurged (s : State) (i : Id) (sp : Spatial) : State :=
  if sp.hashes = [] then uoPre s i sp else removeFromHash (uoPre s i sp) i

/-- The state after the insertion loop of `updateObject`'s else branch. -/
def uoIns (s : State) (i : Id) (sp : Spatial) : State :=
  insertAll (uoPurged s i sp) i (cellKeys (newBounds s i))

/-- Shape invariant of one object's spatial state: its recorded keys are
exactly the cells of its cached range (none cached means none recorded)
and every bucket holds the object exactly as many times as the bucket's
key is recorded. -/
def GoodSpatial (s : State) (i : Id) (sp : Spatial) : Prop :=
  (∀ b, sp.bounds = some b → sp.hashes = cellKeys b) ∧
  (sp.bounds = none → sp.hashes = []) ∧
  (∀ k, cnt i (bucketOf s k) = cnt k sp.hashes)

theorem updateObject_spec (s : State) (i : Id) (sp : Spatial)
    (hknd : KeysNodup s.hash) (hsp : (s.objs i).spatial = some sp)
    (hgood : GoodSpatial s i sp) :
    (updateObject s i).objs i =
      { s.objs i with
        aabb := some (newAABB s i)
        spatial := some { hashes := cellKeys (newBounds s i)
                          bounds := some (newBounds s i) } } ∧
    (∀ j, j ≠ i → (updateObject s i).objs j = s.objs j) ∧
    (∀ k, cnt i (bucketOf (updateObject s i) k) = cnt k (cellKeys (newBounds s i))) ∧
    (∀ j, j ≠ i → ∀ k, cnt j (bucketOf (updateObject s i) k) = cnt j (bucketOf s k)) ∧
    KeysNodup (updateObject s i).hash ∧
    (∀ k, k ∈ hashKeys s → k ∈ hashKeys (updateObject s i)) ∧
    (updateObject s i).elements = s.elements ∧
    (updateObject s i).containers = s.containers ∧
    (updateObject s i).conts = s.conts ∧
    (updateObject s i).xSize = s.xSize ∧ (updateObject s i).ySize = s.ySize ∧
    (updateObject s i).simpleTest = s.simpleTest ∧
    (updateObject s i).dirtyTest = s.dirtyTest ∧
    (updateObject s i).lastBuckets = s.lastBuckets ∧
    (sp.bounds = some (newBounds s i) → (updateObject s i).hash = s.hash) := by
  obtain ⟨g1, g2, g3⟩ := hgood
  by_cases hb : sp.bounds = some (newBounds s i)
  · have hsp_eq : sp =
        { hashes := cellKeys (newBounds s i), bounds := some (newBounds s i) } :=
      Spatial.ext (g1 _ hb) hb
    rw [updateObject_skip hsp hb]
    refine ⟨?_, ?_, ?_, ?_, hknd, fun k hk => hk, rfl, rfl, rfl, rfl, rfl, rfl, rfl, rfl,
      fun _ => rfl⟩
    · rw [setObj_objs_self, hsp_eq]
    · intro j hj
      rw [setObj_objs_ne _ _ _ _ hj]
    · intro k
      show cnt i (bucketOf s k) = _
      rw [g3 k, hsp_eq]
    · intro j hj k
      rfl
  · have hpre : (uoPre s i sp).objs i =
        { s.objs i with aabb := some (newAABB s i), spatial := some sp } := by
      rw [uoPre, setObj_objs_self]
    have hS1sp : ((uoPre s i sp).objs i).spatial = some sp := by
      rw [hpre]
    have hS1knd : KeysNodup (uoPre s i sp).hash := hknd
    have hnd : sp.hashes ≠ [] → sp.hashes.Nodup := by
      intro hemp
      rcases hbd : sp.bounds with _ | b
      · exact absurd (g2 hbd) hemp
      · rw [g1 b hbd]
        exact cellKeys_nodup b
    have hone : ∀ k ∈ sp.hashes, cnt i (bucketOf (uoPre s i sp) k) = 1 := by
      intro k hk
      rw [show cnt i (bucketOf (uoPre s i sp) k) = cnt i (bucketOf s k) from rfl, g3 k]
      rcases hbd : sp.bounds with _ | b
      · rw [g2 hbd] at hk
        exact absurd hk (List.not_mem_nil k)
      · rw [g1 b hbd] at hk ⊢
        exact cnt_eq_one_of_nodup (cellKeys_nodup b) hk
    -- facts about the purge stage
    have hS2obj : (uoPurged s i sp).objs i =
        { s.objs i with
          aabb := some (newAABB s i)
          spatial := some { hashes := [], bounds := sp.bounds } } := by
      by_cases hemp : sp.hashes = []
      · rw [uoPurged, if_pos hemp, uoPre, setObj_objs_self]
        obtain ⟨hs, bd⟩ := sp
        cases hemp
        rfl
      · rw [uoPurged, if_neg hemp]
        obtain ⟨r1, -, -, -, -, -, -, -, -, -, -, -, -, -⟩ :=
          removeFromHash_spec (uoPre s i sp) i sp hS1knd hS1sp (hnd hemp) hone
        rw [r1, hpre]
    have hS2objj : ∀ j, j ≠ i → (uoPurged s i sp).objs j = s.objs j := by
      intro j hj
      by_cases hemp : sp.hashes = []
      · rw [uoPurged, if_pos hemp, uoPre, setObj_objs_ne _ _ _ _ hj]
      · rw [uoPurged, if_neg hemp]
        obtain ⟨-, r2, -, -, -, -, -, -, -, -, -, -, -, -⟩ :=
          removeFromHash_spec (uoPre s i sp) i sp hS1knd hS1sp (hnd hemp) hone
        rw [r2 j hj, uoPre, setObj_objs_ne _ _ _ _ hj]
    have hS2cnti : ∀ k, cnt i (bucketOf (uoPurged s i sp) k) = 0 := by
      intro k
      by_cases hemp : sp.hashes = []
      · rw [uoPurged, if_pos hemp,
          show cnt i (bucketOf (uoPre s i sp) k) = cnt i (bucketOf s k) from rfl, g3 k,
          hemp, cnt_nil]
      · rw [uoPurged, if_neg hemp]
        obtain ⟨-, -, r3, -, -, -, -, -, -, -, -, -, -, -⟩ :=
          removeFromHash_spec (uoPre s i sp) i sp hS1knd hS1sp (hnd hemp) hone
        rw [r3 k]
        by_cases hk : k ∈ sp.hashes
        · rw [if_pos hk]
        · rw [if_neg hk,
            show cnt i (bucketOf (uoPre s i sp) k) = cnt i (bucketOf s k) from rfl, g3 k]
          exact cnt_eq_zero.mpr hk
    have hS2cntj : ∀ j, j ≠ i → ∀ k,
        cnt j (bucketOf (uoPurged s i sp) k) = cnt j (bucketOf s k) := by
      intro j hj k
      by_cases hemp : sp.hashes = []
      · rw [uoPurged, if_pos hemp]
        rfl
      · rw [uoPurged, if_neg hemp]
        obtain ⟨-, -, -, r4, -, -, -, -, -, -, -, -, -, -⟩ :=
          removeFromHash_spec (uoPre s i sp) i sp hS1knd hS1sp (hnd hemp) hone
        rw [r4 j hj k]
        rfl
    have hS2keys : hashKeys (uoPurged s i sp) = hashKeys s := by
      by_cases hemp : sp.hashes = []
      · rw [uoPurged, if_pos hemp]
        rfl
      · rw [uoPurged, if_neg hemp]
        obtain ⟨-, -, -, -, r5, -, -, -, -, -, -, -, -, -⟩ :=
          removeFromHash_spec (uoPre s i sp) i sp hS1knd hS1sp (hnd hemp) hone
        rw [r5]
        rfl
    have hS2knd : KeysNodup (uoPurged s i sp).hash := by
      by_cases hemp : sp.hashes = []
      · rw [uoPurged, if_pos hemp]
        exact hknd
      · rw [uoPurged, if_neg hemp]
        obtain ⟨-, -, -, -, -, r6, -, -, -, -, -, -, -, -⟩ :=
          removeFromHash_spec (uoPre s i sp) i sp hS1knd hS1sp (hnd hemp) hone
        exact r6
    have hS2elements : (uoPurged s i sp).elements = s.elements := by
      by_cases hemp : sp.hashes = []
      · rw [uoPurged, if_pos hemp]
        rfl
      · rw [uoPurged, if_neg hemp]
        obtain ⟨-, -, -, -, -, -, r7, -, -, -, -, -, -, -⟩ :=
          removeFromHash_spec (uoPre s i sp) i sp hS1knd hS1sp (hnd hemp) hone
        exact r7
    have hS2containers : (uoPurged s i sp).containers = s.containers := by
      by_cases hemp : sp.hashes = []
      · rw [uoPurged, if_pos hemp]
        rfl
      · rw [uoPurged, if_neg hemp]
        obtain ⟨-, -, -, -, -, -, -, r8, -, -, -, -, -, -⟩ :=
          removeFromHash_spec (uoPre s i sp) i sp hS1knd hS1sp (hnd hemp) hone
        exact r8
    have hS2conts : (uoPurged s i sp).conts = s.conts := by
      by_cases hemp : sp.hashes = []
      · rw [uoPurged, if_pos hemp]
        rfl
      · rw [uoPurged, if_neg hemp]
        obtain ⟨-, -, -, -, -, -, -, -, r9, -, -, -, -, -⟩ :=
          removeFromHash_spec (uoPre s i sp) i sp hS1knd hS1sp (hnd hemp) hone
        exact r9
    have hS2rest : (uoPurged s i sp).xSize = s.xSize ∧ (uoPurged s i sp).ySize = s.ySize ∧
        (uoPurged s i sp).simpleTest = s.simpleTest ∧
        (uoPurged s i sp).dirtyTest = s.dirtyTest ∧
        (uoPurged s i sp).lastBuckets = s.lastBuckets := by
      by_cases hemp : sp.hashes = []
      · rw [uoPurged, if_pos hemp]
        exact ⟨rfl, rfl, rfl, rfl, rfl⟩
      · rw [uoPurged, if_neg hemp]
        obtain ⟨-, -, -, -, -, -, -, -, -, r10, r11, r12, r13, r14⟩ :=
          removeFromHash_spec (uoPre s i sp) i sp hS1knd hS1sp (hnd hemp) hone
        exact ⟨r10, r11, r12, r13, r14⟩
    -- facts about the insertion stage
    have hsp2 : ((uoPurged s i sp).objs i).spatial =
        some { hashes := [], bounds := sp.bounds } := by
      rw [hS2obj]
    obtain ⟨c1, c2, c3, c4, c5, c6, c7, c8, c9, c10, c11, c12, c13⟩ :=
      insertAll_spec (cellKeys (newBounds s i)) (uoPurged s i sp) i
        { hashes := [], bounds := sp.bounds } hS2knd hsp2
    have hS3obj : (uoIns s i sp).objs i =
        { s.objs i with
          aabb := some (newAABB s i)
          spatial := some { hashes := cellKeys (newBounds s i), bounds := sp.bounds } } := by
      show (insertAll (uoPurged s i sp) i (cellKeys (newBounds s i))).objs i = _
      rw [c1, hS2obj]
      rfl
    have hS3sp : ((uoIns s i sp).objs i).spatial =
        some { hashes := cellKeys (newBounds s i), bounds := sp.bounds } := by
      rw [hS3obj]
    have hfinal : updateObject s i =
        setObj (uoIns s i sp) i
          { (uoIns s i sp).objs i with
            spatial := some { hashes := cellKeys (newBounds s i),
                              bounds := some (newBounds s i) } } := by
      rw [updateObject_else hsp hb]
      show (match ((uoIns s i sp).objs i).spatial with
        | none => uoIns s i sp
        | some sp3 =>
          setObj (uoIns s i sp) i
            { (uoIns s i sp).objs i with
              spatial := some { sp3 with bounds := some (newBounds s i) } }) = _
      rw [hS3sp]
    rw [hfinal]
    refine ⟨?_, ?_, ?_, ?_, c4, ?_, ?_, ?_, ?_, ?_, ?_, ?_, ?_, ?_, fun hbb => absurd hbb hb⟩
    · rw [setObj_objs_self, hS3obj]
    · intro j hj
      rw [setObj_objs_ne _ _ _ _ hj]
      exact (c2 j hj).trans (hS2objj j hj)
    · intro k
      show cnt i (bucketOf (insertAll (uoPurged s i sp) i (cellKeys (newBounds s i))) k) = _
      rw [c3 i k, if_pos rfl, hS2cnti k]
      omega
    · intro j hj k
      show cnt j (bucketOf (insertAll (uoPurged s i sp) i (cellKeys (newBounds s i))) k) = _
      rw [c3 j k, if_neg hj, hS2cntj j hj k]
      omega
    · intro k hk
      exact c5 k (by rw [hS2keys]; exact hk)
    · exact c6.trans hS2elements
    · exact c7.trans hS2containers
    · exact c8.trans hS2conts
    · exact c9.trans hS2rest.1
    · exact c10.trans hS2rest.2.1
    · exact c11.trans hS2rest.2.2.1
    · exact c12.trans hS2rest.2.2.2.1
    · exact c13.trans hS2rest.2.2.2.2

/-! ### The bidirectional-consistency invariant -/

/-- Canonical shape of a tracked object's state: a cached AABB, a spatial
state recording exactly the cells of that AABB's range, and bucket
multiplicities matching the recorded keys. -/
def TrackedOk (s : State) (i : Id) : Prop :=
  ∃ a, (s.objs i).aabb = some a ∧
    (s.objs i).spatial =
      some { hashes := cellKeys (getBounds s a), bounds := some (getBounds s a) } ∧
    ∀ k, cnt i (bucketOf s k) = cnt k (cellKeys (getBounds s a))

/-- The index invariant, relative to an explicit list of tracked ids. -/
def InvOn (s : State) (tr : List Id) : Prop :=
  KeysNodup s.hash ∧
  (∀ i, i ∈ tr → TrackedOk s i) ∧
  (∀ i, i ∉ tr → ∀ k, cnt i (bucketOf s k) = 0)

/-- The index invariant of a state. -/
def Inv (s : State) : Prop :=
  InvOn s (trackedIds s)

theorem getBounds_congr {s s' : State} (hx : s'.xSize = s.xSize)
    (hy : s'.ySize = s.ySize) (a : AABB) : getBounds s' a = getBounds s a := by
  rw [getBounds, getBounds, hx, hy]

theorem InvOn_congr {s s' : State} {tr : List Id} (hh : s'.hash = s.hash)
    (ho : s'.objs = s.objs) (hx : s'.xSize = s.xSize) (hy : s'.ySize = s.ySize)
    (hInv : InvOn s tr) : InvOn s' tr := by
  obtain ⟨h1, h2, h3⟩ := hInv
  have hbo : ∀ k, bucketOf s' k = bucketOf s k := by
    intro k
    rw [bucketOf, bucketOf, hh]
  refine ⟨by rw [KeysNodup, hh]; exact h1, ?_, ?_⟩
  · intro i hi
    obtain ⟨a, ha, hsp, hcnt⟩ := h2 i hi
    exact ⟨a, by rw [ho]; exact ha,
      by rw [ho, getBounds_congr hx hy]; exact hsp,
      fun k => by rw [hbo k, getBounds_congr hx hy]; exact hcnt k⟩
  · intro i hi k
    rw [hbo k]
    exact h3 i hi k

theorem InvOn_mem_congr {s : State} {tr tr' : List Id}
    (hmem : ∀ x, x ∈ tr ↔ x ∈ tr') (hInv : InvOn s tr) : InvOn s tr' := by
  obtain ⟨h1, h2, h3⟩ := hInv
  exact ⟨h1, fun i hi => h2 i ((hmem i).mpr hi),
    fun i hi k => h3 i (fun hh => hi ((hmem i).mp hh)) k⟩

/-- Rewriting one object with identical `aabb` and `spatial` (e.g. flag
updates) preserves the invariant. -/
theorem InvOn_setFlags {s : State} {i : Id} {o' : Obj} {tr : List Id}
    (ha : o'.aabb = (s.objs i).aabb) (hs : o'.spatial = (s.objs i).spatial)
    (hInv : InvOn s tr) : InvOn (setObj s i o') tr := by
  obtain ⟨h1, h2, h3⟩ := hInv
  refine ⟨h1, ?_, h3⟩
  intro j hj
  obtain ⟨a, haj, hspj, hcntj⟩ := h2 j hj
  by_cases hji : j = i
  · subst hji
    exact ⟨a, by rw [setObj_objs_self, ha]; exact haj,
      by rw [setObj_objs_self, hs]; exact hspj, hcntj⟩
  · exact ⟨a, by rw [setObj_objs_ne _ _ _ _ hji]; exact haj,
      by rw [setObj_objs_ne _ _ _ _ hji]; exact hspj, hcntj⟩

/-- `TrackedOk` yields the `GoodSpatial` hypothesis of `updateObject_spec`. -/
theorem TrackedOk.goodSpatial {s : State} {i : Id} {a : AABB}
    (ha : (s.objs i).aabb = some a)
    (hsp : (s.objs i).spatial =
      some { hashes := cellKeys (getBounds s a), bounds := some (getBounds s a) })
    (hcnt : ∀ k, cnt i (bucketOf s k) = cnt k (cellKeys (getBounds s a))) :
    GoodSpatial s i { hashes := cellKeys (getBounds s a), bounds := some (getBounds s a) } := by
  refine ⟨?_, ?_, hcnt⟩
  · intro b hb
    cases hb
    rfl
  · intro hb
    exact Option.noConfusion hb

/-- `updateObject` on a tracked object preserves the invariant. -/
theorem InvOn_updateObject {s : State} {i : Id} {tr : List Id}
    (hInv : InvOn s tr) (hi : i ∈ tr) : InvOn (updateObject s i) tr := by
  obtain ⟨h1, h2, h3⟩ := hInv
  obtain ⟨a, ha, hsp, hcnt⟩ := h2 i hi
  obtain ⟨u1, u2, u3, u4, u5, u6, u7, u8, u9, u10, u11, u12, u13, u14, u15⟩ :=
    updateObject_spec s i _ h1 hsp (TrackedOk.goodSpatial ha hsp hcnt)
  have hgb : ∀ b, getBounds (updateObject s i) b = getBounds s b :=
    fun b => getBounds_congr u10 u11 b
  refine ⟨u5, ?_, ?_⟩
  · intro j hj
    by_cases hji : j = i
    · subst hji
      exact ⟨newAABB s j, by rw [u1], by rw [u1, hgb]; rfl, fun k => by rw [u3 k, hgb]; rfl⟩
    · obtain ⟨b, hb, hspb, hcntb⟩ := h2 j hj
      exact ⟨b, by rw [u2 j hji]; exact hb, by rw [u2 j hji, hgb]; exact hspb,
        fun k => by rw [u4 j hji k, hgb]; exact hcntb k⟩
  · intro j hj k
    have hji : j ≠ i := fun hh => hj (hh ▸ hi)
    rw [u4 j hji k]
    exact h3 j hj k

/-- The `GoodSpatial` hypothesis holds for a freshly reset spatial state
of an object in no bucket. -/
theorem goodSpatial_fresh {s : State} {i : Id}
    (hz : ∀ k, cnt i (bucketOf s k) = 0) :
    GoodSpatial s i { hashes := [], bounds := none } := by
  refine ⟨?_, fun _ => rfl, ?_⟩
  · intro b hb
    exact Option.noConfusion hb
  · intro k
    rw [hz k, cnt_nil]

/-- Purging a tracked object from the hash removes it from the tracked
set while keeping the invariant. -/
theorem InvOn_removeFromHash {s : State} {x : Id} {tr : List Id}
    (hInv : InvOn s tr) (hx : x ∈ tr) (hnx : x ∉ tr.erase x) :
    InvOn (removeFromHash s x) (tr.erase x) ∧
    (removeFromHash s x).elements = s.elements ∧
    (removeFromHash s x).containers = s.containers ∧
    (removeFromHash s x).conts = s.conts ∧
    (removeFromHash s x).xSize = s.xSize ∧ (removeFromHash s x).ySize = s.ySize ∧
    (removeFromHash s x).simpleTest = s.simpleTest ∧
    (removeFromHash s x).dirtyTest = s.dirtyTest := by
  obtain ⟨h1, h2, h3⟩ := hInv
  obtain ⟨a, ha, hsp, hcnt⟩ := h2 x hx
  have hnd : (cellKeys (getBounds s a)).Nodup := cellKeys_nodup _
  have hone : ∀ k ∈ cellKeys (getBounds s a), cnt x (bucketOf s k) = 1 := by
    intro k hk
    rw [hcnt k]
    exact cnt_eq_one_of_nodup hnd hk
  obtain ⟨r1, r2, r3, r4, r5, r6, r7, r8, r9, r10, r11, r12, r13, r14⟩ :=
    removeFromHash_spec s x _ h1 hsp hnd hone
  have hgb : ∀ b, getBounds (removeFromHash s x) b = getBounds s b :=
    fun b => getBounds_congr r10 r11 b
  refine ⟨⟨r6, ?_, ?_⟩, r7, r8, r9, r10, r11, r12, r13⟩
  · intro j hj
    have hjx : j ≠ x := fun hh => hnx (hh ▸ hj)
    obtain ⟨b, hb, hspb, hcntb⟩ := h2 j (List.mem_of_mem_erase hj)
    exact ⟨b, by rw [r2 j hjx]; exact hb, by rw [r2 j hjx, hgb]; exact hspb,
      fun k => by rw [r4 j hjx k, hgb]; exact hcntb k⟩
  · intro j hj k
    by_cases hjx : j = x
    · subst hjx
      rw [r3 k]
      by_cases hk : k ∈ cellKeys (getBounds s a)
      · rw [if_pos hk]
      · rw [if_neg hk, hcnt k]
        exact cnt_eq_zero.mpr hk
    · rw [r4 j hjx k]
      refine h3 j ?_ k
      intro hjtr
      exact hj (List.mem_erase_of_ne hjx |>.mpr hjtr)

/-- Registering one untracked object (fresh spatial state, then
`updateObject`) adds it to the tracked set while keeping the invariant. -/
theorem InvOn_register {s : State} {i : Id} {o' : Obj} {tr : List Id}
    (hInv : InvOn s tr) (hni : i ∉ tr)
    (hsp' : o'.spatial = some { hashes := [], bounds := none }) :
    InvOn (updateObject (setObj s i o') i) (i :: tr) ∧
    (updateObject (setObj s i o') i).elements = s.elements ∧
    (updateObject (setObj s i o') i).containers = s.containers ∧
    (updateObject (setObj s i o') i).conts = s.conts ∧
    (updateObject (setObj s i o') i).xSize = s.xSize ∧
    (updateObject (setObj s i o') i).ySize = s.ySize ∧
    (updateObject (setObj s i o') i).simpleTest = s.simpleTest ∧
    (updateObject (setObj s i o') i).dirtyTest = s.dirtyTest := by
  obtain ⟨h1, h2, h3⟩ := hInv
  have hz : ∀ k, cnt i (bucketOf (setObj s i o') k) = 0 := fun k => h3 i hni k
  have hsp0 : ((setObj s i o').objs i).spatial = some { hashes := [], bounds := none } := by
    rw [setObj_objs_self]
    exact hsp'
  obtain ⟨u1, u2, u3, u4, u5, u6, u7, u8, u9, u10, u11, u12, u13, u14, u15⟩ :=
    updateObject_spec (setObj s i o') i _ h1 hsp0 (goodSpatial_fresh hz)
  have hgb : ∀ b, getBounds (updateObject (setObj s i o') i) b = getBounds s b :=
    fun b => getBounds_congr u10 u11 b
  refine ⟨⟨u5, ?_, ?_⟩, u7, u8, u9, u10, u11, u12, u13⟩
  · intro j hj
    rcases List.mem_cons.mp hj with rfl | hjtr
    · exact ⟨newAABB (setObj s j o') j, by rw [u1], by rw [u1, hgb]; rfl,
        fun k => by rw [u3 k, hgb]; rfl⟩
    · have hji : j ≠ i := fun hh => hni (hh ▸ hjtr)
      obtain ⟨b, hb, hspb, hcntb⟩ := h2 j hjtr
      refine ⟨b, ?_, ?_, ?_⟩
      · rw [u2 j hji, setObj_objs_ne _ _ _ _ hji]
        exact hb
      · rw [u2 j hji, setObj_objs_ne _ _ _ _ hji, hgb]
        exact hspb
      · intro k
        rw [u4 j hji k, hgb]
        exact hcntb k
  · intro j hj k
    have hji : j ≠ i := fun hh => hj (hh ▸ List.mem_cons_self i tr)
    rw [u4 j hji k]
    exact h3 j (fun hh => hj (List.mem_cons_of_mem _ hh)) k

/-- `List.erase` does not depend on which lawful `BEq` instance is used. -/
theorem erase_beq_irrel {α : Type} (b1 b2 : BEq α) (lb1 : @LawfulBEq α b1)
    (lb2 : @LawfulBEq α b2) (l : List α) (x : α) :
    @List.erase α b1 l x = @List.erase α b2 l x := by
  induction l with
  | nil => rfl
  | cons c t ih =>
    rw [@List.erase_cons α b1, @List.erase_cons α b2, ih]
    have hbb : (@BEq.beq α b1 c x) = (@BEq.beq α b2 c x) := by
      by_cases hcx : c = x
      · subst hcx
        rw [@beq_self_eq_true α b1 lb1, @beq_self_eq_true α b2 lb2]
      · rw [@beq_eq_false_iff_ne α b1 lb1 c x |>.mpr hcx,
          @beq_eq_false_iff_ne α b2 lb2 c x |>.mpr hcx]
    rw [hbb]

/-! ### Unconditional field preservation -/

/-- The structural fields an operation on the hash never touches. -/
def SameFields (s' s : State) : Prop :=
  s'.elements = s.elements ∧ s'.containers = s.containers ∧ s'.conts = s.conts ∧
  s'.xSize = s.xSize ∧ s'.ySize = s.ySize ∧ s'.simpleTest = s.simpleTest ∧
  s'.dirtyTest = s.dirtyTest

theorem SameFields.refl (s : State) : SameFields s s :=
  ⟨rfl, rfl, rfl, rfl, rfl, rfl, rfl⟩

theorem SameFields.trans {s1 s2 s3 : State} (h1 : SameFields s1 s2)
    (h2 : SameFields s2 s3) : SameFields s1 s3 :=
  ⟨h1.1.trans h2.1, h1.2.1.trans h2.2.1, h1.2.2.1.trans h2.2.2.1,
    h1.2.2.2.1.trans h2.2.2.2.1, h1.2.2.2.2.1.trans h2.2.2.2.2.1,
    h1.2.2.2.2.2.1.trans h2.2.2.2.2.2.1, h1.2.2.2.2.2.2.trans h2.2.2.2.2.2.2⟩

theorem setObj_sameFields (s : State) (i : Id) (o : Obj) :
    SameFields (setObj s i o) s :=
  ⟨rfl, rfl, rfl, rfl, rfl, rfl, rfl⟩

theorem removeFromHash_sameFields (s : State) (i : Id) :
    SameFields (removeFromHash s i) s := by
  rcases hsp : (s.objs i).spatial with _ | sp
  · rw [removeFromHash, hsp]
    exact SameFields.refl s
  · rw [removeFromHash, hsp]
    exact ⟨rfl, rfl, rfl, rfl, rfl, rfl, rfl⟩

theorem insertStep_sameFields (i : Id) (st : State) (k : Key) :
    SameFields (insertStep i st k) st := by
  rcases hsp : (st.objs i).spatial with _ | sp
  · rw [show insertStep i st k = insert st i k by
      show (match (st.objs i).spatial with
        | none => insert st i k
        | some sp2 => setObj (insert st i k) i
            { st.objs i with spatial := some { sp2 with hashes := sp2.hashes ++ [k] } }) = _
      rw [hsp]]
    exact SameFields.refl st
  · rw [insertStep_eq hsp]
    exact ⟨rfl, rfl, rfl, rfl, rfl, rfl, rfl⟩

theorem insertAll_sameFields (ks : List Key) (s : State) (i : Id) :
    SameFields (insertAll s i ks) s := by
  induction ks generalizing s with
  | nil => exact SameFields.refl s
  | cons k t ih =>
    rw [insertAll, List.foldl_cons]
    exact (ih (insertStep i s k)).trans (insertStep_sameFields i s k)

theorem updateObject_sameFields (s : State) (i : Id) :
    SameFields (updateObject s i) s := by
  rcases hsp : (s.objs i).spatial with _ | sp
  all_goals simp only [updateObject, hsp]
  case none =>
    rw [Option.getD_none]
    split
    · exact setObj_sameFields _ _ _
    · split
      · exact ((insertAll_sameFields _ _ _).trans (by
          split
          · exact setObj_sameFields _ _ _
          · exact (removeFromHash_sameFields _ _).trans (setObj_sameFields _ _ _)))
      · exact (setObj_sameFields _ _ _).trans ((insertAll_sameFields _ _ _).trans (by
          split
          · exact setObj_sameFields _ _ _
          · exact (removeFromHash_sameFields _ _).trans (setObj_sameFields _ _ _)))
  case some =>
    rw [Option.getD_some]
    split
    · exact setObj_sameFields _ _ _
    · split
      · exact ((insertAll_sameFields _ _ _).trans (by
          split
          · exact setObj_sameFields _ _ _
          · exact (removeFromHash_sameFields _ _).trans (setObj_sameFields _ _ _)))
      · exact (setObj_sameFields _ _ _).trans ((insertAll_sameFields _ _ _).trans (by
          split
          · exact setObj_sameFields _ _ _
          · exact (removeFromHash_sameFields _ _).trans (setObj_sameFields _ _ _)))

/-! ### Operation-level invariant preservation -/

theorem Inv_add (s : State) (i : Id) (st : Bool)
    (hInv : Inv s) (hnd : (trackedIds s).Nodup) (hni : i ∉ trackedIds s) :
    Inv (add s i st) ∧ (trackedIds (add s i st)).Nodup := by
  have hreg := @InvOn_register s i
    { s.objs i with
      spatial := some { hashes := [], bounds := none }
      dirty := if s.dirtyTest then true else (s.objs i).dirty
      staticObject := if st then true else (s.objs i).staticObject }
    (trackedIds s) hInv hni rfl
  have he : (add s i st).elements = s.elements ++ [i] := by
    simp only [add]
    rw [hreg.2.1]
  have hc : (add s i st).containers = s.containers := by
    simp only [add]
    rw [hreg.2.2.1]
  have hct : (add s i st).conts = s.conts := by
    simp only [add]
    rw [hreg.2.2.2.1]
  have htr : trackedIds (add s i st) =
      (s.elements ++ [i]) ++ s.containers.flatMap (fun c => (s.conts c).children) := by
    rw [trackedIds, he, hc, hct]
  have hperm : List.Perm (trackedIds (add s i st)) (i :: trackedIds s) := by
    rw [htr, List.append_assoc]
    exact List.perm_middle
  constructor
  · exact InvOn_mem_congr (fun x => (hperm.mem_iff).symm)
      (InvOn_congr rfl rfl rfl rfl hreg.1)
  · exact hperm.symm.nodup (List.nodup_cons.mpr ⟨hni, hnd⟩)

theorem Inv_remove (s : State) (i : Id)
    (hInv : Inv s) (hnd : (trackedIds s).Nodup) (hi : i ∈ s.elements) :
    Inv (remove s i) ∧ (trackedIds (remove s i)).Nodup := by
  have hsplice : jsSplice s.elements i = s.elements.erase i := if_pos hi
  have hs1 : InvOn { s with elements := jsSplice s.elements i } (trackedIds s) :=
    InvOn_congr rfl rfl rfl rfl hInv
  have hitr : i ∈ trackedIds s := List.mem_append_left _ hi
  have hni : i ∉ (trackedIds s).erase i := List.Nodup.not_mem_erase hnd
  obtain ⟨hInv', f1, f2, f3, -, -, -, -⟩ := InvOn_removeFromHash hs1 hitr hni
  have he : (remove s i).elements = s.elements.erase i := by
    rw [remove, f1]
    show jsSplice s.elements i = _
    rw [hsplice]
  have hc : (remove s i).containers = s.containers := by
    rw [remove, f2]
  have hct : (remove s i).conts = s.conts := by
    rw [remove, f3]
  have htr : trackedIds (remove s i) = (trackedIds s).erase i := by
    rw [trackedIds, he, hc, hct, trackedIds,
      List.erase_append_left _ (by
        have := hi
        exact this)]
  constructor
  · rw [Inv, htr]
    exact hInv'
  · rw [htr]
    exact hnd.erase i

theorem registerChild_sameFields (s : State) (i : Id) :
    SameFields (registerChild s i) s :=
  (updateObject_sameFields _ _).trans (setObj_sameFields _ _ _)

theorem InvOn_registerFold (l : List Id) (s : State) (tr : List Id)
    (hInv : InvOn s tr) (hl : ∀ x ∈ l, x ∉ tr) (hnd : l.Nodup) :
    InvOn (l.foldl registerChild s) (l ++ tr) ∧
    SameFields (l.foldl registerChild s) s := by
  induction l generalizing s tr with
  | nil => exact ⟨hInv, SameFields.refl s⟩
  | cons x t ih =>
    rw [List.foldl_cons]
    have hx : x ∉ tr := hl x (List.mem_cons_self _ _)
    have hreg := @InvOn_register s x
      { s.objs x with spatial := some { hashes := [], bounds := none } }
      tr hInv hx rfl
    have hInv1 : InvOn (registerChild s x) (x :: tr) := hreg.1
    have ht : ∀ y ∈ t, y ∉ x :: tr := by
      intro y hy
      rw [List.mem_cons]
      rintro (rfl | hmem)
      · exact (List.nodup_cons.mp hnd).1 hy
      · exact hl y (List.mem_cons_of_mem _ hy) hmem
    obtain ⟨ih1, ih2⟩ :=
      ih (registerChild s x) (x :: tr) hInv1 ht (List.nodup_cons.mp hnd).2
    refine ⟨InvOn_mem_congr ?_ ih1, ih2.trans (registerChild_sameFields s x)⟩
    intro y
    simp only [List.mem_append, List.mem_cons]
    tauto

theorem Inv_addContainer (s : State) (c : CId) (st : Bool)
    (hInv : Inv s) (hnd : (trackedIds s).Nodup)
    (hc : c ∉ s.containers) (hchnd : (s.conts c).children.Nodup)
    (hch : ∀ x ∈ (s.conts c).children, x ∉ trackedIds s) :
    Inv (addContainer s c st) ∧ (trackedIds (addContainer s c st)).Nodup := by
  obtain ⟨hf, hsf⟩ :=
    InvOn_registerFold (s.conts c).children s (trackedIds s) hInv hch hchnd
  have he : (addContainer s c st).elements = s.elements := by
    show (List.foldl registerChild s (s.conts c).children).elements = s.elements
    exact hsf.1
  have hco : (addContainer s c st).containers = s.containers ++ [c] := by
    show (List.foldl registerChild s (s.conts c).children).containers ++ [c] =
      s.containers ++ [c]
    rw [hsf.2.1]
  have hctc : ((addContainer s c st).conts c).children = (s.conts c).children := by
    have hstep : (addContainer s c st).conts c =
        { (List.foldl registerChild s (s.conts c).children).conts c with
          cull := some { staticFlag := st, added := some .hAdded, removed := some .hRemoved }
          listeners :=
            ((List.foldl registerChild s (s.conts c).children).conts c).listeners ++
              [(.childAdded, .hAdded), (.childRemoved, .hRemoved)] } := by
      show (if c = c then _ else _) = _
      exact if_pos rfl
    rw [hstep]
    show ((List.foldl registerChild s (s.conts c).children).conts c).children = _
    rw [hsf.2.2.1]
  have hctd : ∀ d, d ≠ c → (addContainer s c st).conts d = s.conts d := by
    intro d hd
    have hstep : (addContainer s c st).conts d =
        (List.foldl registerChild s (s.conts c).children).conts d := by
      show (if d = c then _ else _) = _
      exact if_neg hd
    rw [hstep, hsf.2.2.1]
  have htr : trackedIds (addContainer s c st) =
      trackedIds s ++ (s.conts c).children := by
    rw [trackedIds, he, hco, List.flatMap_append,
      List.flatMap_congr (fun d hd => by
        rw [hctd d (fun hh => hc (hh ▸ hd))]),
      show ([c].flatMap fun d => ((addContainer s c st).conts d).children) =
        (s.conts c).children by
          rw [List.flatMap_cons, List.flatMap_nil, List.append_nil, hctc],
      trackedIds, List.append_assoc]
  constructor
  · rw [Inv, htr]
    refine InvOn_mem_congr ?_ (InvOn_congr rfl rfl rfl rfl hf)
    intro y
    rw [List.mem_append, List.mem_append]
    exact Or.comm
  · rw [htr, List.nodup_append]
    exact ⟨hnd, hchnd, fun a ha hcha => hch a hcha ha⟩

theorem InvOn_purgeFold (l : List Id) (s : State) (tr : List Id)
    (hInv : InvOn s tr) (hnd : tr.Nodup) (hsub : ∀ x ∈ l, x ∈ tr) (hlnd : l.Nodup) :
    InvOn (l.foldl (fun st x => removeFromHash st x) s) (l.foldl List.erase tr) ∧
    SameFields (l.foldl (fun st x => removeFromHash st x) s) s := by
  induction l generalizing s tr with
  | nil => exact ⟨hInv, SameFields.refl s⟩
  | cons x t ih =>
    rw [List.foldl_cons, List.foldl_cons]
    have hx : x ∈ tr := hsub x (List.mem_cons_self _ _)
    have hnx : x ∉ tr.erase x := List.Nodup.not_mem_erase hnd
    obtain ⟨hInv', f1, f2, f3, f4, f5, f6, f7⟩ := InvOn_removeFromHash hInv hx hnx
    have hsub' : ∀ y ∈ t, y ∈ tr.erase x := by
      intro y hy
      have hyx : y ≠ x := fun hh => (List.nodup_cons.mp hlnd).1 (hh ▸ hy)
      exact (List.mem_erase_of_ne hyx).mpr (hsub y (List.mem_cons_of_mem _ hy))
    obtain ⟨ih1, ih2⟩ := ih (removeFromHash s x) (tr.erase x) hInv' (hnd.erase x)
      hsub' (List.nodup_cons.mp hlnd).2
    exact ⟨ih1, ih2.trans ⟨f1, f2, f3, f4, f5, f6, f7⟩⟩

theorem foldl_erase_middle (v : List Id) :
    ∀ u w : List Id, (u ++ (v ++ w)).Nodup →
      List.foldl List.erase (u ++ (v ++ w)) v = u ++ w := by
  induction v with
  | nil => exact fun u w _ => rfl
  | cons x v' ih =>
    intro u w hnd
    rw [List.foldl_cons]
    have hxu : x ∉ u := by
      intro hh
      refine (List.nodup_append.mp hnd).2.2 hh ?_
      exact List.mem_append_left _ (List.mem_cons_self _ _)
    rw [List.erase_append_right _ hxu,
      List.erase_append_left _ (List.mem_cons_self x v'), List.erase_cons_head]
    refine ih u w ?_
    have hsub : (u ++ (v' ++ w)).Sublist (u ++ ((x :: v') ++ w)) :=
      List.Sublist.append_left (List.Sublist.append_right (List.sublist_cons_self x v') w) u
    exact hnd.sublist hsub

theorem Inv_removeContainer (s : State) (c : CId)
    (hInv : Inv s) (hnd : (trackedIds s).Nodup) (hc : c ∈ s.containers) :
    Inv (removeContainer s c) ∧ (trackedIds (removeContainer s c)).Nodup := by
  obtain ⟨l1, l2, hcl1, hsplit, herase⟩ := List.exists_erase_eq hc
  have hsplice : jsSplice s.containers c = l1 ++ l2 := by
    rw [jsSplice, if_pos hc, herase]
  -- decomposition of the tracked ids around the container's children
  have hdecomp : trackedIds s =
      (s.elements ++ l1.flatMap (fun d => (s.conts d).children)) ++
        ((s.conts c).children ++ l2.flatMap (fun d => (s.conts d).children)) := by
    rw [trackedIds, hsplit, List.flatMap_append, List.flatMap_cons, ← List.append_assoc,
      List.append_assoc]
  have hndU : ((s.elements ++ l1.flatMap (fun d => (s.conts d).children)) ++
      ((s.conts c).children ++ l2.flatMap (fun d => (s.conts d).children))).Nodup := by
    rw [← hdecomp]
    exact hnd
  have hchnd : (s.conts c).children.Nodup :=
    ((List.nodup_append.mp (List.nodup_append.mp hndU).2.1).1)
  have hsub : ∀ x ∈ (s.conts c).children, x ∈ trackedIds s := by
    intro x hx
    exact List.mem_append_right _ (List.mem_flatMap.mpr ⟨c, hc, hx⟩)
  have hInv1 : InvOn { s with containers := jsSplice s.containers c } (trackedIds s) :=
    InvOn_congr rfl rfl rfl rfl hInv
  obtain ⟨hp, hpf⟩ := InvOn_purgeFold (s.conts c).children
    { s with containers := jsSplice s.containers c } (trackedIds s) hInv1 hnd hsub hchnd
  have hfold : List.foldl List.erase (trackedIds s) (s.conts c).children =
      (s.elements ++ l1.flatMap (fun d => (s.conts d).children)) ++
        l2.flatMap (fun d => (s.conts d).children) := by
    rw [hdecomp]
    exact foldl_erase_middle _ _ _ hndU
  -- the purge-stage state, spelled as it appears inside removeContainer
  have hInv2 : InvOn
      ((s.conts c).children.foldl (fun st i => removeFromHash st i)
        { s with containers := jsSplice s.containers c })
      ((s.elements ++ l1.flatMap (fun d => (s.conts d).children)) ++
        l2.flatMap (fun d => (s.conts d).children)) := by
    rw [← hfold]
    exact hp
  have he : (removeContainer s c).elements = s.elements := by
    show ((s.conts c).children.foldl (fun st i => removeFromHash st i)
      { s with containers := jsSplice s.containers c }).elements = s.elements
    exact hpf.1
  have hco : (removeContainer s c).containers = l1 ++ l2 := by
    show ((s.conts c).children.foldl (fun st i => removeFromHash st i)
      { s with containers := jsSplice s.containers c }).containers = l1 ++ l2
    rw [hpf.2.1]
    exact hsplice
  have hchildren : ∀ d, ((removeContainer s c).conts d).children = (s.conts d).children := by
    intro d
    by_cases hd : d = c
    · rw [hd]
      have hstep : (removeContainer s c).conts c =
          { ((s.conts c).children.foldl (fun st i => removeFromHash st i)
              { s with containers := jsSplice s.containers c }).conts c with
            listeners := offListeners
              (offListeners (((s.conts c).children.foldl (fun st i => removeFromHash st i)
                  { s with containers := jsSplice s.containers c }).conts c).listeners
                .childAdded
                ((((s.conts c).children.foldl (fun st i => removeFromHash st i)
                  { s with containers := jsSplice s.containers c }).conts c).cull.bind
                    (fun cd => cd.added)))
              .removedFrom
              ((((s.conts c).children.foldl (fun st i => removeFromHash st i)
                { s with containers := jsSplice s.containers c }).conts c).cull.bind
                  (fun cd => cd.removed))
            cull := none } := by
        show (if c = c then _ else _) = _
        exact if_pos rfl
      rw [hstep]
      show (((s.conts c).children.foldl (fun st i => removeFromHash st i)
        { s with containers := jsSplice s.containers c }).conts c).children =
        (s.conts c).children
      rw [hpf.2.2.1]
    · have hstep : (removeContainer s c).conts d =
          ((s.conts c).children.foldl (fun st i => removeFromHash st i)
            { s with containers := jsSplice s.containers c }).conts d := by
        show (if d = c then _ else _) = _
        exact if_neg hd
      rw [hstep, hpf.2.2.1]
  have htr : trackedIds (removeContainer s c) =
      (s.elements ++ l1.flatMap (fun d => (s.conts d).children)) ++
        l2.flatMap (fun d => (s.conts d).children) := by
    rw [trackedIds, he, hco,
      List.flatMap_congr (fun d _ => hchildren d), List.flatMap_append,
      ← List.append_assoc]
  constructor
  · rw [Inv, htr]
    exact InvOn_congr rfl rfl rfl rfl hInv2
  · rw [htr]
    refine hndU.sublist ?_
    refine List.Sublist.append_left ?_ _
    exact (List.suffix_append _ _).sublist

theorem InvOn_dirtyStep {st : State} {i : Id} {tr : List Id}
    (hInv : InvOn st tr) (hi : i ∈ tr) :
    InvOn (dirtyStep st i) tr ∧ SameFields (dirtyStep st i) st := by
  rw [dirtyStep]
  split
  · exact ⟨InvOn_setFlags rfl rfl (InvOn_updateObject hInv hi),
      (setObj_sameFields _ _ _).trans (updateObject_sameFields _ _)⟩
  · exact ⟨hInv, SameFields.refl st⟩

theorem InvOn_fullStep {st : State} {i : Id} {tr : List Id}
    (hInv : InvOn st tr) (hi : i ∈ tr) :
    InvOn (fullStep st i) tr ∧ SameFields (fullStep st i) st := by
  rw [fullStep]
  split
  · exact ⟨hInv, SameFields.refl st⟩
  · exact ⟨InvOn_updateObject hInv hi, updateObject_sameFields _ _⟩

theorem InvOn_dirtyFold (l : List Id) (st : State) (tr : List Id)
    (hInv : InvOn st tr) (hl : ∀ x ∈ l, x ∈ tr) :
    InvOn (l.foldl dirtyStep st) tr ∧ SameFields (l.foldl dirtyStep st) st := by
  induction l generalizing st with
  | nil => exact ⟨hInv, SameFields.refl st⟩
  | cons x t ih =>
    rw [List.foldl_cons]
    obtain ⟨h1, h2⟩ := InvOn_dirtyStep hInv (hl x (List.mem_cons_self _ _))
    obtain ⟨h3, h4⟩ := ih (dirtyStep st x) h1 (fun y hy => hl y (List.mem_cons_of_mem _ hy))
    exact ⟨h3, h4.trans h2⟩

theorem InvOn_fullFold (l : List Id) (st : State) (tr : List Id)
    (hInv : InvOn st tr) (hl : ∀ x ∈ l, x ∈ tr) :
    InvOn (l.foldl fullStep st) tr ∧ SameFields (l.foldl fullStep st) st := by
  induction l generalizing st with
  | nil => exact ⟨hInv, SameFields.refl st⟩
  | cons x t ih =>
    rw [List.foldl_cons]
    obtain ⟨h1, h2⟩ := InvOn_fullStep hInv (hl x (List.mem_cons_self _ _))
    obtain ⟨h3, h4⟩ := ih (fullStep st x) h1 (fun y hy => hl y (List.mem_cons_of_mem _ hy))
    exact ⟨h3, h4.trans h2⟩

theorem InvOn_updFold (l : List Id) (st : State) (tr : List Id)
    (hInv : InvOn st tr) (hl : ∀ x ∈ l, x ∈ tr) :
    InvOn (l.foldl updateObject st) tr ∧ SameFields (l.foldl updateObject st) st := by
  induction l generalizing st with
  | nil => exact ⟨hInv, SameFields.refl st⟩
  | cons x t ih =>
    rw [List.foldl_cons]
    have h1 := InvOn_updateObject hInv (hl x (List.mem_cons_self _ _))
    obtain ⟨h3, h4⟩ := ih (updateObject st x) h1
      (fun y hy => hl y (List.mem_cons_of_mem _ hy))
    exact ⟨h3, h4.trans (updateObject_sameFields _ _)⟩

theorem InvOn_dirtyContFold (L : List CId) (st : State) (tr : List Id)
    (hInv : InvOn st tr)
    (hL : ∀ c ∈ L, ∀ x ∈ (st.conts c).children, x ∈ tr) :
    InvOn (L.foldl dirtyContStep st) tr ∧ SameFields (L.foldl dirtyContStep st) st := by
  induction L generalizing st with
  | nil => exact ⟨hInv, SameFields.refl st⟩
  | cons c T ih =>
    rw [List.foldl_cons]
    have hstep : InvOn (dirtyContStep st c) tr ∧ SameFields (dirtyContStep st c) st := by
      rw [dirtyContStep]
      split
      · exact ⟨hInv, SameFields.refl st⟩
      · exact InvOn_dirtyFold _ st tr hInv (hL c (List.mem_cons_self _ _))
    obtain ⟨h1, h2⟩ := hstep
    obtain ⟨h3, h4⟩ := ih (dirtyContStep st c) h1 (by
      intro d hd x hx
      refine hL d (List.mem_cons_of_mem _ hd) x ?_
      rw [← h2.2.2.1]
      exact hx)
    exact ⟨h3, h4.trans h2⟩

theorem InvOn_fullContFold (L : List CId) (st : State) (tr : List Id)
    (hInv : InvOn st tr)
    (hL : ∀ c ∈ L, ∀ x ∈ (st.conts c).children, x ∈ tr) :
    InvOn (L.foldl fullContStep st) tr ∧ SameFields (L.foldl fullContStep st) st := by
  induction L generalizing st with
  | nil => exact ⟨hInv, SameFields.refl st⟩
  | cons c T ih =>
    rw [List.foldl_cons]
    have hstep : InvOn (fullContStep st c) tr ∧ SameFields (fullContStep st c) st := by
      rw [fullContStep]
      split
      · exact ⟨hInv, SameFields.refl st⟩
      · exact InvOn_updFold _ st tr hInv (hL c (List.mem_cons_self _ _))
    obtain ⟨h1, h2⟩ := hstep
    obtain ⟨h3, h4⟩ := ih (fullContStep st c) h1 (by
      intro d hd x hx
      refine hL d (List.mem_cons_of_mem _ hd) x ?_
      rw [← h2.2.2.1]
      exact hx)
    exact ⟨h3, h4.trans h2⟩

theorem dirtyStep_sameFields (st : State) (i : Id) : SameFields (dirtyStep st i) st := by
  rw [dirtyStep]
  split
  · exact (setObj_sameFields _ _ _).trans (updateObject_sameFields _ _)
  · exact SameFields.refl st

theorem fullStep_sameFields (st : State) (i : Id) : SameFields (fullStep st i) st := by
  rw [fullStep]
  split
  · exact SameFields.refl st
  · exact updateObject_sameFields _ _

theorem dirtyFold_sameFields (l : List Id) (st : State) :
    SameFields (l.foldl dirtyStep st) st := by
  induction l generalizing st with
  | nil => exact SameFields.refl st
  | cons x t ih =>
    rw [List.foldl_cons]
    exact (ih (dirtyStep st x)).trans (dirtyStep_sameFields st x)

theorem fullFold_sameFields (l : List Id) (st : State) :
    SameFields (l.foldl fullStep st) st := by
  induction l generalizing st with
  | nil => exact SameFields.refl st
  | cons x t ih =>
    rw [List.foldl_cons]
    exact (ih (fullStep st x)).trans (fullStep_sameFields st x)

theorem updFold_sameFields (l : List Id) (st : State) :
    SameFields (l.foldl updateObject st) st := by
  induction l generalizing st with
  | nil => exact SameFields.refl st
  | cons x t ih =>
    rw [List.foldl_cons]
    exact (ih (updateObject st x)).trans (updateObject_sameFields _ _)

theorem dirtyContFold_sameFields (L : List CId) (st : State) :
    SameFields (L.foldl dirtyContStep st) st := by
  induction L generalizing st with
  | nil => exact SameFields.refl st
  | cons c T ih =>
    rw [List.foldl_cons]
    refine (ih (dirtyContStep st c)).trans ?_
    rw [dirtyContStep]
    split
    · exact SameFields.refl st
    · exact dirtyFold_sameFields _ st

theorem fullContFold_sameFields (L : List CId) (st : State) :
    SameFields (L.foldl fullContStep st) st := by
  induction L generalizing st with
  | nil => exact SameFields.refl st
  | cons c T ih =>
    rw [List.foldl_cons]
    refine (ih (fullContStep st c)).trans ?_
    rw [fullContStep]
    split
    · exact SameFields.refl st
    · exact updFold_sameFields _ st

theorem updateObjects_sameFields (s : State) : SameFields (updateObjects s) s := by
  rw [updateObjects]
  split
  · exact (dirtyContFold_sameFields _ _).trans (dirtyFold_sameFields _ _)
  · exact (fullContFold_sameFields _ _).trans (fullFold_sameFields _ _)

theorem trackedIds_of_sameFields {s' s : State} (h : SameFields s' s) :
    trackedIds s' = trackedIds s := by
  rw [trackedIds, trackedIds, h.1, h.2.1, h.2.2.1]

theorem Inv_updateObjects (s : State) (hInv : Inv s) (hnd : (trackedIds s).Nodup) :
    Inv (updateObjects s) ∧ (trackedIds (updateObjects s)).Nodup := by
  have htr : trackedIds (updateObjects s) = trackedIds s :=
    trackedIds_of_sameFields (updateObjects_sameFields s)
  refine ⟨?_, htr ▸ hnd⟩
  rw [Inv, htr]
  rw [updateObjects]
  split
  · obtain ⟨h1, h2⟩ := InvOn_dirtyFold s.elements s (trackedIds s) hInv
      (fun x hx => List.mem_append_left _ hx)
    refine (InvOn_dirtyContFold _ _ _ h1 ?_).1
    intro c hc x hx
    rw [h2.2.2.1] at hx
    refine List.mem_append_right _ (List.mem_flatMap.mpr ⟨c, ?_, hx⟩)
    rw [← h2.2.1]
    exact hc
  · obtain ⟨h1, h2⟩ := InvOn_fullFold s.elements s (trackedIds s) hInv
      (fun x hx => List.mem_append_left _ hx)
    refine (InvOn_fullContFold _ _ _ h1 ?_).1
    intro c hc x hx
    rw [h2.2.2.1] at hx
    refine List.mem_append_right _ (List.mem_flatMap.mpr ⟨c, ?_, hx⟩)
    rw [← h2.2.1]
    exact hc

/-! ### Operation sequences -/

/-- The index operations the consistency claim quantifies over. -/
inductive Op where
  | add (i : Id) (staticObject : Bool)
  | remove (i : Id)
  | addContainer (c : CId) (staticObject : Bool)
  | removeContainer (c : CId)
  | updateObjects
deriving Repr

/-- Apply one operation. -/
def applyOp (s : State) : Op → State
  | .add i st => add s i st
  | .remove i => remove s i
  | .addContainer c st => addContainer s c st
  | .removeContainer c => removeContainer s c
  | .updateObjects => updateObjects s

/-- Well-formed use of one operation: register only currently untracked
objects (containers not yet registered, with duplicate-free child lists
of untracked objects), unregister only currently registered ones. -/
def WfOp (s : State) : Op → Prop
  | .add i _ => i ∉ trackedIds s
  | .remove i => i ∈ s.elements
  | .addContainer c _ => c ∉ s.containers ∧ (s.conts c).children.Nodup ∧
      ∀ x ∈ (s.conts c).children, x ∉ trackedIds s
  | .removeContainer c => c ∈ s.containers
  | .updateObjects => True

/-- Apply a sequence of operations, left to right. -/
def applyOps (s : State) : List Op → State
  | [] => s
  | op :: t => applyOps (applyOp s op) t

/-- Every operation of the sequence is well-formed in the state it runs in. -/
def WfOps (s : State) : List Op → Prop
  | [] => True
  | op :: t => WfOp s op ∧ WfOps (applyOp s op) t

theorem Inv_applyOp (s : State) (op : Op) (hInv : Inv s) (hnd : (trackedIds s).Nodup)
    (hwf : WfOp s op) : Inv (applyOp s op) ∧ (trackedIds (applyOp s op)).Nodup := by
  cases op with
  | add i st => exact Inv_add s i st hInv hnd hwf
  | remove i => exact Inv_remove s i hInv hnd hwf
  | addContainer c st => exact Inv_addContainer s c st hInv hnd hwf.1 hwf.2.1 hwf.2.2
  | removeContainer c => exact Inv_removeContainer s c hInv hnd hwf
  | updateObjects => exact Inv_updateObjects s hInv hnd

theorem Inv_applyOps (ops : List Op) (s : State) (hInv : Inv s)
    (hnd : (trackedIds s).Nodup) (hwf : WfOps s ops) :
    Inv (applyOps s ops) ∧ (trackedIds (applyOps s ops)).Nodup := by
  induction ops generalizing s with
  | nil => exact ⟨hInv, hnd⟩
  | cons op t ih =>
    obtain ⟨h1, h2⟩ := Inv_applyOp s op hInv hnd hwf.1
    exact ih (applyOp s op) h1 h2 hwf.2

/-- Bidirectional consistency as the claim states it: every tracked
object sits exactly once in the bucket of each of its recorded keys, and
every bucket entry records that bucket's key. -/
def Consistent (s : State) : Prop :=
  (∀ i ∈ trackedIds s, ∃ sp, (s.objs i).spatial = some sp ∧
    ∀ k ∈ sp.hashes, cnt i (bucketOf s k) = 1) ∧
  (∀ k : Key, ∀ i ∈ bucketOf s k, ∃ sp, (s.objs i).spatial = some sp ∧ k ∈ sp.hashes)

theorem Inv.consistent {s : State} (hInv : Inv s) : Consistent s := by
  obtain ⟨h1, h2, h3⟩ := hInv
  constructor
  · intro i hi
    obtain ⟨a, ha, hsp, hcnt⟩ := h2 i hi
    exact ⟨_, hsp, fun k hk => by
      rw [hcnt k]
      exact cnt_eq_one_of_nodup (cellKeys_nodup _) hk⟩
  · intro k i hib
    by_cases hi : i ∈ trackedIds s
    · obtain ⟨a, ha, hsp, hcnt⟩ := h2 i hi
      refine ⟨_, hsp, ?_⟩
      have hpos := cnt_pos.mpr hib
      rw [hcnt k] at hpos
      exact cnt_pos.mp hpos
    · exact absurd (cnt_pos.mpr hib) (by rw [h3 i hi k]; omega)

theorem Inv_initial {s : State} (hh : s.hash = []) (he : s.elements = [])
    (hc : s.containers = []) : Inv s ∧ (trackedIds s).Nodup := by
  have htr : trackedIds s = [] := by
    rw [trackedIds, he, hc]
    rfl
  refine ⟨⟨?_, ?_, ?_⟩, ?_⟩
  · rw [KeysNodup, hh]
    exact List.nodup_nil
  · intro i hi
    rw [htr] at hi
    exact absurd hi (List.not_mem_nil i)
  · intro i _ k
    rw [bucketOf, bucket, hh]
    rfl
  · rw [htr]
    exact List.nodup_nil

/-! ### Query and cull -/

theorem queryLoop_snd (s : State) (q : AABB) :
    (queryLoop s q true).2 = (cellKeys (getBounds s q)).flatMap
      (fun k => (bucketOf s k).filter (fun i => aabbTest (cachedAABB (s.objs i)) q)) := by
  rw [queryLoop]
  have hgen : ∀ (ks : List Key) (n : Nat) (acc : List Id),
      (ks.foldl
        (fun acc k =>
          match bucket s.hash k with
          | none => acc
          | some entry =>
            if true then
              (acc.1 + 1, acc.2 ++ entry.filter (fun i => aabbTest (cachedAABB (s.objs i)) q))
            else
              (acc.1 + 1, acc.2 ++ entry))
        (n, acc)).2 = acc ++ ks.flatMap
          (fun k => (bucketOf s k).filter (fun i => aabbTest (cachedAABB (s.objs i)) q)) := by
    intro ks
    induction ks with
    | nil =>
      intro n acc
      rw [List.flatMap_nil, List.append_nil]
      rfl
    | cons k t ih =>
      intro n acc
      rw [List.foldl_cons, List.flatMap_cons]
      rcases hb : bucket s.hash k with _ | entry
      · rw [show bucketOf s k = [] by rw [bucketOf, hb]; rfl, List.filter_nil,
          List.nil_append]
        exact ih n acc
      · rw [show bucketOf s k = entry by rw [bucketOf, hb]; rfl, ← List.append_assoc]
        exact ih (n + 1) (acc ++ entry.filter (fun i => aabbTest (cachedAABB (s.objs i)) q))
  exact hgen _ 0 []

theorem mem_query_results {s : State} {q : AABB} {i : Id} :
    i ∈ (queryLoop s q true).2 ↔
      ∃ k, k ∈ cellKeys (getBounds s q) ∧ i ∈ bucketOf s k ∧
        aabbTest (cachedAABB (s.objs i)) q = true := by
  rw [queryLoop_snd]
  simp only [List.mem_flatMap, List.mem_filter]

theorem setVis_objs (b : Bool) (st : State) (i j : Id) :
    (setVis b st i).objs j =
      if j = i then { st.objs j with visible := b } else st.objs j := by
  by_cases hji : j = i
  · subst hji
    rw [if_pos rfl, setVis, setObj_objs_self]
  · rw [if_neg hji, setVis, setObj_objs_ne _ _ _ _ hji]

theorem visFold_objs (b : Bool) (l : List Id) (st : State) (j : Id) :
    (l.foldl (setVis b) st).objs j =
      if j ∈ l then { st.objs j with visible := b } else st.objs j := by
  induction l generalizing st with
  | nil =>
    rw [if_neg (List.not_mem_nil j)]
    rfl
  | cons x t ih =>
    rw [List.foldl_cons, ih, setVis_objs]
    by_cases hjt : j ∈ t
    · rw [if_pos hjt, if_pos (List.mem_cons_of_mem _ hjt)]
      by_cases hjx : j = x
      · rw [if_pos hjx]
      · rw [if_neg hjx]
    · rw [if_neg hjt]
      by_cases hjx : j = x
      · rw [if_pos hjx, if_pos (by rw [List.mem_cons]; exact Or.inl hjx)]
      · rw [if_neg hjx, if_neg (by rw [List.mem_cons]; exact fun hh => hh.elim hjx hjt)]

theorem visFold_rest (b : Bool) (l : List Id) (st : State) :
    (l.foldl (setVis b) st).hash = st.hash ∧
    (l.foldl (setVis b) st).elements = st.elements ∧
    (l.foldl (setVis b) st).containers = st.containers ∧
    (l.foldl (setVis b) st).conts = st.conts ∧
    (l.foldl (setVis b) st).xSize = st.xSize ∧
    (l.foldl (setVis b) st).ySize = st.ySize ∧
    (l.foldl (setVis b) st).simpleTest = st.simpleTest ∧
    (l.foldl (setVis b) st).dirtyTest = st.dirtyTest := by
  induction l generalizing st with
  | nil => exact ⟨rfl, rfl, rfl, rfl, rfl, rfl, rfl, rfl⟩
  | cons x t ih =>
    rw [List.foldl_cons]
    obtain ⟨a1, a2, a3, a4, a5, a6, a7, a8⟩ := ih (setVis b st x)
    exact ⟨a1, a2, a3, a4, a5, a6, a7, a8⟩

theorem visContStep_objs (st : State) (c : CId) (j : Id) :
    (visContStep st c).objs j =
      if j ∈ (st.conts c).children then { st.objs j with visible := false }
      else st.objs j :=
  visFold_objs false _ st j

theorem visContFold_rest (L : List CId) (st : State) :
    (L.foldl visContStep st).hash = st.hash ∧
    (L.foldl visContStep st).elements = st.elements ∧
    (L.foldl visContStep st).containers = st.containers ∧
    (L.foldl visContStep st).conts = st.conts ∧
    (L.foldl visContStep st).xSize = st.xSize ∧
    (L.foldl visContStep st).ySize = st.ySize ∧
    (L.foldl visContStep st).simpleTest = st.simpleTest ∧
    (L.foldl visContStep st).dirtyTest = st.dirtyTest := by
  induction L generalizing st with
  | nil => exact ⟨rfl, rfl, rfl, rfl, rfl, rfl, rfl, rfl⟩
  | cons c t ih =>
    rw [List.foldl_cons]
    obtain ⟨a1, a2, a3, a4, a5, a6, a7, a8⟩ := ih (visContStep st c)
    obtain ⟨b1, b2, b3, b4, b5, b6, b7, b8⟩ :=
      visFold_rest false (st.conts c).children st
    exact ⟨a1.trans b1, a2.trans b2, a3.trans b3, a4.trans b4, a5.trans b5,
      a6.trans b6, a7.trans b7, a8.trans b8⟩

theorem visContFold_objs (L : List CId) (st : State) (j : Id) :
    (L.foldl visContStep st).objs j =
      if j ∈ L.flatMap (fun c => (st.conts c).children) then
        { st.objs j with visible := false }
      else st.objs j := by
  induction L generalizing st with
  | nil =>
    rw [List.flatMap_nil, if_neg (List.not_mem_nil j)]
    rfl
  | cons c t ih =>
    rw [List.foldl_cons, ih, List.flatMap_cons]
    have hc : (visContStep st c).conts = st.conts :=
      (visFold_rest false (st.conts c).children st).2.2.2.1
    rw [hc, visContStep_objs]
    by_cases h2 : j ∈ (st.conts c).children
    · by_cases h1 : j ∈ t.flatMap (fun c => (st.conts c).children)
      · rw [if_pos h1, if_pos h2, if_pos (List.mem_append_left _ h2)]
      · rw [if_neg h1, if_pos h2, if_pos (List.mem_append_left _ h2)]
    · by_cases h1 : j ∈ t.flatMap (fun c => (st.conts c).children)
      · rw [if_pos h1, if_neg h2, if_pos (List.mem_append_right _ h1)]
      · rw [if_neg h1, if_neg h2,
          if_neg (fun hh => (List.mem_append.mp hh).elim h2 h1)]

theorem invisible_objs (s : State) (j : Id) :
    (invisible s).objs j =
      if j ∈ trackedIds s then { s.objs j with visible := false } else s.objs j := by
  simp only [invisible]
  have h1 := visFold_rest false s.elements s
  rw [visContFold_objs, h1.2.2.1, h1.2.2.2.1, visFold_objs, trackedIds]
  by_cases he : j ∈ s.elements
  · by_cases hf : j ∈ s.containers.flatMap (fun c => (s.conts c).children)
    · rw [if_pos hf, if_pos he, if_pos (List.mem_append_left _ he)]
    · rw [if_neg hf, if_pos he, if_pos (List.mem_append_left _ he)]
  · by_cases hf : j ∈ s.containers.flatMap (fun c => (s.conts c).children)
    · rw [if_pos hf, if_neg he, if_pos (List.mem_append_right _ hf)]
    · rw [if_neg hf, if_neg he,
        if_neg (fun hh => (List.mem_append.mp hh).elim he hf)]

theorem invisible_rest (s : State) :
    (invisible s).hash = s.hash ∧ (invisible s).elements = s.elements ∧
    (invisible s).containers = s.containers ∧ (invisible s).conts = s.conts ∧
    (invisible s).xSize = s.xSize ∧ (invisible s).ySize = s.ySize ∧
    (invisible s).simpleTest = s.simpleTest ∧ (invisible s).dirtyTest = s.dirtyTest := by
  simp only [invisible]
  obtain ⟨a1, a2, a3, a4, a5, a6, a7, a8⟩ :=
    visContFold_rest (s.elements.foldl (setVis false) s).containers
      (s.elements.foldl (setVis false) s)
  obtain ⟨b1, b2, b3, b4, b5, b6, b7, b8⟩ := visFold_rest false s.elements s
  exact ⟨a1.trans b1, a2.trans b2, a3.trans b3, a4.trans b4, a5.trans b5,
    a6.trans b6, a7.trans b7, a8.trans b8⟩

theorem visFold_sameFields (b : Bool) (l : List Id) (st : State) :
    SameFields (l.foldl (setVis b) st) st := by
  obtain ⟨_, a2, a3, a4, a5, a6, a7, a8⟩ := visFold_rest b l st
  exact ⟨a2, a3, a4, a5, a6, a7, a8⟩

theorem invisible_sameFields (s : State) : SameFields (invisible s) s := by
  obtain ⟨_, a2, a3, a4, a5, a6, a7, a8⟩ := invisible_rest s
  exact ⟨a2, a3, a4, a5, a6, a7, a8⟩

theorem cull_objs (s : State) (q : AABB) (skip : Bool) (j : Id) :
    (cull s q skip).objs j =
      if j ∈ (queryLoop (invisible (if skip then s else updateObjects s)) q
          (invisible (if skip then s else updateObjects s)).simpleTest).2 then
        { (invisible (if skip then s else updateObjects s)).objs j with visible := true }
      else (invisible (if skip then s else updateObjects s)).objs j := by
  simp only [cull, query]
  rw [visFold_objs]

theorem cull_sameFields (s : State) (q : AABB) (skip : Bool) :
    SameFields (cull s q skip) (if skip then s else updateObjects s) := by
  simp only [cull, query]
  exact (visFold_sameFields _ _ _).trans
    ((SameFields.refl _ : SameFields _
        (invisible (if skip then s else updateObjects s))).trans
      (invisible_sameFields _))

/-- The geometric heart of the query: when the strict intersection test
passes and all rectangles are well-formed, the two covered cell ranges
share a cell. -/
theorem cells_overlap {s : State} {a q : AABB}
    (hxs : 0 < s.xSize) (hys : 0 < s.ySize)
    (haw : 0 ≤ a.width) (hah : 0 ≤ a.height)
    (hqw : 0 ≤ q.width) (hqh : 0 ≤ q.height)
    (ht : aabbTest a q = true) :
    ∃ k, k ∈ cellKeys (getBounds s q) ∧ k ∈ cellKeys (getBounds s a) := by
  rw [aabbTest] at ht
  simp only [Bool.and_eq_true, decide_eq_true_eq] at ht
  obtain ⟨⟨⟨h1, h2⟩, h3⟩, h4⟩ := ht
  refine ⟨(max ⌊q.x / s.xSize⌋ ⌊a.x / s.xSize⌋,
           max ⌊q.y / s.ySize⌋ ⌊a.y / s.ySize⌋), ?_, ?_⟩
  · simp only [mem_cellKeys, getBounds]
    refine ⟨⟨le_max_left _ _, max_le ?_ ?_⟩, ⟨le_max_left _ _, max_le ?_ ?_⟩⟩
    · exact Int.floor_mono ((div_le_div_iff_of_pos_right hxs).mpr (by linarith))
    · exact Int.floor_mono ((div_le_div_iff_of_pos_right hxs).mpr (le_of_lt h2))
    · exact Int.floor_mono ((div_le_div_iff_of_pos_right hys).mpr (by linarith))
    · exact Int.floor_mono ((div_le_div_iff_of_pos_right hys).mpr (le_of_lt h4))
  · simp only [mem_cellKeys, getBounds]
    refine ⟨⟨le_max_right _ _, max_le ?_ ?_⟩, ⟨le_max_right _ _, max_le ?_ ?_⟩⟩
    · exact Int.floor_mono ((div_le_div_iff_of_pos_right hxs).mpr (le_of_lt h1))
    · exact Int.floor_mono ((div_le_div_iff_of_pos_right hxs).mpr (by linarith))
    · exact Int.floor_mono ((div_le_div_iff_of_pos_right hys).mpr (le_of_lt h3))
    · exact Int.floor_mono ((div_le_div_iff_of_pos_right hys).mpr (by linarith))

/-- The per-object outcome of the visibility pass of `cull` on an
invariant-satisfying state with well-formed rectangles. -/
theorem cullCore_visible (s1 : State) (q : AABB)
    (hInv : Inv s1) (hst : s1.simpleTest = true)
    (hxs : 0 < s1.xSize) (hys : 0 < s1.ySize)
    (hdims : ∀ i ∈ trackedIds s1, 0 ≤ (cachedAABB (s1.objs i)).width ∧
      0 ≤ (cachedAABB (s1.objs i)).height)
    (hqw : 0 ≤ q.width) (hqh : 0 ≤ q.height)
    (i : Id) (hi : i ∈ trackedIds s1) :
    ((if i ∈ (queryLoop (invisible s1) q (invisible s1).simpleTest).2 then
        { (invisible s1).objs i with visible := true }
      else (invisible s1).objs i).visible = true ↔
      aabbTest (cachedAABB (s1.objs i)) q = true) := by
  have hrest := invisible_rest s1
  rw [hrest.2.2.2.2.2.2.1, hst]
  obtain ⟨a, ha, hsp, hcnt⟩ := hInv.2.1 i hi
  have hca : cachedAABB (s1.objs i) = a := by
    rw [cachedAABB, ha, Option.getD_some]
  have hbo : ∀ k, bucketOf (invisible s1) k = bucketOf s1 k := by
    intro k
    rw [bucketOf, bucketOf, hrest.1]
  have hgb : getBounds (invisible s1) q = getBounds s1 q :=
    getBounds_congr hrest.2.2.2.2.1 hrest.2.2.2.2.2.1 q
  have hcai : cachedAABB ((invisible s1).objs i) = a := by
    rw [invisible_objs, if_pos hi]
    rw [show cachedAABB { s1.objs i with visible := false } =
      cachedAABB (s1.objs i) from rfl, hca]
  have hbk : ∀ k, i ∈ bucketOf s1 k ↔ k ∈ cellKeys (getBounds s1 a) := by
    intro k
    rw [← cnt_pos, hcnt k, cnt_pos]
  have hmem : i ∈ (queryLoop (invisible s1) q true).2 ↔
      (∃ k, k ∈ cellKeys (getBounds s1 q) ∧ k ∈ cellKeys (getBounds s1 a)) ∧
        aabbTest a q = true := by
    rw [mem_query_results]
    constructor
    · rintro ⟨k, hk, hmemk, htest⟩
      rw [hgb] at hk
      rw [hbo] at hmemk
      rw [hcai] at htest
      exact ⟨⟨k, hk, (hbk k).mp hmemk⟩, htest⟩
    · rintro ⟨⟨k, hk, hka⟩, htest⟩
      refine ⟨k, by rw [hgb]; exact hk, by rw [hbo]; exact (hbk k).mpr hka, ?_⟩
      rw [hcai]
      exact htest
  rw [hca]
  by_cases hm : i ∈ (queryLoop (invisible s1) q true).2
  · rw [if_pos hm]
    exact iff_of_true rfl (hmem.mp hm).2
  · rw [if_neg hm]
    refine iff_of_false ?_ ?_
    · rw [invisible_objs, if_pos hi]
      exact fun h => Bool.noConfusion h
    · intro ht
      obtain ⟨hw, hh⟩ := hdims i hi
      rw [hca] at hw hh
      exact hm (hmem.mpr ⟨cells_overlap hxs hys hw hh hqw hqh ht, ht⟩)

/-! ### Concrete states used for instantiation -/

/-- A display object with every numeric field zero and no index state. -/
def obj0 : Obj :=
  { x := 0, y := 0, pivotX := 0, pivotY := 0, scaleX := 0, scaleY := 0
    boxX := 0, boxY := 0, boxWidth := 0, boxHeight := 0
    aabb := none, spatial := none, dirty := false, staticObject := false
    visible := true }

/-- An empty container. -/
def cont0 : Container := { children := [], cull := none, listeners := [] }

/-- A fresh, empty index with unit cells and both toggles on. -/
def fresh : State :=
  { xSize := 1, ySize := 1, simpleTest := true, dirtyTest := true
    hash := [], elements := [], containers := [], objs := fun _ => obj0
    conts := fun _ => cont0, lastBuckets := 0 }

/-- The zero AABB. -/
def aabb1 : AABB := { x := 0, y := 0, width := 0, height := 0 }

/-- A static object indexed at the origin cell. -/
def objC1 : Obj :=
  { obj0 with
    aabb := some aabb1
    spatial := some { hashes := [((0 : ℤ), (0 : ℤ))]
                      bounds := some { xStart := 0, yStart := 0, xEnd := 0, yEnd := 0 } }
    staticObject := true }

/-- A consistent one-object full-scan index: the static object `0` sits in
bucket `(0,0)`. -/
def WC1 : State :=
  { xSize := 1, ySize := 1, simpleTest := true, dirtyTest := false
    hash := [((((0 : ℤ), (0 : ℤ)) : Key), [0])], elements := [0], containers := []
    objs := fun j => if j = 0 then objC1 else obj0
    conts := fun _ => cont0, lastBuckets := 0 }

theorem getBounds_WC1 : getBounds WC1 aabb1 =
    { xStart := 0, yStart := 0, xEnd := 0, yEnd := 0 } := by
  simp only [getBounds, WC1, aabb1]
  norm_num

theorem cellKeys_zero :
    cellKeys { xStart := 0, yStart := 0, xEnd := 0, yEnd := 0 } =
      [((0 : ℤ), (0 : ℤ))] := by
  decide

theorem trackedIds_WC1 : trackedIds WC1 = [0] := rfl

theorem bucketOf_WC1 (k : Key) :
    bucketOf WC1 k = if k = ((0 : ℤ), (0 : ℤ)) then [0] else [] := by
  rw [bucketOf, show WC1.hash = [((((0 : ℤ), (0 : ℤ)) : Key), [0])] from rfl, bucket_cons]
  by_cases hk : k = ((0 : ℤ), (0 : ℤ))
  · rw [if_pos hk, if_pos hk.symm]
    rfl
  · rw [if_neg hk, if_neg (fun hh => hk hh.symm), bucket_nil]
    rfl

theorem Inv_WC1 : Inv WC1 := by
  refine ⟨?_, ?_, ?_⟩
  · show (WC1.hash.map Prod.fst).Nodup
    decide
  · intro i hi
    rw [trackedIds_WC1] at hi
    rw [List.mem_singleton.mp hi]
    refine ⟨aabb1, rfl, ?_, ?_⟩
    · rw [getBounds_WC1, cellKeys_zero]
      rfl
    · intro k
      rw [getBounds_WC1, cellKeys_zero, bucketOf_WC1]
      by_cases hk : k = ((0 : ℤ), (0 : ℤ))
      · rw [if_pos hk, cnt_singleton, cnt_singleton, if_pos rfl, if_pos hk.symm]
      · rw [if_neg hk, cnt_nil, cnt_singleton, if_neg (fun hh => hk hh.symm)]
  · intro i hi k
    rw [trackedIds_WC1] at hi
    have hi0 : i ≠ 0 := fun hh => hi (by rw [hh]; exact List.mem_singleton_self 0)
    rw [bucketOf_WC1]
    by_cases hk : k = ((0 : ℤ), (0 : ℤ))
    · rw [if_pos hk, cnt_singleton, if_neg (fun hh => hi0 hh.symm)]
    · rw [if_neg hk, cnt_nil]

/-! ### Claim C1 -/

/-- **C1** (amended).  With `simpleTest` on, positive cell sizes, and
non-negative width and height of the query rectangle and of every tracked
object's cached AABB at query time (`s1` names the state the query pass
actually reads, i.e. the input after the optional refresh), `cull` leaves
exactly the tracked objects whose cached AABB passes the strict
intersection test against the query rectangle visible, and every other
tracked object invisible.  The claim's unrestricted quantification over
all states is refuted by `c1_counterexample`: a mirror-scaled object has
an AABB of negative width, passes the intersection test, yet covers no
cell, so `cull` leaves it invisible. -/
theorem c1_cull_exactness (s : State) (q : AABB) (skip : Bool) (s1 : State)
    (hs1 : (if skip then s else updateObjects s) = s1)
    (hInv : Inv s1) (hst : s1.simpleTest = true)
    (hxs : 0 < s1.xSize) (hys : 0 < s1.ySize)
    (hdims : ∀ i ∈ trackedIds s1, 0 ≤ (cachedAABB (s1.objs i)).width ∧
      0 ≤ (cachedAABB (s1.objs i)).height)
    (hqw : 0 ≤ q.width) (hqh : 0 ≤ q.height) :
    ∀ i ∈ trackedIds (cull s q skip),
      (((cull s q skip).objs i).visible = true ↔
        aabbTest (cachedAABB (s1.objs i)) q = true) := by
  subst hs1
  intro i hi
  rw [trackedIds_of_sameFields (cull_sameFields s q skip)] at hi
  rw [cull_objs]
  exact cullCore_visible _ q hInv hst hxs hys hdims hqw hqh i hi

/-- Witness: the C1 theorem applied to the concrete one-object index
`WC1` and the unit query square, instantiated at object `0`. -/
theorem c1_cull_exactness_witness :
    (((cull WC1 { x := 0, y := 0, width := 1, height := 1 } true).objs 0).visible = true ↔
      aabbTest (cachedAABB (WC1.objs 0)) { x := 0, y := 0, width := 1, height := 1 } = true) :=
  c1_cull_exactness WC1 { x := 0, y := 0, width := 1, height := 1 } true WC1 rfl
    Inv_WC1 rfl (by norm_num [WC1]) (by norm_num [WC1])
    (fun i hi => by
      rw [trackedIds_WC1] at hi
      rw [List.mem_singleton.mp hi]
      exact ⟨le_refl 0, le_refl 0⟩)
    (by norm_num) (by norm_num) 0
    (by rw [trackedIds_of_sameFields (cull_sameFields WC1 _ true)]
        exact List.mem_singleton_self 0)

/-- An object whose cached AABB has negative width (as produced by
`updateObject` for a mirror-scaled display object, `scale.x = -1`); its
covered cell range is empty, so its `spatial.hashes` is rightly `[]`. -/
def objCE1 : Obj :=
  { obj0 with
    aabb := some { x := 3 / 2, y := 0, width := -1, height := 1 }
    spatial := some { hashes := []
                      bounds := some { xStart := 1, yStart := 0, xEnd := 0, yEnd := 1 } } }

/-- A state tracking only the mirror-scaled object; no bucket holds it. -/
def WCE1 : State :=
  { xSize := 1, ySize := 1, simpleTest := true, dirtyTest := true
    hash := [], elements := [0], containers := []
    objs := fun _ => objCE1, conts := fun _ => cont0, lastBuckets := 0 }

/-- Counterexample to C1 as stated: object `0` is tracked and its cached
AABB passes the strict intersection test against the query rectangle
`(0,0)–(2,1)`, yet after `cull` it is invisible, because its
negative-width AABB covers no cell and so sits in no bucket. -/
theorem c1_counterexample :
    0 ∈ trackedIds WCE1 ∧
    aabbTest (cachedAABB (WCE1.objs 0)) { x := 0, y := 0, width := 2, height := 1 } = true ∧
    ((cull WCE1 { x := 0, y := 0, width := 2, height := 1 } true).objs 0).visible = false := by
  refine ⟨?_, ?_, ?_⟩
  · exact List.mem_singleton_self 0
  · norm_num [aabbTest, cachedAABB, WCE1, objCE1, obj0]
  · rw [cull_objs, show (if true then WCE1 else updateObjects WCE1) = WCE1 from rfl]
    have hbo : ∀ k, bucketOf (invisible WCE1) k = [] := by
      intro k
      rw [bucketOf, (invisible_rest WCE1).1]
      rfl
    have hq0 : (queryLoop (invisible WCE1)
        { x := 0, y := 0, width := 2, height := 1 } (invisible WCE1).simpleTest).2 = [] := by
      rw [(invisible_rest WCE1).2.2.2.2.2.2.1,
        show WCE1.simpleTest = true from rfl, queryLoop_snd]
      simp [hbo]
    have hmem : (0 : Id) ∈ trackedIds WCE1 := List.mem_singleton_self 0
    rw [if_neg (by rw [hq0]; exact List.not_mem_nil 0), invisible_objs, if_pos hmem]

/-! ### Preservation of one object across the refresh folds -/

theorem updateObject_preserve_ne {st : State} {tr : List Id} {j i : Id}
    (hInv : InvOn st tr) (hj : j ∈ tr) (hij : i ≠ j) :
    (updateObject st j).objs i = st.objs i ∧
    ∀ k, cnt i (bucketOf (updateObject st j) k) = cnt i (bucketOf st k) := by
  obtain ⟨a, ha, hsp, hcnt⟩ := hInv.2.1 j hj
  obtain ⟨_, u2, _, u4, _⟩ :=
    updateObject_spec st j _ hInv.1 hsp (TrackedOk.goodSpatial ha hsp hcnt)
  exact ⟨u2 i hij, fun k => u4 i hij k⟩

theorem updFold_preserve (l : List Id) (st : State) (tr : List Id) (i : Id)
    (hInv : InvOn st tr) (hsub : ∀ x ∈ l, x ∈ tr) (hni : i ∉ l) :
    (l.foldl updateObject st).objs i = st.objs i ∧
    ∀ k, cnt i (bucketOf (l.foldl updateObject st) k) = cnt i (bucketOf st k) := by
  induction l generalizing st with
  | nil => exact ⟨rfl, fun k => rfl⟩
  | cons x t ih =>
    rw [List.foldl_cons]
    have hix : i ≠ x := fun hh => hni (by rw [hh]; exact List.mem_cons_self _ _)
    obtain ⟨p1, p2⟩ :=
      updateObject_preserve_ne hInv (hsub x (List.mem_cons_self _ _)) hix
    have hInv1 := InvOn_updateObject hInv (hsub x (List.mem_cons_self _ _))
    obtain ⟨q1, q2⟩ := ih (updateObject st x) hInv1
      (fun y hy => hsub y (List.mem_cons_of_mem _ hy))
      (fun hh => hni (List.mem_cons_of_mem _ hh))
    exact ⟨q1.trans p1, fun k => (q2 k).trans (p2 k)⟩

theorem fullStep_preserve_static {st : State} {tr : List Id} {i : Id}
    (hInv : InvOn st tr) (hstat : (st.objs i).staticObject = true) :
    ∀ j ∈ tr, (fullStep st j).objs i = st.objs i ∧
      ∀ k, cnt i (bucketOf (fullStep st j) k) = cnt i (bucketOf st k) := by
  intro j hj
  by_cases hij : i = j
  · subst hij
    rw [fullStep, if_pos hstat]
    exact ⟨rfl, fun k => rfl⟩
  · rw [fullStep]
    split
    · exact ⟨rfl, fun k => rfl⟩
    · exact updateObject_preserve_ne hInv hj hij

theorem fullFold_preserve (l : List Id) (st : State) (tr : List Id) (i : Id)
    (hInv : InvOn st tr) (hsub : ∀ x ∈ l, x ∈ tr)
    (hstat : (st.objs i).staticObject = true) :
    (l.foldl fullStep st).objs i = st.objs i ∧
    ∀ k, cnt i (bucketOf (l.foldl fullStep st) k) = cnt i (bucketOf st k) := by
  induction l generalizing st with
  | nil => exact ⟨rfl, fun k => rfl⟩
  | cons x t ih =>
    rw [List.foldl_cons]
    obtain ⟨p1, p2⟩ :=
      fullStep_preserve_static hInv hstat x (hsub x (List.mem_cons_self _ _))
    have hInv1 := (InvOn_fullStep hInv (hsub x (List.mem_cons_self _ _))).1
    obtain ⟨q1, q2⟩ := ih (fullStep st x) hInv1
      (fun y hy => hsub y (List.mem_cons_of_mem _ hy)) (by rw [p1]; exact hstat)
    exact ⟨q1.trans p1, fun k => (q2 k).trans (p2 k)⟩

theorem fullContStep_preserve {st : State} {tr : List Id} {i : Id} {c : CId}
    (hInv : InvOn st tr) (hsub : ∀ x ∈ (st.conts c).children, x ∈ tr)
    (hni : i ∉ (st.conts c).children) :
    (fullContStep st c).objs i = st.objs i ∧
    ∀ k, cnt i (bucketOf (fullContStep st c) k) = cnt i (bucketOf st k) := by
  rw [fullContStep]
  split
  · exact ⟨rfl, fun k => rfl⟩
  · exact updFold_preserve _ st tr i hInv hsub hni

theorem fullContFold_preserve (L : List CId) (st : State) (tr : List Id) (i : Id)
    (hInv : InvOn st tr) (hsub : ∀ c ∈ L, ∀ x ∈ (st.conts c).children, x ∈ tr)
    (hni : ∀ c ∈ L, i ∉ (st.conts c).children) :
    (L.foldl fullContStep st).objs i = st.objs i ∧
    ∀ k, cnt i (bucketOf (L.foldl fullContStep st) k) = cnt i (bucketOf st k) := by
  induction L generalizing st with
  | nil => exact ⟨rfl, fun k => rfl⟩
  | cons c T ih =>
    rw [List.foldl_cons]
    obtain ⟨p1, p2⟩ := fullContStep_preserve hInv (hsub c (List.mem_cons_self _ _))
      (hni c (List.mem_cons_self _ _))
    have hInvC : InvOn (fullContStep st c) tr ∧ SameFields (fullContStep st c) st := by
      rw [fullContStep]
      split
      · exact ⟨hInv, SameFields.refl st⟩
      · exact InvOn_updFold _ st tr hInv (hsub c (List.mem_cons_self _ _))
    obtain ⟨q1, q2⟩ := ih (fullContStep st c) hInvC.1
      (fun d hd x hx => hsub d (List.mem_cons_of_mem _ hd) x
        (by rw [← hInvC.2.2.2.1]; exact hx))
      (fun d hd => by
        rw [hInvC.2.2.2.1]
        exact hni d (List.mem_cons_of_mem _ hd))
    exact ⟨q1.trans p1, fun k => (q2 k).trans (p2 k)⟩

/-! ### Claim C2 -/

/-- **C2** (amended).  The static exemption holds only in full-scan mode
(`dirtyTest = false`) and only for individually added elements that are
not simultaneously children of a registered container: there, refresh
leaves a static object's record and its bucket memberships untouched.
The claim's "even if marked dirty, in both modes" part is refuted by
`c2_counterexample`: the dirty-test element loop re-indexes every dirty
object without consulting `staticObject`. -/
theorem c2_static_exemption_fullscan (s : State) (i : Id)
    (hInv : Inv s) (hdt : s.dirtyTest = false)
    (hi : i ∈ s.elements) (hstat : (s.objs i).staticObject = true)
    (hni : ∀ c ∈ s.containers, i ∉ (s.conts c).children) :
    (updateObjects s).objs i = s.objs i ∧
    ∀ k, cnt i (bucketOf (updateObjects s) k) = cnt i (bucketOf s k) := by
  have hne : ¬(s.dirtyTest = true) := by
    rw [hdt]
    exact Bool.false_ne_true
  simp only [updateObjects, if_neg hne]
  have hsub1 : ∀ x ∈ s.elements, x ∈ trackedIds s :=
    fun x hx => List.mem_append_left _ hx
  obtain ⟨hInv1, hsf1⟩ := InvOn_fullFold s.elements s (trackedIds s) hInv hsub1
  obtain ⟨p1, p2⟩ := fullFold_preserve s.elements s (trackedIds s) i hInv hsub1 hstat
  obtain ⟨q1, q2⟩ := fullContFold_preserve (s.elements.foldl fullStep s).containers
    (s.elements.foldl fullStep s) (trackedIds s) i hInv1
    (fun c hc x hx => by
      refine List.mem_append_right _ ?_
      rw [List.mem_flatMap]
      refine ⟨c, ?_, ?_⟩
      · rw [← hsf1.2.1]
        exact hc
      · rw [← hsf1.2.2.1]
        exact hx)
    (fun c hc => by
      rw [hsf1.2.2.1]
      refine hni c ?_
      rw [← hsf1.2.1]
      exact hc)
  exact ⟨q1.trans p1, fun k => (q2 k).trans (p2 k)⟩

/-- Witness: the C2 theorem applied to the full-scan one-object index
`WC1` (whose object is static), instantiated at cell `(0,0)`. -/
theorem c2_static_exemption_witness :
    (updateObjects WC1).objs 0 = WC1.objs 0 ∧
    cnt 0 (bucketOf (updateObjects WC1) ((0 : ℤ), (0 : ℤ))) =
      cnt 0 (bucketOf WC1 ((0 : ℤ), (0 : ℤ))) :=
  ⟨(c2_static_exemption_fullscan WC1 0 Inv_WC1 rfl (List.mem_singleton_self 0) rfl
      (fun c hc => absurd hc (List.not_mem_nil c))).1,
   (c2_static_exemption_fullscan WC1 0 Inv_WC1 rfl (List.mem_singleton_self 0) rfl
      (fun c hc => absurd hc (List.not_mem_nil c))).2 ((0 : ℤ), (0 : ℤ))⟩

/-- A static, dirty object cached at cell `(0,0)` whose current transform
places it at `x = 1` (cell `(1,0)`). -/
def objW2 : Obj :=
  { obj0 with
    x := 1
    aabb := some aabb1
    spatial := some { hashes := [((0 : ℤ), (0 : ℤ))]
                      bounds := some { xStart := 0, yStart := 0, xEnd := 0, yEnd := 0 } }
    dirty := true
    staticObject := true }

/-- A dirty-test index holding the static dirty object `0` in bucket
`(0,0)`. -/
def W2 : State :=
  { xSize := 1, ySize := 1, simpleTest := true, dirtyTest := true
    hash := [((((0 : ℤ), (0 : ℤ)) : Key), [0])], elements := [0], containers := []
    objs := fun _ => objW2, conts := fun _ => cont0, lastBuckets := 0 }

/-- Counterexample to C2 as stated: in dirty-test mode a *static* object
that is marked dirty *is* re-indexed by `updateObjects` — its bucket
`(0,0)` is emptied (the object moves to bucket `(1,0)`). -/
theorem c2_counterexample :
    (W2.objs 0).staticObject = true ∧ (W2.objs 0).dirty = true ∧
    W2.dirtyTest = true ∧ bucketOf W2 ((0 : ℤ), (0 : ℤ)) = [0] ∧
    bucketOf (updateObjects W2) ((0 : ℤ), (0 : ℤ)) = [] := by
  refine ⟨rfl, rfl, rfl, rfl, ?_⟩
  have hnb : newBounds W2 0 = { xStart := 1, yStart := 0, xEnd := 1, yEnd := 0 } := by
    simp only [newBounds, newAABB, getBounds, computeAABB, W2, objW2, obj0,
      SpatialHashBounds.mk.injEq]
    norm_num
  have hupd : updateObjects W2 = dirtyStep W2 0 := by
    simp only [updateObjects]
    rw [show W2.elements = [0] from rfl, List.foldl_cons, List.foldl_nil,
      (dirtyStep_sameFields W2 0).2.1, show W2.containers = ([] : List CId) from rfl,
      List.foldl_nil]
    exact if_pos rfl
  rw [hupd, dirtyStep, if_pos (show (W2.objs 0).dirty = true from rfl)]
  show bucketOf (updateObject W2 0) ((0 : ℤ), (0 : ℤ)) = []
  rw [updateObject_else (show (W2.objs 0).spatial = some
      { hashes := [((0 : ℤ), (0 : ℤ))]
        bounds := some { xStart := 0, yStart := 0, xEnd := 0, yEnd := 0 } } from rfl)
    (by rw [hnb]; decide), hnb]
  rfl

/-! ### Claim C4 -/

/-- An object with a unit box at the origin, indexed in bucket `(0,0)`. -/
def objC4 : Obj :=
  { obj0 with
    aabb := some { x := 0, y := 0, width := 1, height := 1 }
    spatial := some { hashes := [((0 : ℤ), (0 : ℤ))]
                      bounds := some { xStart := 0, yStart := 0, xEnd := 0, yEnd := 0 } } }

/-- A 10×10-cell index holding that object. -/
def W4 : State :=
  { xSize := 10, ySize := 10, simpleTest := true, dirtyTest := true
    hash := [((((0 : ℤ), (0 : ℤ)) : Key), [0])], elements := [0], containers := []
    objs := fun _ => objC4, conts := fun _ => cont0, lastBuckets := 0 }

/-- **C4** (code bug).  `queryCallback` with `simpleTest` does *not*
restrict the callback to matched objects: in `W4` the sole bucket member's
AABB (`0,0,1,1`) does not intersect the query rectangle (`5,5,1,1`), yet
`queryCallback` still invokes the callback on it and returns `true`.
The `simpleTest` branch of the source declares `const AABB = object.AABB`,
shadowing the query-rectangle parameter of the same name, so its four
comparisons test the member's box against itself and accept any box with
positive width and height. -/
theorem c4_querycallback_shadowing :
    W4.hash = [((((0 : ℤ), (0 : ℤ)) : Key), [0])] ∧
    aabbTest (cachedAABB (W4.objs 0)) { x := 5, y := 5, width := 1, height := 1 } = false ∧
    queryCallback W4 { x := 5, y := 5, width := 1, height := 1 } (fun _ => true) true = true := by
  refine ⟨rfl, ?_, ?_⟩
  · norm_num [aabbTest, cachedAABB, W4, objC4, obj0]
  · have hgb : getBounds W4 { x := 5, y := 5, width := 1, height := 1 } =
        { xStart := 0, yStart := 0, xEnd := 0, yEnd := 0 } := by
      simp only [getBounds, W4, SpatialHashBounds.mk.injEq]
      norm_num
    rw [queryCallback, hgb, cellKeys_zero]
    simp only [List.any_cons, List.any_nil, Bool.or_false]
    rw [show bucket W4.hash ((0 : ℤ), (0 : ℤ)) = some [0] from rfl]
    simp only [List.any_cons, List.any_nil, Bool.or_false, if_pos rfl]
    rw [show cachedAABB (W4.objs 0) =
      { x := 0, y := 0, width := 1, height := 1 } from rfl]
    norm_num

/-! ### Claim C5 -/

/-- An options object giving only `size`. -/
def optsSize (v : ℚ) : SpatialHashOptions :=
  { size := some v, xSize := none, ySize := none, simpleTest := none, dirtyTest := none }

/-- **C5** (amended).  The constructor has no validation and no failure
path: any nonzero `size` — negative included — is accepted verbatim for
both cell dimensions, and omitted options fall back to the defaults
(1000×1000 cells, `simpleTest` and `dirtyTest` both on).  The claim's
"fails fast with ConfigurationError on non-positive dimensions" is refuted
by `c5_counterexample`. -/
theorem c5_constructor_no_validation (v : ℚ) (objs : Id → Obj)
    (conts : CId → Container) (hv : v ≠ 0) :
    ((mkSpatialHash (some (optsSize v)) objs conts).xSize = v ∧
     (mkSpatialHash (some (optsSize v)) objs conts).ySize = v) ∧
    ((mkSpatialHash none objs conts).xSize = 1000 ∧
     (mkSpatialHash none objs conts).ySize = 1000 ∧
     (mkSpatialHash none objs conts).simpleTest = true ∧
     (mkSpatialHash none objs conts).dirtyTest = true) := by
  refine ⟨⟨?_, ?_⟩, rfl, rfl, rfl, rfl⟩
  · simp [mkSpatialHash, mergeOptions, SpatialHashDefaultOptions, optsSize, hv]
  · simp [mkSpatialHash, mergeOptions, SpatialHashDefaultOptions, optsSize, hv]

/-- Witness: the C5 theorem applied at the (negative, nonzero) size `-5`. -/
theorem c5_constructor_witness :
    ((mkSpatialHash (some (optsSize (-5))) (fun _ => obj0) (fun _ => cont0)).xSize = -5 ∧
     (mkSpatialHash (some (optsSize (-5))) (fun _ => obj0) (fun _ => cont0)).ySize = -5) ∧
    ((mkSpatialHash none (fun _ => obj0) (fun _ => cont0)).xSize = 1000 ∧
     (mkSpatialHash none (fun _ => obj0) (fun _ => cont0)).ySize = 1000 ∧
     (mkSpatialHash none (fun _ => obj0) (fun _ => cont0)).simpleTest = true ∧
     (mkSpatialHash none (fun _ => obj0) (fun _ => cont0)).dirtyTest = true) :=
  c5_constructor_no_validation (-5) (fun _ => obj0) (fun _ => cont0) (by norm_num)

/-- Counterexample to C5 as stated: constructing with the negative cell
size `-5` does not fail — it yields an index whose cell dimensions are
`-5`, with empty hash and element list. -/
theorem c5_counterexample :
    (mkSpatialHash (some (optsSize (-5))) (fun _ => obj0) (fun _ => cont0)).xSize = -5 ∧
    (mkSpatialHash (some (optsSize (-5))) (fun _ => obj0) (fun _ => cont0)).hash = [] ∧
    (mkSpatialHash (some (optsSize (-5))) (fun _ => obj0) (fun _ => cont0)).elements = [] := by
  refine ⟨?_, rfl, rfl⟩
  simp only [mkSpatialHash, mergeOptions, SpatialHashDefaultOptions, optsSize]
  norm_num

/-! ### Claim C6 -/

/-- **C6** (code bug).  `remove` on a never-registered object is *not* a
silent no-op: `elements.indexOf` returns `-1` and `splice(-1, 1)` deletes
the *last* entry of the element list.  In `WC1`, removing the unregistered
object `1` evicts the registered object `0` from the element list. -/
theorem c6_remove_unregistered :
    1 ∉ trackedIds WC1 ∧ WC1.elements = [0] ∧ (remove WC1 1).elements = [] := by
  refine ⟨by decide, rfl, rfl⟩

/-! ### Claim C9 -/

/-- The container record as `addContainer` leaves it: both closures
subscribed, `cull` attached. -/
def ct9 : Container :=
  { children := []
    cull := some { staticFlag := false, added := some .hAdded, removed := some .hRemoved }
    listeners := [(Ev.childAdded, Handler.hAdded), (Ev.childRemoved, Handler.hRemoved)] }

/-- An index tracking element `0` (in bucket `(0,0)`) and the registered
(childless) container `5`. -/
def W9 : State :=
  { xSize := 1, ySize := 1, simpleTest := true, dirtyTest := true
    hash := [((((0 : ℤ), (0 : ℤ)) : Key), [0])], elements := [0], containers := [5]
    objs := fun j => if j = 0 then objC1 else obj0
    conts := fun _ => ct9, lastBuckets := 0 }

/-- **C9** (code bug).  `removeContainer` does not release the
child-removed subscription: it calls `off('childAdded', …)` but then
`off('removedFrom', …)` — not `off('childRemoved', …)` — so the
`childRemoved` listener survives.  Consequently a later child-removed
notification from the unregistered container still mutates the index:
here it empties bucket `(0,0)` of object `0`, which is still tracked as
an element. -/
theorem c9_removecontainer_leaks_listener :
    ((removeContainer W9 5).conts 5).listeners = [(Ev.childRemoved, Handler.hRemoved)] ∧
    (removeContainer W9 5).containers = [] ∧
    0 ∈ trackedIds (removeContainer W9 5) ∧
    (removeContainer W9 5).hash = [((((0 : ℤ), (0 : ℤ)) : Key), [0])] ∧
    (emit (removeContainer W9 5) 5 Ev.childRemoved 0).hash =
      [((((0 : ℤ), (0 : ℤ)) : Key), ([] : List Id))] := by
  refine ⟨rfl, rfl, by decide, rfl, rfl⟩

/-! ### Claim C7 -/

/-- The spatial state of `objW2`. -/
def spW2 : Spatial :=
  { hashes := [((0 : ℤ), (0 : ℤ))]
    bounds := some { xStart := 0, yStart := 0, xEnd := 0, yEnd := 0 } }

theorem bucketOf_W2 (k : Key) :
    bucketOf W2 k = if k = ((0 : ℤ), (0 : ℤ)) then [0] else [] := by
  rw [bucketOf, show W2.hash = [((((0 : ℤ), (0 : ℤ)) : Key), [0])] from rfl, bucket_cons]
  by_cases hk : k = ((0 : ℤ), (0 : ℤ))
  · rw [if_pos hk, if_pos hk.symm]
    rfl
  · rw [if_neg hk, if_neg (fun hh => hk hh.symm), bucket_nil]
    rfl

theorem goodSpatial_W2 : GoodSpatial W2 0 spW2 := by
  refine ⟨?_, ?_, ?_⟩
  · intro b hb
    cases hb
    exact cellKeys_zero.symm
  · intro hb
    exact Option.noConfusion hb
  · intro k
    rw [show spW2.hashes = [((0 : ℤ), (0 : ℤ))] from rfl, bucketOf_W2]
    by_cases hk : k = ((0 : ℤ), (0 : ℤ))
    · rw [if_pos hk, cnt_singleton, cnt_singleton, if_pos rfl, if_pos hk.symm]
    · rw [if_neg hk, cnt_nil, cnt_singleton, if_neg (fun hh => hk hh.symm)]

/-- **C7** (confirmed).  Re-indexing one object (the `updateObject`
primitive that refresh runs on a dirty or moved object) places it in
exactly the buckets of the cells of its newly computed range — it appears
once in each bucket of the new range and in no other bucket — and when
the recomputed range equals the cached one no bucket is changed at all. -/
theorem c7_move_invalidation (s : State) (i : Id) (sp : Spatial)
    (hknd : KeysNodup s.hash) (hsp : (s.objs i).spatial = some sp)
    (hgood : GoodSpatial s i sp) :
    (∀ k, cnt i (bucketOf (updateObject s i) k) =
      if k ∈ cellKeys (newBounds s i) then 1 else 0) ∧
    (sp.bounds = some (newBounds s i) → (updateObject s i).hash = s.hash) := by
  obtain ⟨-, -, u3, -, -, -, -, -, -, -, -, -, -, -, u15⟩ :=
    updateObject_spec s i sp hknd hsp hgood
  refine ⟨fun k => ?_, u15⟩
  rw [u3 k, cnt_cellKeys]

/-- Witness: the C7 theorem on the concrete index `W2`, whose object has
moved from cell `(0,0)` to cell `(1,0)`, instantiated at both cells. -/
theorem c7_move_invalidation_witness :
    (cnt 0 (bucketOf (updateObject W2 0) ((1 : ℤ), (0 : ℤ))) =
      if ((1 : ℤ), (0 : ℤ)) ∈ cellKeys (newBounds W2 0) then 1 else 0) ∧
    (cnt 0 (bucketOf (updateObject W2 0) ((0 : ℤ), (0 : ℤ))) =
      if ((0 : ℤ), (0 : ℤ)) ∈ cellKeys (newBounds W2 0) then 1 else 0) :=
  ⟨(c7_move_invalidation W2 0 spW2 (by show (W2.hash.map Prod.fst).Nodup; decide) rfl
      goodSpatial_W2).1 ((1 : ℤ), (0 : ℤ)),
   (c7_move_invalidation W2 0 spW2 (by show (W2.hash.map Prod.fst).Nodup; decide) rfl
      goodSpatial_W2).1 ((0 : ℤ), (0 : ℤ))⟩

/-! ### Claim C3 -/

/-- The state after `add`'s write-back prologue (fresh spatial state,
dirty/static flags set), before the `updateObject` call. -/
def addPre (s : State) (i : Id) (b : Bool) : State :=
  setObj s i { s.objs i with
    spatial := some { hashes := [], bounds := none }
    dirty := if s.dirtyTest then true else (s.objs i).dirty
    staticObject := if b then true else (s.objs i).staticObject }

/-- `updateObject` on an object with freshly reset spatial state
(`{hashes := [], bounds := none}`, the state `add` installs): the cells of
the computed range are inserted unconditionally — with no purge — on top
of whatever buckets already hold the object. -/
theorem updateObject_freshSpatial (s : State) (i : Id)
    (hknd : KeysNodup s.hash)
    (hsp : (s.objs i).spatial = some { hashes := [], bounds := none }) :
    (updateObject s i).objs i =
      { s.objs i with
        aabb := some (newAABB s i)
        spatial := some { hashes := cellKeys (newBounds s i)
                          bounds := some (newBounds s i) } } ∧
    (∀ j k, cnt j (bucketOf (updateObject s i) k) =
      cnt j (bucketOf s k) + if j = i then cnt k (cellKeys (newBounds s i)) else 0) ∧
    KeysNodup (updateObject s i).hash ∧
    (updateObject s i).elements = s.elements ∧
    (updateObject s i).dirtyTest = s.dirtyTest := by
  have hb : ({ hashes := [], bounds := none } : Spatial).bounds ≠
      some (newBounds s i) := fun hh => Option.noConfusion hh
  have hS1sp : ((uoPre s i { hashes := [], bounds := none }).objs i).spatial =
      some { hashes := [], bounds := none } := by
    rw [uoPre, setObj_objs_self]
  have hpurge : uoPurged s i { hashes := [], bounds := none } =
      uoPre s i { hashes := [], bounds := none } := by
    rw [uoPurged, if_pos rfl]
  obtain ⟨c1, c2, c3, c4, c5, c6, c7, c8, c9, c10, c11, c12, c13⟩ :=
    insertAll_spec (cellKeys (newBounds s i))
      (uoPurged s i { hashes := [], bounds := none }) i
      { hashes := [], bounds := none }
      (by rw [hpurge]; exact hknd) (by rw [hpurge]; exact hS1sp)
  have hS3obj : (uoIns s i { hashes := [], bounds := none }).objs i =
      { s.objs i with
        aabb := some (newAABB s i)
        spatial := some { hashes := cellKeys (newBounds s i), bounds := none } } := by
    show (insertAll (uoPurged s i { hashes := [], bounds := none }) i
      (cellKeys (newBounds s i))).objs i = _
    rw [c1, hpurge, uoPre, setObj_objs_self]
    rfl
  have hS3sp : ((uoIns s i { hashes := [], bounds := none }).objs i).spatial =
      some { hashes := cellKeys (newBounds s i), bounds := none } := by
    rw [hS3obj]
  have hfinal : updateObject s i =
      setObj (uoIns s i { hashes := [], bounds := none }) i
        { (uoIns s i { hashes := [], bounds := none }).objs i with
          spatial := some { hashes := cellKeys (newBounds s i)
                            bounds := some (newBounds s i) } } := by
    rw [updateObject_else hsp hb]
    show (match ((uoIns s i { hashes := [], bounds := none }).objs i).spatial with
      | none => uoIns s i { hashes := [], bounds := none }
      | some sp3 =>
        setObj (uoIns s i { hashes := [], bounds := none }) i
          { (uoIns s i { hashes := [], bounds := none }).objs i with
            spatial := some { sp3 with bounds := some (newBounds s i) } }) = _
    rw [hS3sp]
  rw [hfinal]
  refine ⟨?_, ?_, ?_, ?_, ?_⟩
  · rw [setObj_objs_self, hS3obj]
  · intro j k
    show cnt j (bucketOf (insertAll (uoPurged s i { hashes := [], bounds := none }) i
      (cellKeys (newBounds s i))) k) = _
    rw [c3 j k, hpurge]
    rfl
  · exact c4
  · show (insertAll (uoPurged s i { hashes := [], bounds := none }) i
      (cellKeys (newBounds s i))).elements = s.elements
    rw [c6, hpurge]
    rfl
  · show (insertAll (uoPurged s i { hashes := [], bounds := none }) i
      (cellKeys (newBounds s i))).dirtyTest = s.dirtyTest
    rw [c12, hpurge]
    rfl

/-- The observable outcome of `add` relevant to consistency: the object's
new index state, the bucket-count changes, and the element list. -/
theorem add_spec (s : State) (i : Id) (b : Bool) (hknd : KeysNodup s.hash) :
    (add s i b).objs i =
      { (addPre s i b).objs i with
        aabb := some (newAABB (addPre s i b) i)
        spatial := some { hashes := cellKeys (newBounds (addPre s i b) i)
                          bounds := some (newBounds (addPre s i b) i) } } ∧
    (∀ j k, cnt j (bucketOf (add s i b) k) =
      cnt j (bucketOf s k) +
        if j = i then cnt k (cellKeys (newBounds (addPre s i b) i)) else 0) ∧
    KeysNodup (add s i b).hash ∧
    (add s i b).elements = s.elements ++ [i] := by
  obtain ⟨f1, f2, f3, f4, f5⟩ := updateObject_freshSpatial (addPre s i b) i hknd
    (by rw [addPre, setObj_objs_self])
  refine ⟨f1, fun j k => f2 j k, f3, ?_⟩
  show (updateObject (addPre s i b) i).elements ++ [i] = s.elements ++ [i]
  rw [f4]
  rfl

/-- **C3** (amended).  From an empty index, after any *well-formed*
sequence of register/unregister/refresh operations — each object added at
most once at a time, removals only of registered entries — the hash map
and the per-object spatial states are bidirectionally consistent: every
tracked object appears exactly once in the bucket of each key its spatial
state records, and every bucket member records that bucket's key.  The
claim's unrestricted "any sequence" is refuted by `c3_counterexample`:
registering the same object twice double-inserts it. -/
theorem c3_bidirectional_consistency (s0 : State) (ops : List Op)
    (hh : s0.hash = []) (he : s0.elements = []) (hc : s0.containers = [])
    (hwf : WfOps s0 ops) : Consistent (applyOps s0 ops) := by
  obtain ⟨hInv, hnd⟩ := Inv_initial hh he hc
  exact Inv.consistent (Inv_applyOps ops s0 hInv hnd hwf).1

/-- Witness: the C3 theorem on the fresh index and the one-operation
sequence `[add 0]`. -/
theorem c3_bidirectional_consistency_witness :
    Consistent (applyOps fresh [Op.add 0 false]) :=
  c3_bidirectional_consistency fresh [Op.add 0 false] rfl rfl rfl
    ⟨(by decide : (0 : Id) ∉ trackedIds fresh), trivial⟩

/-- Counterexample to C3 as stated: after the (not well-formed) sequence
`[add 0, add 0]` from the fresh index, object `0` — tracked, with cell
`(0,0)` recorded in its spatial state — sits *twice* in bucket `(0,0)`:
the second `add` resets the spatial state without purging, so the
`updateObject` insertion runs on top of the first one. -/
theorem c3_counterexample :
    cnt 0 (bucketOf (applyOps fresh [Op.add 0 false, Op.add 0 false])
      ((0 : ℤ), (0 : ℤ))) = 2 ∧
    ¬ WfOps fresh [Op.add 0 false, Op.add 0 false] := by
  have hknd0 : KeysNodup fresh.hash := by
    show (List.map Prod.fst ([] : List (Key × List Id))).Nodup
    exact List.nodup_nil
  obtain ⟨g1, g2, g3, g4⟩ := add_spec fresh 0 false hknd0
  constructor
  · show cnt 0 (bucketOf (add (add fresh 0 false) 0 false) ((0 : ℤ), (0 : ℤ))) = 2
    obtain ⟨h1, h2, h3, h4⟩ := add_spec (add fresh 0 false) 0 false g3
    have hnb1 : newBounds (addPre fresh 0 false) 0 =
        { xStart := 0, yStart := 0, xEnd := 0, yEnd := 0 } := by
      simp only [newBounds, newAABB, getBounds, computeAABB, addPre, setObj, fresh,
        obj0, SpatialHashBounds.mk.injEq]
      norm_num
    have hx1 : (addPre (add fresh 0 false) 0 false).xSize = 1 :=
      (updateObject_sameFields (addPre fresh 0 false) 0).2.2.2.1
    have hy1 : (addPre (add fresh 0 false) 0 false).ySize = 1 :=
      (updateObject_sameFields (addPre fresh 0 false) 0).2.2.2.2.1
    have e1 : computeAABB ((addPre (add fresh 0 false) 0 false).objs 0) =
        computeAABB ((add fresh 0 false).objs 0) := rfl
    have e2 : computeAABB ((add fresh 0 false).objs 0) = computeAABB obj0 := by
      rw [g1]
      rfl
    have hnb2 : newBounds (addPre (add fresh 0 false) 0 false) 0 =
        { xStart := 0, yStart := 0, xEnd := 0, yEnd := 0 } := by
      rw [newBounds, newAABB, getBounds, e1, e2, hx1, hy1]
      simp only [computeAABB, obj0, SpatialHashBounds.mk.injEq]
      norm_num
    rw [h2 0 ((0 : ℤ), (0 : ℤ)), if_pos rfl, g2 0 ((0 : ℤ), (0 : ℤ)), if_pos rfl,
      hnb1, hnb2, cellKeys_zero, cnt_singleton, if_pos rfl,
      show cnt 0 (bucketOf fresh ((0 : ℤ), (0 : ℤ))) = 0 from rfl]
  · intro hwf
    obtain ⟨-, hwf2, -⟩ := hwf
    refine hwf2 ?_
    show (0 : Id) ∈ trackedIds (add fresh 0 false)
    refine List.mem_append_left _ ?_
    rw [g4]
    exact List.mem_append_right _ (List.mem_singleton_self 0)

/-! ### Claim C10 -/

theorem hashKeys_removeFromHash (s : State) (i : Id) :
    hashKeys (removeFromHash s i) = hashKeys s := by
  rcases hsp : (s.objs i).spatial with _ | sp
  · rw [removeFromHash, hsp]
  · rw [removeFromHash, hsp]
    show (popKeys i sp.hashes.reverse s.hash).map Prod.fst = s.hash.map Prod.fst
    exact popKeys_map_fst _ _ _

theorem mem_hashKeys_insert (s : State) (i : Id) (k0 k : Key)
    (hk : k ∈ hashKeys s) : k ∈ hashKeys (insert s i k0) := by
  rw [hashKeys_insert]
  exact List.mem_append_left _ hk

theorem mem_hashKeys_insertStep (i : Id) (st : State) (k0 k : Key)
    (hk : k ∈ hashKeys st) : k ∈ hashKeys (insertStep i st k0) := by
  rcases hsp : (st.objs i).spatial with _ | sp
  · rw [show insertStep i st k0 = insert st i k0 by
      show (match (st.objs i).spatial with
        | none => insert st i k0
        | some sp2 => setObj (insert st i k0) i
            { st.objs i with spatial := some { sp2 with hashes := sp2.hashes ++ [k0] } }) = _
      rw [hsp]]
    exact mem_hashKeys_insert st i k0 k hk
  · rw [insertStep_eq hsp]
    exact mem_hashKeys_insert st i k0 k hk

theorem mem_hashKeys_insertAll (ks : List Key) (s : State) (i : Id) (k : Key)
    (hk : k ∈ hashKeys s) : k ∈ hashKeys (insertAll s i ks) := by
  induction ks generalizing s with
  | nil => exact hk
  | cons k0 t ih =>
    rw [insertAll, List.foldl_cons]
    exact ih (insertStep i s k0) (mem_hashKeys_insertStep i s k0 k hk)

theorem mem_hashKeys_updateObject (s : State) (i : Id) (k : Key)
    (hk : k ∈ hashKeys s) : k ∈ hashKeys (updateObject s i) := by
  rcases hsp : (s.objs i).spatial with _ | sp
  all_goals simp only [updateObject, hsp]
  case none =>
    rw [Option.getD_none]
    split
    · exact hk
    · split
      · refine mem_hashKeys_insertAll _ _ i k ?_
        split
        · exact hk
        · rw [hashKeys_removeFromHash]
          exact hk
      · refine mem_hashKeys_insertAll _ _ i k ?_
        split
        · exact hk
        · rw [hashKeys_removeFromHash]
          exact hk
  case some =>
    rw [Option.getD_some]
    split
    · exact hk
    · split
      · refine mem_hashKeys_insertAll _ _ i k ?_
        split
        · exact hk
        · rw [hashKeys_removeFromHash]
          exact hk
      · refine mem_hashKeys_insertAll _ _ i k ?_
        split
        · exact hk
        · rw [hashKeys_removeFromHash]
          exact hk

theorem mem_hashKeys_add (s : State) (i : Id) (b : Bool) (k : Key)
    (hk : k ∈ hashKeys s) : k ∈ hashKeys (add s i b) :=
  mem_hashKeys_updateObject (addPre s i b) i k hk

theorem hashKeys_remove (s : State) (i : Id) :
    hashKeys (remove s i) = hashKeys s :=
  hashKeys_removeFromHash { s with elements := jsSplice s.elements i } i

theorem mem_hashKeys_registerChild (s : State) (i : Id) (k : Key)
    (hk : k ∈ hashKeys s) : k ∈ hashKeys (registerChild s i) :=
  mem_hashKeys_updateObject
    (setObj s i { s.objs i with spatial := some { hashes := [], bounds := none } }) i k hk

theorem mem_hashKeys_registerFold (l : List Id) (s : State) (k : Key)
    (hk : k ∈ hashKeys s) : k ∈ hashKeys (l.foldl registerChild s) := by
  induction l generalizing s with
  | nil => exact hk
  | cons x t ih =>
    rw [List.foldl_cons]
    exact ih (registerChild s x) (mem_hashKeys_registerChild s x k hk)

theorem mem_hashKeys_addContainer (s : State) (c : CId) (b : Bool) (k : Key)
    (hk : k ∈ hashKeys s) : k ∈ hashKeys (addContainer s c b) :=
  mem_hashKeys_registerFold (s.conts c).children s k hk

theorem hashKeys_purgeFold (l : List Id) (s : State) :
    hashKeys (l.foldl (fun st i => removeFromHash st i) s) = hashKeys s := by
  induction l generalizing s with
  | nil => rfl
  | cons x t ih =>
    rw [List.foldl_cons, ih (removeFromHash s x), hashKeys_removeFromHash]

theorem hashKeys_removeContainer (s : State) (c : CId) :
    hashKeys (removeContainer s c) = hashKeys s := by
  show hashKeys
    ((({ s with containers := jsSplice s.containers c }).conts c).children.foldl
      (fun st i => removeFromHash st i)
      { s with containers := jsSplice s.containers c }) = hashKeys s
  rw [hashKeys_purgeFold]
  rfl

theorem mem_hashKeys_dirtyStep (st : State) (i : Id) (k : Key)
    (hk : k ∈ hashKeys st) : k ∈ hashKeys (dirtyStep st i) := by
  rw [dirtyStep]
  split
  · exact mem_hashKeys_updateObject st i k hk
  · exact hk

theorem mem_hashKeys_fullStep (st : State) (i : Id) (k : Key)
    (hk : k ∈ hashKeys st) : k ∈ hashKeys (fullStep st i) := by
  rw [fullStep]
  split
  · exact hk
  · exact mem_hashKeys_updateObject st i k hk

theorem mem_hashKeys_dirtyFold (l : List Id) (st : State) (k : Key)
    (hk : k ∈ hashKeys st) : k ∈ hashKeys (l.foldl dirtyStep st) := by
  induction l generalizing st with
  | nil => exact hk
  | cons x t ih =>
    rw [List.foldl_cons]
    exact ih (dirtyStep st x) (mem_hashKeys_dirtyStep st x k hk)

theorem mem_hashKeys_fullFold (l : List Id) (st : State) (k : Key)
    (hk : k ∈ hashKeys st) : k ∈ hashKeys (l.foldl fullStep st) := by
  induction l generalizing st with
  | nil => exact hk
  | cons x t ih =>
    rw [List.foldl_cons]
    exact ih (fullStep st x) (mem_hashKeys_fullStep st x k hk)

theorem mem_hashKeys_updFold (l : List Id) (st : State) (k : Key)
    (hk : k ∈ hashKeys st) : k ∈ hashKeys (l.foldl updateObject st) := by
  induction l generalizing st with
  | nil => exact hk
  | cons x t ih =>
    rw [List.foldl_cons]
    exact ih (updateObject st x) (mem_hashKeys_updateObject st x k hk)

theorem mem_hashKeys_dirtyContFold (L : List CId) (st : State) (k : Key)
    (hk : k ∈ hashKeys st) : k ∈ hashKeys (L.foldl dirtyContStep st) := by
  induction L generalizing st with
  | nil => exact hk
  | cons c T ih =>
    rw [List.foldl_cons]
    refine ih (dirtyContStep st c) ?_
    rw [dirtyContStep]
    split
    · exact hk
    · exact mem_hashKeys_dirtyFold _ st k hk

theorem mem_hashKeys_fullContFold (L : List CId) (st : State) (k : Key)
    (hk : k ∈ hashKeys st) : k ∈ hashKeys (L.foldl fullContStep st) := by
  induction L generalizing st with
  | nil => exact hk
  | cons c T ih =>
    rw [List.foldl_cons]
    refine ih (fullContStep st c) ?_
    rw [fullContStep]
    split
    · exact hk
    · exact mem_hashKeys_updFold _ st k hk

theorem mem_hashKeys_updateObjects (s : State) (k : Key)
    (hk : k ∈ hashKeys s) : k ∈ hashKeys (updateObjects s) := by
  simp only [updateObjects]
  split
  · exact mem_hashKeys_dirtyContFold _ _ k (mem_hashKeys_dirtyFold _ _ k hk)
  · exact mem_hashKeys_fullContFold _ _ k (mem_hashKeys_fullFold _ _ k hk)

theorem length_filter_split {α : Type} (p : α → Bool) (l : List α) :
    l.length = (l.filter p).length + (l.filter (fun a => !(p a))).length := by
  induction l with
  | nil => rfl
  | cons x t ih =>
    cases hx : p x
    · rw [List.length_cons, List.filter_cons, List.filter_cons, hx,
        if_neg Bool.false_ne_true, show (!false) = true from rfl, if_pos rfl,
        List.length_cons]
      omega
    · rw [List.length_cons, List.filter_cons, List.filter_cons, hx,
        if_pos rfl, show (!true) = false from rfl, if_neg Bool.false_ne_true,
        List.length_cons]
      omega

theorem bucket_count_split (s : State) :
    getNumberOfBuckets s = (getBuckets s 1).length +
      ((s.hash.map Prod.snd).filter (fun l => decide (l.length = 0))).length := by
  rw [getNumberOfBuckets, getBuckets,
    show s.hash.length = (s.hash.map Prod.snd).length from (List.length_map _ _).symm,
    length_filter_split (fun l => decide (1 ≤ l.length)) (s.hash.map Prod.snd)]
  have hfe : (fun l : List Id => !(decide (1 ≤ l.length))) =
      (fun l : List Id => decide (l.length = 0)) := by
    funext l
    cases l with
    | nil => rfl
    | cons x t =>
      show (!decide (1 ≤ t.length + 1)) = decide (t.length + 1 = 0)
      rw [decide_eq_true (Nat.succ_le_succ (Nat.zero_le t.length)),
        decide_eq_false (Nat.succ_ne_zero t.length)]
      rfl
  rw [hfe]

/-- **C10** (confirmed).  No operation ever deletes a bucket: every key
present in the hash stays present across `add`, `remove`,
`removeFromHash`, `updateObject`, `addContainer`, `removeContainer` and
`updateObjects` (removals preserve the key list exactly and only empty
bucket lists); `getNumberOfBuckets` counts every bucket including the
now-empty ones, which is the count of `getBuckets` at the default
minimum 1 plus the number of empty buckets. -/
theorem c10_buckets_persistent (s : State) (i : Id) (b : Bool) (c : CId) (k : Key)
    (hk : k ∈ hashKeys s) :
    k ∈ hashKeys (add s i b) ∧
    hashKeys (remove s i) = hashKeys s ∧
    hashKeys (removeFromHash s i) = hashKeys s ∧
    k ∈ hashKeys (updateObject s i) ∧
    k ∈ hashKeys (addContainer s c b) ∧
    hashKeys (removeContainer s c) = hashKeys s ∧
    k ∈ hashKeys (updateObjects s) ∧
    getNumberOfBuckets s = (hashKeys s).length ∧
    getNumberOfBuckets s = (getBuckets s 1).length +
      ((s.hash.map Prod.snd).filter (fun l => decide (l.length = 0))).length :=
  ⟨mem_hashKeys_add s i b k hk, hashKeys_remove s i, hashKeys_removeFromHash s i,
   mem_hashKeys_updateObject s i k hk, mem_hashKeys_addContainer s c b k hk,
   hashKeys_removeContainer s c, mem_hashKeys_updateObjects s k hk,
   (List.length_map _ _).symm, bucket_count_split s⟩

/-- Witness: the C10 theorem on the one-bucket index `WC1` at its key
`(0,0)`. -/
theorem c10_buckets_persistent_witness :
    ((0 : ℤ), (0 : ℤ)) ∈ hashKeys (add WC1 0 false) ∧
    hashKeys (remove WC1 0) = hashKeys WC1 ∧
    hashKeys (removeFromHash WC1 0) = hashKeys WC1 ∧
    ((0 : ℤ), (0 : ℤ)) ∈ hashKeys (updateObject WC1 0) ∧
    ((0 : ℤ), (0 : ℤ)) ∈ hashKeys (addContainer WC1 7 false) ∧
    hashKeys (removeContainer WC1 7) = hashKeys WC1 ∧
    ((0 : ℤ), (0 : ℤ)) ∈ hashKeys (updateObjects WC1) ∧
    getNumberOfBuckets WC1 = (hashKeys WC1).length ∧
    getNumberOfBuckets WC1 = (getBuckets WC1 1).length +
      ((WC1.hash.map Prod.snd).filter (fun l => decide (l.length = 0))).length :=
  c10_buckets_persistent WC1 0 false 7 ((0 : ℤ), (0 : ℤ)) (by decide)

/-! ### Claim C8 -/

theorem bool_eq_false_of_ne_true {b : Bool} (h : ¬(b = true)) : b = false := by
  cases b
  · rfl
  · exact absurd rfl h

/-- Object `i`'s cached index state agrees with what `updateObject` would
recompute from the current transform; `updateObject` on such an object
takes the cheap path and is the identity. -/
def SettledAt (s : State) (i : Id) : Prop :=
  ∃ sp, (s.objs i).spatial = some sp ∧ sp.bounds = some (newBounds s i) ∧
    (s.objs i).aabb = some (newAABB s i)

theorem newBounds_congr {s' s : State} {i : Id}
    (ho : computeAABB (s'.objs i) = computeAABB (s.objs i))
    (hx : s'.xSize = s.xSize) (hy : s'.ySize = s.ySize) :
    newBounds s' i = newBounds s i := by
  rw [newBounds, newBounds, newAABB, newAABB, ho, getBounds_congr hx hy]

theorem SettledAt_congr {s' s : State} {x : Id} (ho : s'.objs x = s.objs x)
    (hx : s'.xSize = s.xSize) (hy : s'.ySize = s.ySize)
    (h : SettledAt s x) : SettledAt s' x := by
  obtain ⟨sp, hsp, hb, ha⟩ := h
  have hnb : newBounds s' x = newBounds s x := newBounds_congr (by rw [ho]) hx hy
  have hna : newAABB s' x = newAABB s x := by
    rw [newAABB, newAABB, ho]
  exact ⟨sp, by rw [ho]; exact hsp, by rw [hnb]; exact hb, by rw [ho, hna]; exact ha⟩

theorem updateObject_settled_id (st : State) (i : Id) (h : SettledAt st i) :
    updateObject st i = st := by
  obtain ⟨sp, hsp, hb, ha⟩ := h
  rw [updateObject_skip hsp hb]
  rw [show ({ st.objs i with aabb := some (newAABB st i), spatial := some sp } : Obj)
    = st.objs i by rw [← ha, ← hsp]]
  exact setObj_same st i

theorem fullStep_settled_id (st : State) (i : Id)
    (h : (st.objs i).staticObject = true ∨ SettledAt st i) :
    fullStep st i = st := by
  rw [fullStep]
  split
  · rfl
  · next hns => exact updateObject_settled_id st i (h.resolve_left hns)

theorem fullFold_settled_id (l : List Id) (st : State)
    (hset : ∀ i ∈ l, (st.objs i).staticObject = true ∨ SettledAt st i) :
    l.foldl fullStep st = st := by
  induction l with
  | nil => rfl
  | cons x t ih =>
    rw [List.foldl_cons, fullStep_settled_id st x (hset x (List.mem_cons_self _ _))]
    exact ih (fun y hy => hset y (List.mem_cons_of_mem _ hy))

theorem updFold_settled_id (l : List Id) (st : State)
    (hset : ∀ i ∈ l, SettledAt st i) :
    l.foldl updateObject st = st := by
  induction l with
  | nil => rfl
  | cons x t ih =>
    rw [List.foldl_cons, updateObject_settled_id st x (hset x (List.mem_cons_self _ _))]
    exact ih (fun y hy => hset y (List.mem_cons_of_mem _ hy))

theorem fullContFold_settled_id (L : List CId) (st : State)
    (hset : ∀ c ∈ L, contStatic (st.conts c) = false →
      ∀ x ∈ (st.conts c).children, SettledAt st x) :
    L.foldl fullContStep st = st := by
  induction L with
  | nil => rfl
  | cons c T ih =>
    have hstep : fullContStep st c = st := by
      rw [fullContStep]
      split
      · rfl
      · next hns =>
        exact updFold_settled_id _ st
          (hset c (List.mem_cons_self _ _) (bool_eq_false_of_ne_true hns))
    rw [List.foldl_cons, hstep]
    exact ih (fun d hd => hset d (List.mem_cons_of_mem _ hd))

theorem dirtyStep_clean_id (st : State) (i : Id) (h : (st.objs i).dirty = false) :
    dirtyStep st i = st := by
  rw [dirtyStep, if_neg (by rw [h]; exact Bool.false_ne_true)]

theorem dirtyFold_clean_id (l : List Id) (st : State)
    (hcl : ∀ i ∈ l, (st.objs i).dirty = false) :
    l.foldl dirtyStep st = st := by
  induction l with
  | nil => rfl
  | cons x t ih =>
    rw [List.foldl_cons, dirtyStep_clean_id st x (hcl x (List.mem_cons_self _ _))]
    exact ih (fun y hy => hcl y (List.mem_cons_of_mem _ hy))

theorem dirtyContFold_clean_id (L : List CId) (st : State)
    (hcl : ∀ c ∈ L, contStatic (st.conts c) = false →
      ∀ x ∈ (st.conts c).children, (st.objs x).dirty = false) :
    L.foldl dirtyContStep st = st := by
  induction L with
  | nil => rfl
  | cons c T ih =>
    have hstep : dirtyContStep st c = st := by
      rw [dirtyContStep]
      split
      · rfl
      · next hns =>
        exact dirtyFold_clean_id _ st
          (hcl c (List.mem_cons_self _ _) (bool_eq_false_of_ne_true hns))
    rw [List.foldl_cons, hstep]
    exact ih (fun d hd => hcl d (List.mem_cons_of_mem _ hd))

theorem updateObjects_dirty_id (s1 : State) (hdt : s1.dirtyTest = true)
    (hclE : ∀ i ∈ s1.elements, (s1.objs i).dirty = false)
    (hclC : ∀ c ∈ s1.containers, contStatic (s1.conts c) = false →
      ∀ x ∈ (s1.conts c).children, (s1.objs x).dirty = false) :
    updateObjects s1 = s1 := by
  simp only [updateObjects, if_pos hdt]
  rw [dirtyFold_clean_id s1.elements s1 hclE]
  exact dirtyContFold_clean_id s1.containers s1 hclC

theorem updateObjects_full_id (s1 : State) (hdt : ¬(s1.dirtyTest = true))
    (hsetE : ∀ i ∈ s1.elements, (s1.objs i).staticObject = true ∨ SettledAt s1 i)
    (hsetC : ∀ c ∈ s1.containers, contStatic (s1.conts c) = false →
      ∀ x ∈ (s1.conts c).children, SettledAt s1 x) :
    updateObjects s1 = s1 := by
  simp only [updateObjects, if_neg hdt]
  rw [fullFold_settled_id s1.elements s1 hsetE]
  exact fullContFold_settled_id s1.containers s1 hsetC

theorem updateObject_settles {st : State} {tr : List Id} {i : Id}
    (hInv : InvOn st tr) (hi : i ∈ tr) : SettledAt (updateObject st i) i := by
  obtain ⟨a, ha, hsp, hcnt⟩ := hInv.2.1 i hi
  obtain ⟨u1, -, -, -, -, -, -, -, -, u10, u11, -, -, -, -⟩ :=
    updateObject_spec st i _ hInv.1 hsp (TrackedOk.goodSpatial ha hsp hcnt)
  have hco : computeAABB ((updateObject st i).objs i) = computeAABB (st.objs i) := by
    rw [u1]
    rfl
  have hnb : newBounds (updateObject st i) i = newBounds st i :=
    newBounds_congr hco u10 u11
  have hna : newAABB (updateObject st i) i = newAABB st i := by
    rw [newAABB, newAABB, hco]
  refine ⟨{ hashes := cellKeys (newBounds st i), bounds := some (newBounds st i) },
    ?_, ?_, ?_⟩
  · rw [u1]
  · rw [hnb]
  · rw [u1, hna]

theorem fullStep_preserve_ne {st : State} {tr : List Id} {j x : Id}
    (hInv : InvOn st tr) (hj : j ∈ tr) (hxj : x ≠ j) :
    (fullStep st j).objs x = st.objs x := by
  rw [fullStep]
  split
  · rfl
  · exact (updateObject_preserve_ne hInv hj hxj).1

theorem dirtyStep_clears_self (st : State) (i : Id) :
    ((dirtyStep st i).objs i).dirty = false := by
  rw [dirtyStep]
  split
  · rw [setObj_objs_self]
  · next h => exact bool_eq_false_of_ne_true h

theorem dirtyStep_preserve_ne {st : State} {tr : List Id} {j x : Id}
    (hInv : InvOn st tr) (hj : j ∈ tr) (hxj : x ≠ j) :
    (dirtyStep st j).objs x = st.objs x := by
  rw [dirtyStep]
  split
  · rw [setObj_objs_ne _ _ _ _ hxj]
    exact (updateObject_preserve_ne hInv hj hxj).1
  · rfl

theorem dirtyFold_clears (l : List Id) (st : State) (tr : List Id)
    (hInv : InvOn st tr) (hsub : ∀ x ∈ l, x ∈ tr) (hnd : l.Nodup) :
    InvOn (l.foldl dirtyStep st) tr ∧
    SameFields (l.foldl dirtyStep st) st ∧
    (∀ j, j ∉ l → (l.foldl dirtyStep st).objs j = st.objs j) ∧
    (∀ i ∈ l, ((l.foldl dirtyStep st).objs i).dirty = false) := by
  induction l generalizing st with
  | nil =>
    exact ⟨hInv, SameFields.refl st, fun j _ => rfl,
      fun i hi => absurd hi (List.not_mem_nil i)⟩
  | cons x t ih =>
    rw [List.foldl_cons]
    rw [List.nodup_cons] at hnd
    obtain ⟨hInv1, hsf1⟩ := InvOn_dirtyStep hInv (hsub x (List.mem_cons_self _ _))
    obtain ⟨ihInv, ihsf, ihpres, ihcl⟩ := ih (dirtyStep st x) hInv1
      (fun y hy => hsub y (List.mem_cons_of_mem _ hy)) hnd.2
    refine ⟨ihInv, ihsf.trans hsf1, ?_, ?_⟩
    · intro j hj
      rw [ihpres j (fun hh => hj (List.mem_cons_of_mem _ hh))]
      exact dirtyStep_preserve_ne hInv (hsub x (List.mem_cons_self _ _))
        (fun hh => hj (by rw [hh]; exact List.mem_cons_self _ _))
    · intro i hi
      rcases List.mem_cons.mp hi with hix | hit
      · subst hix
        rw [ihpres i hnd.1]
        exact dirtyStep_clears_self st i
      · exact ihcl i hit

theorem fullFold_settles (l : List Id) (st : State) (tr : List Id)
    (hInv : InvOn st tr) (hsub : ∀ x ∈ l, x ∈ tr) (hnd : l.Nodup) :
    InvOn (l.foldl fullStep st) tr ∧
    SameFields (l.foldl fullStep st) st ∧
    (∀ j, j ∉ l → (l.foldl fullStep st).objs j = st.objs j) ∧
    (∀ i ∈ l, ((l.foldl fullStep st).objs i).staticObject = true ∨
      SettledAt (l.foldl fullStep st) i) := by
  induction l generalizing st with
  | nil =>
    exact ⟨hInv, SameFields.refl st, fun j _ => rfl,
      fun i hi => absurd hi (List.not_mem_nil i)⟩
  | cons x t ih =>
    rw [List.foldl_cons]
    rw [List.nodup_cons] at hnd
    obtain ⟨hInv1, hsf1⟩ := InvOn_fullStep hInv (hsub x (List.mem_cons_self _ _))
    obtain ⟨ihInv, ihsf, ihpres, ihset⟩ := ih (fullStep st x) hInv1
      (fun y hy => hsub y (List.mem_cons_of_mem _ hy)) hnd.2
    refine ⟨ihInv, ihsf.trans hsf1, ?_, ?_⟩
    · intro j hj
      rw [ihpres j (fun hh => hj (List.mem_cons_of_mem _ hh))]
      exact fullStep_preserve_ne hInv (hsub x (List.mem_cons_self _ _))
        (fun hh => hj (by rw [hh]; exact List.mem_cons_self _ _))
    · intro i hi
      rcases List.mem_cons.mp hi with hix | hit
      · subst hix
        by_cases hstat : (st.objs i).staticObject = true
        · left
          rw [ihpres i hnd.1, show fullStep st i = st from by rw [fullStep, if_pos hstat]]
          exact hstat
        · right
          have hsx : SettledAt (fullStep st i) i := by
            rw [fullStep, if_neg hstat]
            exact updateObject_settles hInv (hsub i (List.mem_cons_self _ _))
          exact SettledAt_congr (ihpres i hnd.1) ihsf.2.2.2.1 ihsf.2.2.2.2.1 hsx
      · exact ihset i hit

theorem updFold_settles (l : List Id) (st : State) (tr : List Id)
    (hInv : InvOn st tr) (hsub : ∀ x ∈ l, x ∈ tr) (hnd : l.Nodup) :
    InvOn (l.foldl updateObject st) tr ∧
    SameFields (l.foldl updateObject st) st ∧
    (∀ j, j ∉ l → (l.foldl updateObject st).objs j = st.objs j) ∧
    (∀ i ∈ l, SettledAt (l.foldl updateObject st) i) := by
  induction l generalizing st with
  | nil =>
    exact ⟨hInv, SameFields.refl st, fun j _ => rfl,
      fun i hi => absurd hi (List.not_mem_nil i)⟩
  | cons x t ih =>
    rw [List.foldl_cons]
    rw [List.nodup_cons] at hnd
    have hInv1 := InvOn_updateObject hInv (hsub x (List.mem_cons_self _ _))
    obtain ⟨ihInv, ihsf, ihpres, ihset⟩ := ih (updateObject st x) hInv1
      (fun y hy => hsub y (List.mem_cons_of_mem _ hy)) hnd.2
    refine ⟨ihInv, ihsf.trans (updateObject_sameFields st x), ?_, ?_⟩
    · intro j hj
      rw [ihpres j (fun hh => hj (List.mem_cons_of_mem _ hh))]
      exact (updateObject_preserve_ne hInv (hsub x (List.mem_cons_self _ _))
        (fun hh => hj (by rw [hh]; exact List.mem_cons_self _ _))).1
    · intro i hi
      rcases List.mem_cons.mp hi with hix | hit
      · subst hix
        exact SettledAt_congr (ihpres i hnd.1) ihsf.2.2.2.1 ihsf.2.2.2.2.1
          (updateObject_settles hInv (hsub i (List.mem_cons_self _ _)))
      · exact ihset i hit

theorem dirtyContFold_clears (L : List CId) (st : State) (tr : List Id)
    (hInv : InvOn st tr)
    (hsub : ∀ c ∈ L, ∀ x ∈ (st.conts c).children, x ∈ tr)
    (hnd : (L.flatMap (fun c => (st.conts c).children)).Nodup) :
    InvOn (L.foldl dirtyContStep st) tr ∧
    SameFields (L.foldl dirtyContStep st) st ∧
    (∀ j, j ∉ L.flatMap (fun c => (st.conts c).children) →
      (L.foldl dirtyContStep st).objs j = st.objs j) ∧
    (∀ c ∈ L, contStatic (st.conts c) = false →
      ∀ x ∈ (st.conts c).children, ((L.foldl dirtyContStep st).objs x).dirty = false) := by
  induction L generalizing st with
  | nil =>
    exact ⟨hInv, SameFields.refl st, fun j _ => rfl,
      fun c hc => absurd hc (List.not_mem_nil c)⟩
  | cons c T ih =>
    rw [List.foldl_cons]
    rw [List.flatMap_cons] at hnd
    obtain ⟨hnd1, hnd2, hdisj⟩ := List.nodup_append.mp hnd
    have hstep : InvOn (dirtyContStep st c) tr ∧ SameFields (dirtyContStep st c) st ∧
        (∀ j, j ∉ (st.conts c).children → (dirtyContStep st c).objs j = st.objs j) ∧
        (contStatic (st.conts c) = false →
          ∀ x ∈ (st.conts c).children, ((dirtyContStep st c).objs x).dirty = false) := by
      rw [dirtyContStep]
      split
      · next hstat =>
        exact ⟨hInv, SameFields.refl st, fun j _ => rfl,
          fun hfalse => absurd hstat (by rw [hfalse]; exact Bool.false_ne_true)⟩
      · obtain ⟨a1, a2, a3, a4⟩ := dirtyFold_clears (st.conts c).children st tr hInv
          (hsub c (List.mem_cons_self _ _)) hnd1
        exact ⟨a1, a2, a3, fun _ => a4⟩
    obtain ⟨s1Inv, s1sf, s1pres, s1cl⟩ := hstep
    have hsub' : ∀ d ∈ T, ∀ x ∈ ((dirtyContStep st c).conts d).children, x ∈ tr := by
      intro d hd x hx
      rw [s1sf.2.2.1] at hx
      exact hsub d (List.mem_cons_of_mem _ hd) x hx
    have hnd2' : (T.flatMap (fun d => ((dirtyContStep st c).conts d).children)).Nodup := by
      rw [s1sf.2.2.1]
      exact hnd2
    obtain ⟨ihInv, ihsf, ihpres, ihcl⟩ := ih (dirtyContStep st c) s1Inv hsub' hnd2'
    refine ⟨ihInv, ihsf.trans s1sf, ?_, ?_⟩
    · intro j hj
      rw [List.flatMap_cons] at hj
      have hjc : j ∉ (st.conts c).children :=
        fun hh => hj (List.mem_append_left _ hh)
      have hjT : j ∉ T.flatMap (fun d => ((dirtyContStep st c).conts d).children) := by
        rw [s1sf.2.2.1]
        exact fun hh => hj (List.mem_append_right _ hh)
      rw [ihpres j hjT, s1pres j hjc]
    · intro d hd hdst x hx
      rcases List.mem_cons.mp hd with hdc | hdT
      · subst hdc
        have hxT : x ∉ T.flatMap (fun e => ((dirtyContStep st d).conts e).children) := by
          rw [s1sf.2.2.1]
          exact fun hh => hdisj hx hh
        rw [ihpres x hxT]
        exact s1cl hdst x hx
      · refine ihcl d hdT ?_ x ?_
        · rw [s1sf.2.2.1]
          exact hdst
        · rw [s1sf.2.2.1]
          exact hx

theorem fullContFold_settles (L : List CId) (st : State) (tr : List Id)
    (hInv : InvOn st tr)
    (hsub : ∀ c ∈ L, ∀ x ∈ (st.conts c).children, x ∈ tr)
    (hnd : (L.flatMap (fun c => (st.conts c).children)).Nodup) :
    InvOn (L.foldl fullContStep st) tr ∧
    SameFields (L.foldl fullContStep st) st ∧
    (∀ j, j ∉ L.flatMap (fun c => (st.conts c).children) →
      (L.foldl fullContStep st).objs j = st.objs j) ∧
    (∀ c ∈ L, contStatic (st.conts c) = false →
      ∀ x ∈ (st.conts c).children, SettledAt (L.foldl fullContStep st) x) := by
  induction L generalizing st with
  | nil =>
    exact ⟨hInv, SameFields.refl st, fun j _ => rfl,
      fun c hc => absurd hc (List.not_mem_nil c)⟩
  | cons c T ih =>
    rw [List.foldl_cons]
    rw [List.flatMap_cons] at hnd
    obtain ⟨hnd1, hnd2, hdisj⟩ := List.nodup_append.mp hnd
    have hstep : InvOn (fullContStep st c) tr ∧ SameFields (fullContStep st c) st ∧
        (∀ j, j ∉ (st.conts c).children → (fullContStep st c).objs j = st.objs j) ∧
        (contStatic (st.conts c) = false →
          ∀ x ∈ (st.conts c).children, SettledAt (fullContStep st c) x) := by
      rw [fullContStep]
      split
      · next hstat =>
        exact ⟨hInv, SameFields.refl st, fun j _ => rfl,
          fun hfalse => absurd hstat (by rw [hfalse]; exact Bool.false_ne_true)⟩
      · obtain ⟨a1, a2, a3, a4⟩ := updFold_settles (st.conts c).children st tr hInv
          (hsub c (List.mem_cons_self _ _)) hnd1
        exact ⟨a1, a2, a3, fun _ => a4⟩
    obtain ⟨s1Inv, s1sf, s1pres, s1set⟩ := hstep
    have hsub' : ∀ d ∈ T, ∀ x ∈ ((fullContStep st c).conts d).children, x ∈ tr := by
      intro d hd x hx
      rw [s1sf.2.2.1] at hx
      exact hsub d (List.mem_cons_of_mem _ hd) x hx
    have hnd2' : (T.flatMap (fun d => ((fullContStep st c).conts d).children)).Nodup := by
      rw [s1sf.2.2.1]
      exact hnd2
    obtain ⟨ihInv, ihsf, ihpres, ihset⟩ := ih (fullContStep st c) s1Inv hsub' hnd2'
    refine ⟨ihInv, ihsf.trans s1sf, ?_, ?_⟩
    · intro j hj
      rw [List.flatMap_cons] at hj
      have hjc : j ∉ (st.conts c).children :=
        fun hh => hj (List.mem_append_left _ hh)
      have hjT : j ∉ T.flatMap (fun d => ((fullContStep st c).conts d).children) := by
        rw [s1sf.2.2.1]
        exact fun hh => hj (List.mem_append_right _ hh)
      rw [ihpres j hjT, s1pres j hjc]
    · intro d hd hdst x hx
      rcases List.mem_cons.mp hd with hdc | hdT
      · subst hdc
        have hxT : x ∉ T.flatMap (fun e => ((fullContStep st d).conts e).children) := by
          rw [s1sf.2.2.1]
          exact fun hh => hdisj hx hh
        exact SettledAt_congr (ihpres x hxT) ihsf.2.2.2.1 ihsf.2.2.2.2.1
          (s1set hdst x hx)
      · refine ihset d hdT ?_ x ?_
        · rw [s1sf.2.2.1]
          exact hdst
        · rw [s1sf.2.2.1]
          exact hx

theorem updateObjects_dirty_settle (s : State) (hInv : Inv s)
    (hnd : (trackedIds s).Nodup) (hdt : s.dirtyTest = true) :
    (∀ i ∈ (updateObjects s).elements, ((updateObjects s).objs i).dirty = false) ∧
    (∀ c ∈ (updateObjects s).containers,
      contStatic ((updateObjects s).conts c) = false →
      ∀ x ∈ ((updateObjects s).conts c).children,
        ((updateObjects s).objs x).dirty = false) ∧
    (updateObjects s).dirtyTest = true := by
  rw [trackedIds] at hnd
  obtain ⟨hndE, hndC, hdisj⟩ := List.nodup_append.mp hnd
  have hq : updateObjects s =
      (s.elements.foldl dirtyStep s).containers.foldl dirtyContStep
        (s.elements.foldl dirtyStep s) := by
    simp only [updateObjects, if_pos hdt]
  obtain ⟨e1, e2, e3, e4⟩ := dirtyFold_clears s.elements s (trackedIds s) hInv
    (fun x hx => List.mem_append_left _ hx) hndE
  have hsubC : ∀ c ∈ (s.elements.foldl dirtyStep s).containers,
      ∀ x ∈ ((s.elements.foldl dirtyStep s).conts c).children, x ∈ trackedIds s := by
    intro c hc x hx
    rw [e2.2.1] at hc
    rw [e2.2.2.1] at hx
    exact List.mem_append_right _ (List.mem_flatMap.mpr ⟨c, hc, hx⟩)
  have hndC' : ((s.elements.foldl dirtyStep s).containers.flatMap
      (fun c => ((s.elements.foldl dirtyStep s).conts c).children)).Nodup := by
    rw [e2.2.1, e2.2.2.1]
    exact hndC
  obtain ⟨f1, f2, f3, f4⟩ := dirtyContFold_clears
    (s.elements.foldl dirtyStep s).containers
    (s.elements.foldl dirtyStep s) (trackedIds s) e1 hsubC hndC'
  rw [hq]
  refine ⟨?_, ?_, ?_⟩
  · intro i hi
    rw [f2.1, e2.1] at hi
    have hiC : i ∉ (s.elements.foldl dirtyStep s).containers.flatMap
        (fun c => ((s.elements.foldl dirtyStep s).conts c).children) := by
      rw [e2.2.1, e2.2.2.1]
      exact fun hh => hdisj hi hh
    rw [f3 i hiC]
    exact e4 i hi
  · intro c hc hcst x hx
    rw [f2.2.1] at hc
    rw [f2.2.2.1] at hcst hx
    exact f4 c hc hcst x hx
  · rw [f2.2.2.2.2.2.2, e2.2.2.2.2.2.2]
    exact hdt

theorem updateObjects_full_settle (s : State) (hInv : Inv s)
    (hnd : (trackedIds s).Nodup) (hdt : ¬(s.dirtyTest = true)) :
    (∀ i ∈ (updateObjects s).elements, ((updateObjects s).objs i).staticObject = true ∨
      SettledAt (updateObjects s) i) ∧
    (∀ c ∈ (updateObjects s).containers,
      contStatic ((updateObjects s).conts c) = false →
      ∀ x ∈ ((updateObjects s).conts c).children, SettledAt (updateObjects s) x) ∧
    ¬((updateObjects s).dirtyTest = true) := by
  rw [trackedIds] at hnd
  obtain ⟨hndE, hndC, hdisj⟩ := List.nodup_append.mp hnd
  have hq : updateObjects s =
      (s.elements.foldl fullStep s).containers.foldl fullContStep
        (s.elements.foldl fullStep s) := by
    simp only [updateObjects, if_neg hdt]
  obtain ⟨e1, e2, e3, e4⟩ := fullFold_settles s.elements s (trackedIds s) hInv
    (fun x hx => List.mem_append_left _ hx) hndE
  have hsubC : ∀ c ∈ (s.elements.foldl fullStep s).containers,
      ∀ x ∈ ((s.elements.foldl fullStep s).conts c).children, x ∈ trackedIds s := by
    intro c hc x hx
    rw [e2.2.1] at hc
    rw [e2.2.2.1] at hx
    exact List.mem_append_right _ (List.mem_flatMap.mpr ⟨c, hc, hx⟩)
  have hndC' : ((s.elements.foldl fullStep s).containers.flatMap
      (fun c => ((s.elements.foldl fullStep s).conts c).children)).Nodup := by
    rw [e2.2.1, e2.2.2.1]
    exact hndC
  obtain ⟨f1, f2, f3, f4⟩ := fullContFold_settles
    (s.elements.foldl fullStep s).containers
    (s.elements.foldl fullStep s) (trackedIds s) e1 hsubC hndC'
  rw [hq]
  refine ⟨?_, ?_, ?_⟩
  · intro i hi
    rw [f2.1, e2.1] at hi
    have hiC : i ∉ (s.elements.foldl fullStep s).containers.flatMap
        (fun c => ((s.elements.foldl fullStep s).conts c).children) := by
      rw [e2.2.1, e2.2.2.1]
      exact fun hh => hdisj hi hh
    rcases e4 i hi with hstat | hset
    · left
      rw [f3 i hiC]
      exact hstat
    · right
      exact SettledAt_congr (f3 i hiC) f2.2.2.2.1 f2.2.2.2.2.1 hset
  · intro c hc hcst x hx
    rw [f2.2.1] at hc
    rw [f2.2.2.1] at hcst hx
    exact f4 c hc hcst x hx
  · rw [f2.2.2.2.2.2.2, e2.2.2.2.2.2.2]
    exact hdt

/-- **C8** (confirmed).  On a consistent index state — the invariant every
state reachable through the API satisfies — refresh is idempotent: a
second `updateObjects` with no intervening mutation returns the state
*unchanged* (in particular it changes no bucket), in both dirty-test mode
(pass one cleared every processed dirty flag, so pass two skips
everything) and full-scan mode (pass one cached exactly the ranges pass
two recomputes, so every `updateObject` takes the cheap path and rewrites
the object with its own value). -/
theorem c8_idempotent_refresh (s : State) (hInv : Inv s)
    (hnd : (trackedIds s).Nodup) :
    updateObjects (updateObjects s) = updateObjects s := by
  by_cases hdt : s.dirtyTest = true
  · obtain ⟨hclE, hclC, hdt1⟩ := updateObjects_dirty_settle s hInv hnd hdt
    exact updateObjects_dirty_id (updateObjects s) hdt1 hclE hclC
  · obtain ⟨hsetE, hsetC, hdt1⟩ := updateObjects_full_settle s hInv hnd hdt
    exact updateObjects_full_id (updateObjects s) hdt1 hsetE hsetC

/-- Witness: the C8 theorem on the one-object index `WC1`. -/
theorem c8_idempotent_refresh_witness :
    updateObjects (updateObjects WC1) = updateObjects WC1 :=
  c8_idempotent_refresh WC1 Inv_WC1 (by decide)

end PixiCull
